import Mathlib

/-!
Verification of the calc-inf arbitrary-precision arithmetic library.

This file shallowly embeds the numeric kernel of the repository:
the sign-magnitude big integers, the binary floating point type
`BigFloat` (mantissa times a power of two, normalized so that a
nonzero mantissa is odd), the lazy `Real` values (functions from a
requested precision to a `BigFloat`), and the limb-level unsigned
big integer with its Knuth-style long division.

Machine integers are modelled as `Nat`/`Int`; 64-bit limbs are
naturals accompanied by explicit reductions modulo `2 ^ 64` where the
code truncates.  Fallible code returns `Option`.
-/

namespace CalcInf

/-- Fuel-driven helper for `trailingZeros`; the fuel only bounds the
recursion depth and `fuel ≥ n` makes it exact. -/
def tzAux : ℕ → ℕ → ℕ
  | 0, _ => 0
  | fuel + 1, n => if n = 0 then 0 else if n % 2 = 0 then tzAux fuel (n / 2) + 1 else 0

/-- Number of trailing zero binary digits of a natural number, with
`trailingZeros 0 = 0`.  Value-level reading of `BigUInt::trailing_zeros`
(src/bignums/src/biguint/bits.rs), which counts limb-by-limb and
returns 0 for zero. -/
def trailingZeros (n : ℕ) : ℕ := tzAux n n

/-- Fuel-driven helper for `ilog2N`. -/
def log2Aux : ℕ → ℕ → ℕ
  | 0, _ => 0
  | fuel + 1, n => if 2 ≤ n then log2Aux fuel (n / 2) + 1 else 0

/-- Floor of the base-2 logarithm, with `ilog2N 0 = 0`: value-level
reading of `BigUInt::ilog2` (src/bignums/src/biguint/exp.rs), which
derives it from the leading limb's bit length. -/
def ilog2N (n : ℕ) : ℕ := log2Aux n n

/-- Sign-magnitude signed big integer: a (negative flag, magnitude)
pair.  The struct definition of the `bignums` crate is not under
`src/`; modelled from the spec: "Signed.  A pair (negative flag,
magnitude)...  The value is (−1)^flag · magnitude."  The operations
below are translated from src/src/bigint/{add,sub,mul,set_val}.rs. -/
structure SBigInt where
  is_negative : Bool
  magnitude : ℕ
deriving Repr, DecidableEq

namespace SBigInt

/-- Integer value of a sign-magnitude pair. -/
def value (a : SBigInt) : ℤ :=
  if a.is_negative then -(a.magnitude : ℤ) else (a.magnitude : ℤ)

def ZERO : SBigInt := ⟨false, 0⟩

def ONE : SBigInt := ⟨false, 1⟩

def NEG_ONE : SBigInt := ⟨true, 1⟩

def is_zero (a : SBigInt) : Bool := a.magnitude = 0

/-- `BigInt::set_zero` via `set_val`: clears the negative flag
(src/src/bigint/set_val.rs). -/
def set_zero : SBigInt := ⟨false, 0⟩

/-- Canonical-zero invariant: the sign flag is false whenever the
magnitude is zero. -/
def Wf (a : SBigInt) : Prop := a.magnitude = 0 → a.is_negative = false

instance (a : SBigInt) : Decidable a.Wf := by
  unfold Wf; infer_instance

/-- `BigInt::neg_in_place` (src/src/bigint/sub.rs): flip the flag
unless the magnitude is zero. -/
def neg (a : SBigInt) : SBigInt :=
  if a.magnitude = 0 then a else ⟨!a.is_negative, a.magnitude⟩

/-- `AddAssign<&BigInt> for BigInt` (src/src/bigint/add.rs lines
48-67): same sign adds magnitudes keeping the sign; different signs
subtract the smaller magnitude from the larger and take the sign of
the larger; equal opposite magnitudes give the canonical zero. -/
def add (a b : SBigInt) : SBigInt :=
  if a.is_negative == b.is_negative then
    ⟨a.is_negative, a.magnitude + b.magnitude⟩
  else
    match compare a.magnitude b.magnitude with
    | .lt => ⟨b.is_negative, b.magnitude - a.magnitude⟩
    | .eq => set_zero
    | .gt => ⟨a.is_negative, a.magnitude - b.magnitude⟩

/-- `SubAssign<&BigInt> for BigInt` (src/src/bigint/sub.rs):
`self.neg_in_place(); self.add_assign(rhs); self.neg_in_place()`. -/
def sub (a b : SBigInt) : SBigInt := ((a.neg).add b).neg

/-- `BigInt::mul_to` (src/src/bigint/mul.rs): zero operand gives the
canonical zero, otherwise magnitudes multiply and the sign is the XOR
of the input signs. -/
def mul (a b : SBigInt) : SBigInt :=
  if a.magnitude = 0 ∨ b.magnitude = 0 then set_zero
  else ⟨xor a.is_negative b.is_negative, a.magnitude * b.magnitude⟩

/-- `BigInt::normalize` of the bignums crate (its file is not under
`src/`; called from src/bignums/src/bigint/div.rs).  Modelled from the
spec: "Sign is canonicalized to non-negative whenever the magnitude
is zero." -/
def normalize (a : SBigInt) : SBigInt :=
  if a.magnitude = 0 then ⟨false, a.magnitude⟩ else a

/-- Truncated signed division, `DivRem for &mut BigInt`
(src/bignums/src/bigint/div.rs lines 23-41): magnitudes divide, the
quotient sign is the XOR of the operand signs, then both outputs are
canonicalized.  The unsigned magnitude division of the bignums crate
is not under `src/`; modelled from the spec: Knuth-style long
division returning the Euclidean quotient. -/
def divT (a b : SBigInt) : SBigInt :=
  normalize ⟨xor a.is_negative b.is_negative, a.magnitude / b.magnitude⟩

/-- `From<u64>/From<i64>` style constructor for a signed big integer. -/
def ofInt (v : ℤ) : SBigInt := ⟨v < 0, v.natAbs⟩

end SBigInt

/-- Binary floating point number: value `m · 2^e`
(src/bignums/src/bigfloat.rs).  The mantissa is a sign-magnitude
signed big integer, the exponent a (machine) integer. -/
structure BigFloat where
  m : SBigInt
  e : ℤ
deriving Repr, DecidableEq

namespace BigFloat

/-- Rational value `m · 2^e` of a BigFloat. -/
def val (x : BigFloat) : ℚ := (x.m.value : ℚ) * 2 ^ x.e

def ZERO : BigFloat := ⟨SBigInt.ZERO, 0⟩

def ONE : BigFloat := ⟨SBigInt.ONE, 0⟩

def NEG_ONE : BigFloat := ⟨SBigInt.NEG_ONE, 0⟩

def is_zero (x : BigFloat) : Bool := x.m.is_zero

def is_negative (x : BigFloat) : Bool := x.m.is_negative

/-- The BigFloat representation invariant
(src/bignums/src/bigfloat.rs): a zero mantissa forces a zero
exponent, and a nonzero mantissa is odd (no trailing zero bits). -/
def Inv (x : BigFloat) : Prop :=
  (x.m.magnitude = 0 → x.e = 0) ∧ (x.m.magnitude ≠ 0 → x.m.magnitude % 2 = 1)

instance (x : BigFloat) : Decidable x.Inv := by
  unfold Inv; infer_instance

/-- `BigFloat::normalize` (src/bignums/src/bigfloat.rs lines 117-125):
zero mantissa resets the exponent; otherwise the mantissa's trailing
zero bits are shifted out and added to the exponent. -/
def normalize (x : BigFloat) : BigFloat :=
  if x.m.magnitude = 0 then ⟨x.m, 0⟩
  else
    let tz := trailingZeros x.m.magnitude
    ⟨⟨x.m.is_negative, x.m.magnitude / 2 ^ tz⟩, x.e + tz⟩

/-- `BigFloat::from_mantissa_exponent` (src/bignums/src/bigfloat.rs). -/
def from_mantissa_exponent (m : SBigInt) (e : ℤ) : BigFloat :=
  normalize ⟨m, e⟩

/-- `From<i64> for BigFloat` via `set_val`
(src/bignums/src/bigfloat/set_val.rs): zero maps to the canonical
zero, otherwise the mantissa is set and the result normalized. -/
def ofInt (v : ℤ) : BigFloat :=
  if v = 0 then ZERO else normalize ⟨SBigInt.ofInt v, 0⟩

/-- `BigFloat::ilog2` (src/bignums/src/bigfloat/log.rs):
`m.magnitude.ilog2() as i64 + e`; the magnitude's ilog2 is its
floor-log2 (src/bignums/src/biguint/exp.rs). -/
def ilog2 (x : BigFloat) : ℤ := (ilog2N x.m.magnitude : ℤ) + x.e

/-- `BigFloat::ilog2_exact` (src/bignums/src/bigfloat/log.rs): `e`
if the (normalized) mantissa magnitude is one, else none. -/
def ilog2_exact (x : BigFloat) : Option ℤ :=
  if x.m.magnitude = 0 then none
  else if x.m.magnitude = 1 then some x.e else none

/-- `ShrAssign for BigFloat` (src/bignums/src/bigfloat/bits.rs):
only the exponent moves; the mantissa is untouched. -/
def shr (x : BigFloat) (k : ℤ) : BigFloat := ⟨x.m, x.e - k⟩

/-- `ShlAssign for BigFloat` (src/bignums/src/bigfloat/bits.rs). -/
def shl (x : BigFloat) (k : ℤ) : BigFloat := ⟨x.m, x.e + k⟩

/-- `Neg for BigFloat` (src/bignums/src/bigfloat/sub.rs): negate the
mantissa in place. -/
def negF (x : BigFloat) : BigFloat := ⟨x.m.neg, x.e⟩

def abs (x : BigFloat) : BigFloat := ⟨⟨false, x.m.magnitude⟩, x.e⟩

/-- `Add<&BigFloat> for &BigFloat` (src/bignums/src/bigfloat/add.rs):
zero operands shortcut; otherwise the operand with the larger
exponent has its mantissa magnitude shifted left by the exponent
difference, the mantissas are added at the smaller exponent, and the
result is normalized. -/
def addF (a b : BigFloat) : BigFloat :=
  if a.is_zero then b
  else if b.is_zero then a
  else if b.e ≤ a.e then
    normalize ⟨SBigInt.add ⟨a.m.is_negative, a.m.magnitude * 2 ^ (a.e - b.e).toNat⟩ b.m, b.e⟩
  else
    normalize ⟨SBigInt.add ⟨b.m.is_negative, b.m.magnitude * 2 ^ (b.e - a.e).toNat⟩ a.m, a.e⟩

/-- `Sub<&BigFloat> for &BigFloat` (src/bignums/src/bigfloat/sub.rs),
translated exactly as written: in the branch where the left operand
has the smaller exponent the code computes `rhs.m -= &self.m` on the
scaled right mantissa, i.e. `b − a` rather than `a − b`. -/
def subF (a b : BigFloat) : BigFloat :=
  if a.is_zero then negF b
  else if b.is_zero then a
  else if b.e ≤ a.e then
    normalize ⟨SBigInt.sub ⟨a.m.is_negative, a.m.magnitude * 2 ^ (a.e - b.e).toNat⟩ b.m, b.e⟩
  else
    normalize ⟨SBigInt.sub ⟨b.m.is_negative, b.m.magnitude * 2 ^ (b.e - a.e).toNat⟩ a.m, a.e⟩

/-- `Mul<&BigFloat> for &BigFloat` (src/bignums/src/bigfloat/mul.rs):
mantissas multiply, exponents add, the result is normalized. -/
def mulF (a b : BigFloat) : BigFloat :=
  from_mantissa_exponent (a.m.mul b.m) (a.e + b.e)

/-- `BigFloat::round_to_precision` (src/bignums/src/bigfloat/round.rs):
rounds so the absolute error is below `2^-prec`; the discarded bits
round half-up using the highest discarded bit, then the result is
normalized. -/
def round_to_precision (x : BigFloat) (prec : ℤ) : BigFloat :=
  if x.is_zero then x
  else
    let cur_lsb_weight := x.e
    let new_lsb_weight := -prec
    if new_lsb_weight ≤ cur_lsb_weight then x
    else
      let shift := (new_lsb_weight - cur_lsb_weight).toNat
      let round_up := x.m.magnitude / 2 ^ (shift - 1) % 2 = 1
      let mag0 := x.m.magnitude / 2 ^ shift
      let mag := if round_up then mag0 + 1 else mag0
      normalize ⟨⟨x.m.is_negative, mag⟩, new_lsb_weight⟩

/-- `BigFloat::add_with_precision` (src/bignums/src/bigfloat/add.rs):
add, then round to the given precision. -/
def add_with_precision (a b : BigFloat) (prec : ℤ) : BigFloat :=
  round_to_precision (addF a b) prec

/-- Modelled from the spec: `mul_with_precision` is not under `src/`;
spec section 4.4 states "Multiplication.  Mantissas multiply,
exponents add, result normalizes.  `mul_with_precision` rounds
after."  The multiplication itself is the one translated from
src/bignums/src/bigfloat/mul.rs. -/
def mul_with_precision (a b : BigFloat) (prec : ℤ) : BigFloat :=
  round_to_precision (mulF a b) prec

/-- Modelled from the spec: `sub_with_precision` is not under `src/`;
by the same pattern as `add_with_precision` it composes the
subtraction translated from src/bignums/src/bigfloat/sub.rs with
`round_to_precision`. -/
def sub_with_precision (a b : BigFloat) (prec : ℤ) : BigFloat :=
  round_to_precision (subF a b) prec

/-- `BigFloat::cmp_abs` inner comparison, `cmp_abs_non_zero`
(src/bignums/src/bigfloat/cmp.rs lines 188-203): compare the real
exponents `e + ilog2(mag)` first, then compare mantissa magnitudes
brought to the common (smaller) exponent. -/
def cmp_abs_non_zero (a b : BigFloat) : Ordering :=
  let a_e_real := a.e + (ilog2N a.m.magnitude : ℤ)
  let b_e_real := b.e + (ilog2N b.m.magnitude : ℤ)
  (compare a_e_real b_e_real).then
    (match compare a.e b.e with
     | .lt => compare a.m.magnitude (b.m.magnitude * 2 ^ (b.e - a.e).toNat)
     | .eq => compare a.m.magnitude b.m.magnitude
     | .gt => compare (a.m.magnitude * 2 ^ (a.e - b.e).toNat) b.m.magnitude)

/-- `BigFloat::cmp_abs` (src/bignums/src/bigfloat/cmp.rs lines 9-17). -/
def cmp_abs (a b : BigFloat) : Ordering :=
  match a.is_zero, b.is_zero with
  | true, true => .eq
  | true, false => .lt
  | false, true => .gt
  | false, false => cmp_abs_non_zero a b

/-- `Ord for BigFloat` (src/bignums/src/bigfloat/cmp.rs lines
135-145): dispatch on the sign flags, comparing magnitudes (reversed
when both negative). -/
def cmpF (a b : BigFloat) : Ordering :=
  match a.is_negative, b.is_negative with
  | false, false => cmp_abs a b
  | false, true => .gt
  | true, false => .lt
  | true, true => (cmp_abs_non_zero a b).swap

/-- Rust `a <= b` via `Ord`: the comparison is not `Greater`. -/
def leF (a b : BigFloat) : Bool := cmpF a b ≠ .gt

/-- `BigFloat::is_one` (src/bignums/src/bigfloat.rs):
`self.m.is_one() && self.e == 0`. -/
def is_one (x : BigFloat) : Bool := x.m == SBigInt.ONE && x.e == 0

/-- Newton-Raphson loop of `BigFloat::reciprocal`
(src/bignums/src/bigfloat/div.rs): one step computes
`x := x·(2 − s·x)` at the working precision and exits once the
rounded residual `1 − s·x` is zero or small enough.  The loop is
given explicit fuel; exhausting it yields `none`. -/
def reciprocalLoop (s : BigFloat) (working_prec actual_prec log_s : ℤ) :
    BigFloat → ℕ → Option BigFloat
  | _, 0 => none
  | x, fuel + 1 =>
    let prod := mul_with_precision s x working_prec
    let delta := sub_with_precision (ofInt 1) prod working_prec
    let diff := sub_with_precision (ofInt 2) prod working_prec
    let x1 := mul_with_precision x diff working_prec
    if delta.is_zero ∨ delta.ilog2 ≤ -actual_prec + log_s - 1 then some x1
    else reciprocalLoop s working_prec actual_prec log_s x1 fuel

/-- `BigFloat::reciprocal` (src/bignums/src/bigfloat/div.rs): zero
fails; a power of two inverts exactly; otherwise a 64-bit-accurate
seed from exact integer division is refined by the Newton loop and
rounded to `prec + 2`.  The division seeding the estimate is the
signed truncated division `divT`. -/
def reciprocal (s : BigFloat) (prec : ℤ) (fuel : ℕ) : Option BigFloat :=
  if s.is_zero then none
  else if s.ilog2_exact.isSome then
    some (from_mantissa_exponent
      (if s.is_negative then SBigInt.NEG_ONE else SBigInt.ONE) (-s.e))
  else
    let shift : ℕ := ilog2N s.m.magnitude + 64
    let m_est := SBigInt.divT ⟨false, 2 ^ shift⟩ s.m
    let est := from_mantissa_exponent m_est (-s.e - shift)
    let actual_prec := prec + 2
    let log_epsilon := (subF (ofInt 1) (mulF s est)).ilog2 + 1
    let target_log_epsilon := s.ilog2 - actual_prec
    if log_epsilon < target_log_epsilon then some est
    else
      let q := Int.tdiv target_log_epsilon log_epsilon + 1
      let n_iter : ℤ := (ilog2N q.toNat : ℤ) + 2
      let log_s := s.ilog2
      let working_prec := actual_prec + n_iter + max 0 est.ilog2 + 16
      (reciprocalLoop s working_prec actual_prec log_s est fuel).map
        (fun x => round_to_precision x actual_prec)

/-- `BigFloat::div` (src/bignums/src/bigfloat/div.rs): reciprocal of
the divisor at `prec + ilog2(dividend) + 1`, then a multiplication
rounded to `prec + 1`. -/
def divF (a b : BigFloat) (prec : ℤ) (fuel : ℕ) : Option BigFloat :=
  (reciprocal b (prec + a.ilog2 + 1) fuel).map
    (fun r => mul_with_precision a r (prec + 1))

/-- `BigFloat::est_sqrt` (src/bignums/src/bigfloat/sqrt.rs). -/
def est_sqrt (x : BigFloat) : BigFloat :=
  let shift0 : ℤ := (ilog2N x.m.magnitude : ℤ)
  let shift := if (x.e + shift0) % 2 ≠ 0 then shift0 + 1 else shift0
  let n := Int.tdiv (x.e + shift) 2
  let a := from_mantissa_exponent SBigInt.ONE (n - 1)
  let b := from_mantissa_exponent x.m (n - shift - 1)
  addF a b

/-- Newton loop of `BigFloat::sqrt` (src/bignums/src/bigfloat/sqrt.rs):
`x := (x + s/x)/2` until the step `x − s/x` is zero or has
log2 at most `-actual_prec`. -/
def sqrtLoop (s : BigFloat) (working_prec actual_prec : ℤ) (recipFuel : ℕ) :
    BigFloat → ℕ → Option BigFloat
  | _, 0 => none
  | x, fuel + 1 => do
    let q ← divF s x working_prec recipFuel
    let delta := sub_with_precision x q working_prec
    let x1 := shr (add_with_precision x q working_prec) 1
    if delta.is_zero ∨ delta.ilog2 ≤ -actual_prec then pure x1
    else sqrtLoop s working_prec actual_prec recipFuel x1 fuel

/-- `BigFloat::sqrt` (src/bignums/src/bigfloat/sqrt.rs): negative
fails, zero and one are fixed points, otherwise Newton iteration at
`max prec 8 + 16` guard bits, rounded back to `prec`. -/
def sqrtF (s : BigFloat) (prec : ℤ) (fuel : ℕ) : Option BigFloat :=
  if s.is_negative then none
  else if s.is_zero then some ZERO
  else if s.is_one then some ONE
  else
    let actual_prec := max prec 8
    let working_prec := actual_prec + 16
    let x := est_sqrt s
    (sqrtLoop s working_prec actual_prec fuel x fuel).map
      (fun y => round_to_precision y prec)

/-- `BigFloat::inv_sqrt2` (src/bignums/src/bigfloat/consts.rs):
square root of one half. -/
def inv_sqrt2 (prec : ℤ) (fuel : ℕ) : Option BigFloat :=
  sqrtF (shr ONE 1) prec fuel

/-- Working precision used by the series loop of `BigFloat::ln2`
(src/bignums/src/bigfloat/consts.rs line 11):
`prec + prec.ilog2() + 16`. -/
def ln2WorkingPrec (prec : ℤ) : ℤ := prec + (ilog2N prec.toNat : ℤ) + 16

/-- Series loop of `BigFloat::ln2_underestimate`
(src/bignums/src/bigfloat/consts.rs): while `k ≤ prec`, add
`reciprocal(k) >> k` into the accumulator. -/
def ln2Loop (working_prec prec : ℤ) (recipFuel : ℕ) :
    ℤ → BigFloat → ℕ → Option BigFloat
  | _, _, 0 => none
  | k, res, fuel + 1 =>
    if prec < k then some res
    else do
      let a ← reciprocal (ofInt k) working_prec recipFuel
      let b := a.shr k
      ln2Loop working_prec prec recipFuel (k + 1) (addF res b) fuel

/-- `BigFloat::ln2_underestimate` (src/bignums/src/bigfloat/consts.rs
lines 4-23): sum `1/(k·2^k)` for `k = 1..prec` at the working
precision, then round to `prec`. -/
def ln2U (prec : ℤ) (fuel : ℕ) : Option BigFloat :=
  (ln2Loop (ln2WorkingPrec prec) prec fuel 1 ZERO fuel).map
    (fun res => round_to_precision res prec)

/-- Exact partial sum `Σ_{j=k..prec} 1/(j·2^j)` of the ln 2 series,
the mathematical target of the loop of `ln2_underestimate`. -/
def ln2Partial (prec k : ℤ) : ℚ :=
  Finset.sum (Finset.range (prec + 1 - k).toNat)
    (fun i => (((k + (i : ℤ) : ℤ) : ℚ) * 2 ^ (k + (i : ℤ)))⁻¹)

/-- Requested precision plus two: the `actual_prec` of `BigFloat::pi`
(src/bignums/src/bigfloat/consts.rs line 34). -/
def piActualPrec (prec : ℤ) : ℤ := prec + 2

/-- Working precision at which `BigFloat::pi` runs all its
Gauss-Legendre arithmetic (src/bignums/src/bigfloat/consts.rs line
35): `actual_prec + 16`, i.e. `(prec + 2) + 16`. -/
def piWorkingPrec (prec : ℤ) : ℤ := piActualPrec prec + 16

/-- Stopping test of the `BigFloat::pi` loop
(src/bignums/src/bigfloat/consts.rs line 68): the difference of the
two bounds is zero or its log2 plus one is below `-actual_prec`. -/
def piStop (delta : BigFloat) (actual_prec : ℤ) : Bool :=
  delta.is_zero || decide (delta.ilog2 + 1 < -actual_prec)

/-- Gauss-Legendre loop of `BigFloat::pi`
(src/bignums/src/bigfloat/consts.rs lines 47-81), with fuel. -/
def piLoop (working_prec actual_prec : ℤ) (recipFuel : ℕ) :
    BigFloat → BigFloat → BigFloat → ℤ → ℕ → Option BigFloat
  | _, _, _, _, 0 => none
  | a, b, s, n, fuel + 1 => do
    let a_new := shr (add_with_precision a b working_prec) 1
    let b1 ← sqrtF (mul_with_precision a b working_prec) working_prec recipFuel
    let a2 := mul_with_precision a a working_prec
    let a_new2 := mul_with_precision a_new a_new working_prec
    let s_recip ← reciprocal s working_prec recipFuel
    let lo_bound := mul_with_precision a_new2 s_recip working_prec
    let hi_bound := mul_with_precision a2 s_recip working_prec
    let delta := sub_with_precision hi_bound lo_bound working_prec
    if piStop delta actual_prec then pure lo_bound
    else
      let c := sub_with_precision a a_new working_prec
      let c2 := mul_with_precision c c working_prec
      let s1 := sub_with_precision s (shl c2 n) working_prec
      piLoop working_prec actual_prec recipFuel a_new b1 s1 (n + 1) fuel

/-- `BigFloat::pi` (src/bignums/src/bigfloat/consts.rs lines 33-87):
Gauss-Legendre iteration with `a₀ = 1`, `b₀ = 1/√2`, `s₀ = 1/4`,
run at `piWorkingPrec prec`, stopped by `piStop`, result rounded to
`piActualPrec prec`. -/
def pi (prec : ℤ) (fuel : ℕ) : Option BigFloat := do
  let actual_prec := piActualPrec prec
  let working_prec := piWorkingPrec prec
  let b ← inv_sqrt2 working_prec fuel
  let res ← piLoop working_prec actual_prec fuel ONE b (shr ONE 2) 0 fuel
  pure (round_to_precision res actual_prec)

/-- Modelled from the spec: `BigFloat::agm` is not under `src/` (only
its call in src/bignums/src/bigfloat/log.rs); spec section 4.4: "AGM
iterates a_{n+1} = (a_n + b_n)/2, b_{n+1} = √(a_n·b_n) until
successive a's agree to the working precision." -/
def agmF (working_prec : ℤ) (recipFuel : ℕ) :
    BigFloat → BigFloat → ℕ → Option BigFloat
  | a, _, 0 => some a
  | a, b, fuel + 1 => do
    let a1 := shr (add_with_precision a b working_prec) 1
    let b1 ← sqrtF (mul_with_precision a b working_prec) working_prec recipFuel
    let delta := sub_with_precision a a1 working_prec
    if delta.is_zero ∨ delta.ilog2 < -working_prec then pure a1
    else agmF working_prec recipFuel a1 b1 fuel

/-- `BigFloat::ln` (src/bignums/src/bigfloat/log.rs): the AGM
identity `ln x = π/(2·AGM(1, 4/x)) − shift·ln 2` after shifting the
input left so its magnitude is large. -/
def lnF (x : BigFloat) (prec : ℤ) (fuel : ℕ) : Option BigFloat :=
  if x.is_negative then none
  else if x.is_zero then none
  else if x.is_one then some ZERO
  else
    let actual_prec := max (prec + 2) (-7)
    let working_prec := actual_prec * 2 + 16
    let shift := 5 + Int.tdiv actual_prec 2 +
      (ilog2N (actual_prec + 8).toNat : ℤ) - x.ilog2
    let x1 := shl x shift
    do
      let piv ← pi working_prec fuel
      let r ← reciprocal x1 working_prec fuel
      let four_over_x := shl r 2
      let agm ← agmF working_prec fuel ONE four_over_x fuel
      let qv ← divF piv agm working_prec fuel
      let ln_x := shr qv 1
      let ln2v ← ln2U (working_prec + (ilog2N (max 1 shift.natAbs) : ℤ)) fuel
      let ln2_times_shift := mul_with_precision ln2v (ofInt shift) working_prec
      let res := sub_with_precision ln_x ln2_times_shift working_prec
      pure (round_to_precision res actual_prec)

end BigFloat

/-- A lazy real: a function from a requested precision to a BigFloat
approximation (src/bignums/src/real.rs). -/
abbrev RealFn := ℤ → BigFloat

namespace RealFn

/-- `From<BigFloat> for Real` (src/bignums/src/real/convert.rs): the
constant closure ignoring the requested precision. -/
def ofBigFloat (a : BigFloat) : RealFn := fun _ => a

/-- `Mul<Real> for Real` (src/bignums/src/real/mul.rs): probe both
operands at precision 0 for their magnitudes, then evaluate each
operand at a precision padded by the other's magnitude and multiply
with precision `prec + 1`. -/
def mulR (x y : RealFn) : RealFn :=
  let a_round := x 0
  let b_round := y 0
  let a_ilog2 := if a_round.is_zero then 0 else a_round.ilog2
  let b_ilog2 := if b_round.is_zero then 0 else b_round.ilog2
  fun prec =>
    let actual_prec := prec + 1
    let prec_a := actual_prec + 3 + b_ilog2
    let prec_b := actual_prec + 3 + a_ilog2
    let prec_b := max prec_b (-b_ilog2)
    let a := x prec_a
    let b := y prec_b
    BigFloat.mul_with_precision a b actual_prec

/-- `Real::div` (src/bignums/src/real/div.rs): evaluate the divisor
at the tolerance; if its magnitude does not exceed `2^-tol`, return
the recoverable error carrying the original dividend; otherwise
compose the quotient closure.  The fueled Newton division inside the
composed closure is totalized with `.getD BigFloat.ZERO`. -/
def divR (x y : RealFn) (tol : ℤ) (fuel : ℕ) : Except RealFn RealFn :=
  let d_round := y tol
  let tau := BigFloat.shr BigFloat.ONE tol
  if BigFloat.cmp_abs d_round tau ≠ .gt then .error x
  else
    let n_round := x 0
    let n_ilog2 := if n_round.is_zero then 0 else n_round.ilog2
    let d_ilog2 := if d_round.is_zero then 0 else d_round.ilog2
    let d_lower_bound_ilog2 :=
      if d_round.is_negative then (BigFloat.addF d_round tau).ilog2
      else (BigFloat.subF d_round tau).ilog2
    .ok (fun prec =>
      let actual_prec := prec + 1
      let prec_d := actual_prec + 2 * d_lower_bound_ilog2 + n_ilog2 + 2
      let prec_n := actual_prec + 2 * d_lower_bound_ilog2 + d_ilog2 + 2
      let d := y prec_d
      let n := x prec_n
      (BigFloat.divF n d actual_prec fuel).getD BigFloat.ZERO)

/-- `Real::ln` (src/bignums/src/real/log.rs): evaluate the operand at
the tolerance; if it is at most `2^-tol` (signed comparison), return
the recoverable error carrying the original operand; otherwise
compose the logarithm closure. -/
def lnR (x : RealFn) (tol : ℤ) (fuel : ℕ) : Except RealFn RealFn :=
  let x_round := x tol
  let tau := BigFloat.shr BigFloat.ONE tol
  if BigFloat.leF x_round tau then .error x
  else
    .ok (fun prec =>
      let actual_prec := prec + 1
      let x_prec := max actual_prec 64 + tol
      let xv := x x_prec
      (BigFloat.lnF xv actual_prec fuel).getD BigFloat.ZERO)

end RealFn

/-- bignums `Rational`: a signed numerator over an unsigned nonzero
denominator (src/bignums/src/rational.rs), value level. -/
structure RationalQ where
  n : SBigInt
  d : ℕ
deriving Repr, DecidableEq

namespace RationalQ

/-- `Rational::reduce` (src/bignums/src/rational.rs lines 106-110):
divide numerator and denominator by their gcd.  The gcd is the
Euclidean one of src/bignums/src/biguint/num_theory.rs (value level
`Nat.gcd`); the numerator divides by the truncated signed division;
the unsigned magnitude division is not under `src/` and is modelled
from the spec as Euclidean division. -/
def reduce (r : RationalQ) : RationalQ :=
  let g := Nat.gcd r.n.magnitude r.d
  ⟨SBigInt.divT r.n ⟨false, g⟩, r.d / g⟩

end RationalQ

namespace Limb

/-- The 64-bit limb base. -/
def B : ℕ := 2 ^ 64

/-- Value of a little-endian limb vector (src/src/biguint.rs: the
numeric value is the base-`2^64` little-endian reading). -/
def val (l : List ℕ) : ℕ := l.foldr (fun d acc => d + acc * B) 0

/-- `BigUInt::truncate_leading_zeros` (src/src/biguint.rs): pop
trailing (most-significant) zero limbs. -/
def truncLZ (l : List ℕ) : List ℕ :=
  (l.reverse.dropWhile (fun d => d == 0)).reverse

/-- `BigUInt::from` of a single machine word: one limb, or empty for
zero (src/src/biguint/set_val.rs). -/
def fromU64 (v : ℕ) : List ℕ := if v = 0 then [] else [v]

/-- Fuel-driven helper for `natLimbs`. -/
def natLimbsAux : ℕ → ℕ → List ℕ
  | 0, _ => []
  | fuel + 1, v => if v = 0 then [] else v % B :: natLimbsAux fuel (v / B)

/-- Canonical little-endian limbs of a natural number (the value
taken by the `BigUInt::from` conversions of wider integers). -/
def natLimbs (v : ℕ) : List ℕ := natLimbsAux v v

/-- Lexicographic comparison of two equal-length digit lists,
most-significant first (`Iterator::cmp` over the reversed limbs). -/
def lexCmp : List ℕ → List ℕ → Ordering
  | [], [] => .eq
  | [], _ :: _ => .lt
  | _ :: _, [] => .gt
  | x :: xs, y :: ys => (compare x y).then (lexCmp xs ys)

/-- `Ord for BigUInt` (src/src/biguint/cmp.rs): compare limb-vector
lengths first, then the limbs most-significant first. -/
def cmpU (a b : List ℕ) : Ordering :=
  (compare a.length b.length).then (lexCmp a.reverse b.reverse)

/-- `u64::overflowing_sub` on limb values. -/
def ovSub (a b : ℕ) : ℕ × Bool :=
  (if a < b then a + B - b else a - b, decide (a < b))

/-- Digit-wise subtraction with borrow over the digits of `lhs`
(the loop shared by `checked_sub_assign` and
`checked_sub_from_assign`, src/src/biguint/sub.rs): each step does
two overflowing subtractions and adds the borrow flags. -/
def subDigits : List ℕ → List ℕ → ℕ → List ℕ × ℕ
  | [], _, borrow => ([], borrow)
  | a :: as_, bs, borrow =>
    let b := bs.headD 0
    let p1 := ovSub a b
    let p2 := ovSub p1.1 borrow
    let rest := subDigits as_ bs.tail (p1.2.toNat + p2.2.toNat)
    (p2.1 :: rest.1, rest.2)

/-- `BigUInt::checked_sub_from_assign` (src/src/biguint/sub.rs):
stores `lhs − self` into `self`; returns false (leaving garbage, the
wrapped difference) when the subtraction underflows or `lhs` has
fewer limbs. -/
def checkedSubFrom (self lhs : List ℕ) : List ℕ × Bool :=
  if lhs.length < self.length then (self, false)
  else
    let p := subDigits lhs self 0
    (truncLZ p.1, p.2 == 0)

/-- `BigUInt::checked_sub_assign` (src/src/biguint/sub.rs). -/
def checkedSubAssign (self rhs : List ℕ) : List ℕ × Bool :=
  if self.length < rhs.length then (self, false)
  else
    let p := subDigits self rhs 0
    (truncLZ p.1, p.2 == 0)

/-- `SubAssign<&BigUInt>` (src/src/biguint/sub.rs): the checked
subtraction; its overflow panic is not reachable on the paths
evaluated here. -/
def subAssignU (self rhs : List ℕ) : List ℕ :=
  (checkedSubAssign self rhs).1

/-- `u64::overflowing_add` on limb values. -/
def ovAdd (a b : ℕ) : ℕ × Bool := ((a + b) % B, decide (B ≤ a + b))

/-- `carrying_mul` (src/src/util.rs): the 64×64 → 128 widening
multiply, value level: low and high limb of the product. -/
def carryingMul (a b : ℕ) : ℕ × ℕ := (a * b % B, a * b / B)

/-- `BigUInt::mul_to` (src/src/biguint/mul.rs): schoolbook
multiplication into a zero-filled buffer of length `n + m`, trailing
zero limbs stripped at the end. -/
def mulTo (lhs rhs : List ℕ) : List ℕ :=
  let newLen := lhs.length + rhs.length
  let data0 := List.replicate newLen 0
  let data := (List.range lhs.length).foldl (fun data i =>
    let a_i := lhs.getD i 0
    let st := (List.range rhs.length).foldl (fun (st : List ℕ × ℕ) j =>
      let b_j := rhs.getD j 0
      let lohi := carryingMul a_i b_j
      let s1 := ovAdd lohi.1 st.2
      let s2 := ovAdd (st.1.getD (i + j) 0) s1.1
      (st.1.set (i + j) s2.1, lohi.2 + s1.2.toNat + s2.2.toNat)) (data, 0)
    st.1.set (i + rhs.length) st.2) data0
  truncLZ data

/-- Carry propagation of the in-limb left shift
(src/src/biguint/bitwise.rs `ShlAssign`), least-significant limb
first: `new = (x << rem) | carry`, `carry = x >> (64 − rem)`. -/
def shlCarryGo (rem : ℕ) : List ℕ → ℕ → List ℕ × ℕ
  | [], carry => ([], carry)
  | d :: ds, carry =>
    let nv := d * 2 ^ rem % B + carry
    let rest := shlCarryGo rem ds (d / 2 ^ (64 - rem))
    (nv :: rest.1, rest.2)

/-- `ShlAssign for BigUInt` (src/src/biguint/bitwise.rs): zero is
untouched; shift by whole limbs then by the remaining bit count,
pushing a final carry limb when nonzero. -/
def shlU (x : List ℕ) (k : ℕ) : List ℕ :=
  if x = [] then x
  else
    let mult64 := k / 64
    let rem := k % 64
    if rem = 0 then List.replicate mult64 0 ++ x
    else
      let p := shlCarryGo rem x 0
      let data := List.replicate mult64 0 ++ p.1
      if p.2 ≠ 0 then data ++ [p.2] else data

/-- Carry propagation of the in-limb right shift
(src/src/biguint/bitwise.rs `ShrAssign`), most-significant limb
first: `new = (x >> rem) | carry`, `carry = (x << (64 − rem))`. -/
def shrCarryGo (rem : ℕ) : List ℕ → ℕ → List ℕ
  | [], _ => []
  | d :: ds, carry => (d / 2 ^ rem + carry) :: shrCarryGo rem ds (d * 2 ^ (64 - rem) % B)

/-- `ShrAssign for BigUInt` (src/src/biguint/bitwise.rs): clear when
shifting out all limbs, drop whole limbs, shift the remaining bits
and pop a top limb that became zero. -/
def shrU (x : List ℕ) (k : ℕ) : List ℕ :=
  let mult64 := k / 64
  let rem := k % 64
  let data := if x.length ≤ mult64 then [] else x
  let data := data.drop mult64
  if rem = 0 then data
  else
    let digits := (shrCarryGo rem data.reverse 0).reverse
    if digits.getLast? = some 0 then digits.dropLast else digits

/-- `BigUInt::shr_digits` (src/bignums/src/biguint/bits.rs; the same
helper is used by the division in src/src/biguint/div.rs): drop whole
low limbs, clearing when the count reaches the length. -/
def shrDigits (l : List ℕ) (digits : ℕ) : List ℕ :=
  if l.length ≤ digits then [] else l.drop digits

/-- `PartialEq<u64> for BigUInt` (src/src/biguint/cmp.rs): empty is
zero, a single limb compares directly, longer vectors never equal a
machine word. -/
def eqU64 (d : List ℕ) (v : ℕ) : Bool :=
  match d.length with
  | 0 => v == 0
  | 1 => d.getD 0 0 == v
  | _ => false

/-- `u64::leading_zeros` of a limb. -/
def leadingZeros64 (x : ℕ) : ℕ :=
  64 - (if x = 0 then 0 else ilog2N x + 1)

/-- `div_2_digits` (src/src/biguint/div.rs): the two-limb by one-limb
division; the release-mode `as u64` cast truncates a quotient that
does not fit in one limb (the debug assertion is compiled out). -/
def div2Digits (n0 n1 d : ℕ) : ℕ := (n0 + n1 * B) / d % B

/-- `correct_q` (src/src/biguint/div.rs): at most two downward
corrections of the trial quotient, comparing `q_est · d` with the
working numerator, then the remainder `n − q_est · d` is written via
`checked_sub_from_assign` (its success flag is ignored by the
source). -/
def correctQ (q_est : ℕ) (n d : List ℕ) : ℕ × List ℕ :=
  let r := mulTo d (fromU64 q_est)
  let st :=
    if cmpU r n ≠ .gt then (q_est, r)
    else
      let r1 := subAssignU r d
      let q1 := q_est - 1
      if cmpU r1 n ≠ .gt then (q1, r1) else (q1 - 1, subAssignU r1 d)
  (st.1, (checkedSubFrom st.2 n).1)

/-- `div_n_plus_1_digits_normalized` (src/src/biguint/div.rs lines
264-298): trial quotient from the top two numerator limbs and the top
divisor limb, then correction.  Debug assertions (length, nonzero
divisor, normalization) are compiled out in release mode. -/
def divNP1 (n d : List ℕ) : ℕ × List ℕ :=
  let n_hi0 := n.getD (n.length - 2) 0
  let n_hi1 := n.getD (n.length - 1) 0
  let d_hi := d.getD (d.length - 1) 0
  correctQ (div2Digits n_hi0 n_hi1 d_hi) n d

/-- `BigUInt::div_rem_to_normalized` (src/src/biguint/div.rs lines
198-243): iterate from the most significant remaining dividend limbs,
maintaining a working numerator, assembling the quotient digits in
reverse and reversing at the end. -/
def divRemToNormalized (n d : List ℕ) : List ℕ × List ℕ :=
  let n_inter0 := shrDigits n (n.length - d.length)
  let xs := (n.take (n.length - d.length)).reverse
  let st := xs.foldl (fun (st : List ℕ × List ℕ × List ℕ) x =>
    let n_inter := st.1
    let q := st.2.1
    let r := st.2.2
    if n_inter.length < d.length then (x :: n_inter, q ++ [0], r)
    else
      let n_inter := if n_inter.length = d.length then n_inter ++ [0] else n_inter
      let p := divNP1 n_inter d
      (x :: p.2, q ++ [p.1], p.2)) (n_inter0, [], [])
  let n_inter := if st.1.length = d.length then st.1 ++ [0] else st.1
  let p := divNP1 n_inter d
  (truncLZ (st.2.1 ++ [p.1]).reverse, p.2)

/-- `BigUInt::div_rem_to_unchecked` (src/src/biguint/div.rs lines
175-196): normalize by the leading-zero count of the divisor's top
limb, divide, shift the remainder back. -/
def divRemToUnchecked (n d : List ℕ) : List ℕ × List ℕ :=
  let nb := leadingZeros64 (d.getD (d.length - 1) 0)
  let p := divRemToNormalized (shlU n nb) (shlU d nb)
  (p.1, shrU p.2 nb)

/-- `div_rem_to` of `DivRem for &mut BigUInt` (src/src/biguint/div.rs
lines 25-36): zero divisor is a hard failure, a smaller dividend
gives `(0, n)`, divisor one gives `(n, 0)`, otherwise the Knuth
division. -/
def divRemTo (n d : List ℕ) : Option (List ℕ × List ℕ) :=
  if eqU64 d 0 then none
  else if cmpU n d = .lt then some ([], n)
  else if eqU64 d 1 then some (n, [])
  else some (divRemToUnchecked n d)

/-- `div_rem_to` of `DivRem<&BigUInt>` for unsigned machine integers
(src/src/biguint/div.rs lines 64-73): when the divisor fits in 128
bits the code assigns `n / d` to BOTH outputs (`*q = BigUInt::from(n
/ d); *r = BigUInt::from(n / d);`); otherwise `(0, n)`. -/
def divRemPrimU (n : ℕ) (d : List ℕ) : List ℕ × List ℕ :=
  if val d ≤ 2 ^ 128 - 1 then (natLimbs (n / val d), natLimbs (n / val d))
  else ([], natLimbs n)

end Limb

/-! String input and output of the bignums crate, embedded over byte
lists (each entry one ASCII code).  The unsigned big integer of the
bignums crate is embedded as a natural number. -/

/-- `digit_to_ascii` (src/bignums/src/util.rs lines 265-271). -/
def digit_to_ascii (d : ℕ) (uppercase : Bool) : ℕ :=
  if d ≤ 9 then 48 + d
  else (if uppercase then 65 else 97) + (d - 10)

/-- `parse_ascii_digit` (src/bignums/src/util.rs lines 273-280). -/
def parse_ascii_digit (c : ℕ) : Option ℕ :=
  if 48 ≤ c ∧ c ≤ 57 then some (c - 48)
  else if 97 ≤ c ∧ c ≤ 122 then some (c - 97 + 10)
  else if 65 ≤ c ∧ c ≤ 90 then some (c - 65 + 10)
  else none

/-- `<[u8]>::split_once` on the first occurrence of byte `c`, as used
by the decimal parser to split at the dot. -/
def split_once : List ℕ → ℕ → Option (List ℕ × List ℕ)
  | [], _ => none
  | b :: rest, c =>
    if b = c then some ([], rest)
    else (split_once rest c).map (fun p => (b :: p.1, p.2))

namespace BigUInt

/-- Square-and-multiply loop of `BigUInt::pow`
(src/bignums/src/biguint/exp.rs lines 5-21), with the shrinking
`power` also serving as fuel. -/
def powAux : ℕ → ℕ → ℕ → ℕ → ℕ
  | 0, _, _, res => res
  | fuel + 1, power, power_of_self, res =>
    if power = 0 then res
    else powAux fuel (power / 2) (power_of_self * power_of_self)
      (if power % 2 = 1 then res * power_of_self else res)

/-- `BigUInt::pow` (src/bignums/src/biguint/exp.rs). -/
def pow (base power : ℕ) : ℕ := powAux power power base 1

/-- Digit-emitting loop of `BigUInt::to_string_radix`
(src/bignums/src/biguint/str.rs): repeated divmod by the radix,
least-significant digit first.  The division of the bignums crate is
not under `src/`; modelled from the spec: "Rendering: repeated divmod
by the radix; collect remainders as digits and reverse." -/
def toStringAux (radix : ℕ) : ℕ → ℕ → List ℕ
  | _, 0 => []
  | n, fuel + 1 =>
    if n = 0 then []
    else digit_to_ascii (n % radix) false :: toStringAux radix (n / radix) fuel

/-- `BigUInt::to_string_radix` (src/bignums/src/biguint/str.rs):
zero prints `"0"`, otherwise the collected digits are reversed.  Only
the lowercase variant is embedded; for radix at most ten the
uppercase flag is irrelevant. -/
def to_string_radix (n radix : ℕ) : List ℕ :=
  if n = 0 then [48] else (toStringAux radix n n).reverse

/-- Accumulating loop of `BigUInt::parse_helper`
(src/bignums/src/biguint/str.rs lines 81-106): iterate the source
digits least-significant first, keeping a running power of the
radix. -/
def parseLoop (radix : ℕ) : List ℕ → ℕ → ℕ → Option ℕ
  | [], _, res => some res
  | c :: rest, power_of_radix, res => do
    let d ← parse_ascii_digit c
    if radix ≤ d then none
    else parseLoop radix rest (power_of_radix * radix) (res + d * power_of_radix)

/-- `BigUInt::parse_helper` (src/bignums/src/biguint/str.rs). -/
def parse_helper (src : List ℕ) (radix : ℕ) : Option ℕ :=
  if src = [] then none else parseLoop radix src.reverse 1 0

/-- `BigUInt::from_ascii_radix` (src/bignums/src/biguint/str.rs
lines 66-78): empty and leading `-` fail, a leading `+` is
dropped. -/
def from_ascii_radix (src : List ℕ) (radix : ℕ) : Option ℕ :=
  if src = [] then none
  else if src.head? = some 45 then none
  else parse_helper (if src.head? = some 43 then src.tail else src) radix

/-- Value of an ASCII digit list read least-significant first; the
mathematical reading of the parse loop's accumulator. -/
def lsbVal (radix : ℕ) : List ℕ → ℕ
  | [] => 0
  | c :: rest => (parse_ascii_digit c).getD 0 + radix * lsbVal radix rest

/-- Value of an ASCII digit list read most-significant first; the
mathematical reading of a rendered digit string. -/
def msbVal (radix : ℕ) : List ℕ → ℕ
  | [] => 0
  | c :: rest => (parse_ascii_digit c).getD 0 * radix ^ rest.length + msbVal radix rest

end BigUInt

namespace SBigInt

/-- `BigInt::abs` of the bignums crate: clear the sign flag. -/
def abs (a : SBigInt) : SBigInt := ⟨false, a.magnitude⟩

/-- `BigInt::set_sign` of the bignums crate (its file is not under
`src/`).  Modelled from the spec: "Sign is canonicalized to
non-negative whenever the magnitude is zero." -/
def set_sign (a : SBigInt) (b : Bool) : SBigInt :=
  if a.magnitude = 0 then ⟨false, a.magnitude⟩ else ⟨b, a.magnitude⟩

/-- `BigInt::from_sign_and_magnitude` of the bignums crate (not under
`src/`).  Modelled from the spec: the sign flag is canonicalized on a
zero magnitude. -/
def from_sign_and_magnitude (b : Bool) (mag : ℕ) : SBigInt :=
  if mag = 0 then ⟨false, mag⟩ else ⟨b, mag⟩

/-- `Shl for BigInt` of the bignums crate: the magnitude shifts, the
sign is kept. -/
def shl (a : SBigInt) (k : ℕ) : SBigInt := ⟨a.is_negative, a.magnitude * 2 ^ k⟩

/-- `Shr for BigInt` of the bignums crate (its file is not under
`src/`).  Modelled from the spec: the discarded low bits act like the
floor division of spec section 4.2 ("if remainder non-zero and
quotient is negative, decrement quotient"), so the shift is the floor
division by `2^k` with a canonicalized result. -/
def shrA (a : SBigInt) (k : ℕ) : SBigInt := SBigInt.ofInt (Int.fdiv a.value (2 ^ k))

/-- `BigInt::to_string_radix` (src/bignums/src/bigint/str.rs): a
minus sign for negatives, then the magnitude's digits. -/
def to_string_radix (a : SBigInt) (radix : ℕ) : List ℕ :=
  (if a.is_negative then [45] else []) ++ BigUInt.to_string_radix a.magnitude radix

/-- `BigInt::from_ascii_radix` (src/bignums/src/bigint/str.rs): strip
an optional `-` recording the sign, strip an optional `+`, parse the
magnitude, combine. -/
def from_ascii_radix (src : List ℕ) (radix : ℕ) : Option SBigInt :=
  if src = [] then none
  else
    let negAndRest := if src.head? = some 45 then (true, src.tail) else (false, src)
    let src2 := if negAndRest.2.head? = some 43 then negAndRest.2.tail else negAndRest.2
    (BigUInt.parse_helper src2 radix).map (from_sign_and_magnitude negAndRest.1)

end SBigInt

namespace BigFloat

/-- `From<&BigInt> for BigFloat` via `SetVal`
(src/bignums/src/bigfloat/set_val.rs lines 26-36): zero clears,
otherwise the mantissa is set and the result normalized. -/
def ofSBigInt (m : SBigInt) : BigFloat :=
  if m.magnitude = 0 then ZERO else normalize ⟨m, 0⟩

/-- `From<&BigUInt> for BigFloat` via `SetVal`
(src/bignums/src/bigfloat/set_val.rs lines 14-24): same construction
as from a signed integer with a non-negative flag. -/
def ofNat (n : ℕ) : BigFloat := BigFloat.ofInt n

/-- `BigFloat::set_sign` (src/bignums/src/bigfloat.rs lines 100-102):
delegate to the mantissa. -/
def set_sign (x : BigFloat) (b : Bool) : BigFloat := ⟨x.m.set_sign b, x.e⟩

/-- `BigFloat::floor_to_precision` (src/bignums/src/bigfloat/round.rs
lines 31-49): discard the low bits with the signed (arithmetic)
shift. -/
def floor_to_precision (x : BigFloat) (prec : ℤ) : BigFloat :=
  if x.is_zero then x
  else if -prec ≤ x.e then x
  else normalize ⟨x.m.shrA (-prec - x.e).toNat, -prec⟩

/-- `BigFloat::ceil_to_precision` (src/bignums/src/bigfloat/round.rs
lines 52-71): discard the low bits and add one unit in the last
place. -/
def ceil_to_precision (x : BigFloat) (prec : ℤ) : BigFloat :=
  if x.is_zero then x
  else if -prec ≤ x.e then x
  else normalize ⟨(x.m.shrA (-prec - x.e).toNat).add SBigInt.ONE, -prec⟩

/-- `BigFloat::trunc` (src/bignums/src/bigfloat/round.rs lines
85-91): ceiling for negatives, floor otherwise. -/
def trunc (x : BigFloat) : BigFloat :=
  if x.is_negative then x.ceil_to_precision 0 else x.floor_to_precision 0

/-- `BigFloat::trunc_fract` (src/bignums/src/bigfloat/round.rs lines
124-129): the truncated integer part as a signed big integer and the
absolute fractional remainder. -/
def trunc_fract (x : BigFloat) : SBigInt × BigFloat :=
  let whole := x.trunc
  ((whole.m.shl whole.e.toNat), (BigFloat.subF x whole).abs)

/-- Digit-emitting loop of `BigFloat::to_string_radix`
(src/bignums/src/bigfloat/str.rs lines 100-108): multiply the
fractional remainder by the radix, truncate off the next digit,
continue until the remainder is exactly zero.  `u8::try_from` on the
digit fails for a negative or too-large integer part. -/
def fract_digits (radix_f : BigFloat) : BigFloat → ℕ → Option (List ℕ)
  | _, 0 => none
  | f, fuel + 1 =>
    if f.is_zero then some []
    else
      let p := BigFloat.trunc_fract (BigFloat.mulF f radix_f)
      if p.1.is_negative = true ∨ 255 < p.1.magnitude then none
      else (fract_digits radix_f p.2 fuel).map
        (fun ds => digit_to_ascii p.1.magnitude false :: ds)

/-- `BigFloat::to_string_radix` (src/bignums/src/bigfloat/str.rs
lines 86-113): optional sign, integer part, and, when the fractional
part is non-zero, a dot and the fractional digits.  The digit loop is
fueled; a non-terminating expansion yields `none`. -/
def to_string_radix (x : BigFloat) (radix : ℕ) (fuel : ℕ) : Option (List ℕ) :=
  let p := BigFloat.trunc_fract x
  let sign : List ℕ := if x.is_negative then [45] else []
  let wholeStr := (SBigInt.abs p.1).to_string_radix radix
  if p.2.is_zero then some (sign ++ wholeStr)
  else (fract_digits (BigFloat.ofNat radix) p.2 fuel).map
    (fun ds => sign ++ wholeStr ++ 46 :: ds)

/-- `BigFloat::from_ascii_radix_with_precision`
(src/bignums/src/bigfloat/str.rs lines 57-84): split at the dot
(defaulting the fraction to `"0"`), parse both parts, convert, divide
the fraction by `radix^digits` at `prec + 16`, add at `prec + 16`,
round to `prec`.  The division is fueled through the embedded Newton
reciprocal. -/
def from_ascii_radix_with_precision (src : List ℕ) (radix : ℕ) (prec : ℤ)
    (fuel : ℕ) : Option BigFloat :=
  let p := (split_once src 46).getD (src, [48])
  let neg : Bool := p.1.head? = some 45
  do
    let whole_i ← SBigInt.from_ascii_radix p.1 radix
    let fract_i ← BigUInt.from_ascii_radix p.2 radix
    let whole_f := BigFloat.ofSBigInt whole_i
    if fract_i = 0 then pure whole_f
    else
      let fract_f := (BigFloat.ofNat fract_i).set_sign neg
      let fract_d := BigFloat.ofNat (BigUInt.pow radix p.2.length)
      let fract_final ← BigFloat.divF fract_f fract_d (prec + 16) fuel
      pure (BigFloat.round_to_precision
        (BigFloat.add_with_precision whole_f fract_final (prec + 16)) prec)

/-- `BigFloat::from_ascii_radix` (src/bignums/src/bigfloat/str.rs
lines 35-39): the default precision derives from the fractional digit
count as `(digits + 16)·(ilog2(radix) + 1)`. -/
def from_ascii_radix (src : List ℕ) (radix : ℕ) (fuel : ℕ) : Option BigFloat :=
  let fract := ((split_once src 46).map Prod.snd).getD []
  BigFloat.from_ascii_radix_with_precision src radix
    (((fract.length : ℤ) + 16) * ((ilog2N radix : ℤ) + 1)) fuel

end BigFloat

/-! Basic facts about the fuel-driven bit helpers. -/

theorem tzAux_mono : ∀ f g n : ℕ, n ≤ f → f ≤ g → tzAux g n = tzAux f n := by
  intro f
  induction f with
  | zero =>
    intro g n hn _
    interval_cases n
    cases g <;> simp [tzAux]
  | succ f ih =>
    intro g n hn hg
    obtain ⟨g, rfl⟩ : ∃ g', g = g' + 1 := ⟨g - 1, by omega⟩
    show tzAux (g + 1) n = tzAux (f + 1) n
    simp only [tzAux]
    rcases eq_or_ne n 0 with rfl | h0
    · simp
    · have hlt : n / 2 < n := Nat.div_lt_self (Nat.pos_of_ne_zero h0) one_lt_two
      rw [ih g (n / 2) (by omega) (by omega)]

theorem trailingZeros_eq (n : ℕ) :
    trailingZeros n =
      if n = 0 then 0 else if n % 2 = 0 then trailingZeros (n / 2) + 1 else 0 := by
  rcases eq_or_ne n 0 with rfl | h0
  · simp [trailingZeros, tzAux]
  · obtain ⟨m, rfl⟩ : ∃ m, n = m + 1 := ⟨n - 1, by omega⟩
    show tzAux (m + 1) (m + 1) = _
    simp only [tzAux, h0, if_neg h0]
    have hle : (m + 1) / 2 ≤ m := by omega
    rw [tzAux_mono ((m + 1) / 2) m ((m + 1) / 2) le_rfl hle]
    rfl

theorem trailingZeros_spec :
    ∀ n : ℕ, n ≠ 0 → 2 ^ trailingZeros n ∣ n ∧ (n / 2 ^ trailingZeros n) % 2 = 1 := by
  intro n
  induction n using Nat.strong_induction_on with
  | _ n ih =>
    intro hn
    rw [trailingZeros_eq, if_neg hn]
    by_cases he : n % 2 = 0
    · have hlt : n / 2 < n := Nat.div_lt_self (Nat.pos_of_ne_zero hn) one_lt_two
      have hne : n / 2 ≠ 0 := by omega
      obtain ⟨hd, ho⟩ := ih (n / 2) hlt hne
      have h2 : 2 * (n / 2) = n := by omega
      constructor
      · rw [if_pos he, pow_succ]
        obtain ⟨c, hc⟩ := hd
        have hcc : 2 ^ trailingZeros (n / 2) * 2 * c = 2 * (n / 2) := by
          conv_rhs => rw [hc]
          ring
        exact ⟨c, by omega⟩
      · rw [if_pos he, pow_succ]
        have : n / (2 ^ trailingZeros (n / 2) * 2) = n / 2 / 2 ^ trailingZeros (n / 2) := by
          rw [mul_comm, Nat.div_div_eq_div_mul]
        rw [this]
        exact ho
    · rw [if_neg he]
      simpa using Nat.odd_iff.mp (Nat.odd_iff.mpr (by omega))

theorem trailingZeros_of_odd {n : ℕ} (h : n % 2 = 1) : trailingZeros n = 0 := by
  rw [trailingZeros_eq]
  simp [h]

theorem log2Aux_mono : ∀ f g n : ℕ, n ≤ f → f ≤ g → log2Aux g n = log2Aux f n := by
  intro f
  induction f with
  | zero =>
    intro g n hn _
    interval_cases n
    cases g <;> simp [log2Aux]
  | succ f ih =>
    intro g n hn hg
    obtain ⟨g, rfl⟩ : ∃ g', g = g' + 1 := ⟨g - 1, by omega⟩
    show log2Aux (g + 1) n = log2Aux (f + 1) n
    simp only [log2Aux]
    by_cases h2 : 2 ≤ n
    · have : n / 2 < n := Nat.div_lt_self (by omega) one_lt_two
      rw [ih g (n / 2) (by omega) (by omega)]
    · simp [h2]

theorem ilog2N_eq (n : ℕ) :
    ilog2N n = if 2 ≤ n then ilog2N (n / 2) + 1 else 0 := by
  by_cases h2 : 2 ≤ n
  · obtain ⟨m, rfl⟩ : ∃ m, n = m + 1 := ⟨n - 1, by omega⟩
    show log2Aux (m + 1) (m + 1) = _
    simp only [log2Aux, if_pos h2]
    have hle : (m + 1) / 2 ≤ m := by omega
    rw [log2Aux_mono ((m + 1) / 2) m ((m + 1) / 2) le_rfl hle]
    rfl
  · interval_cases n <;> simp [ilog2N, log2Aux]

theorem ilog2N_le {n : ℕ} (hn : n ≠ 0) : 2 ^ ilog2N n ≤ n := by
  induction n using Nat.strong_induction_on with
  | _ n ih =>
    rw [ilog2N_eq]
    by_cases h2 : 2 ≤ n
    · have hlt : n / 2 < n := Nat.div_lt_self (by omega) one_lt_two
      have := ih (n / 2) hlt (by omega)
      rw [if_pos h2, pow_succ]
      omega
    · rw [if_neg h2]
      omega

theorem lt_ilog2N (n : ℕ) : n < 2 ^ (ilog2N n + 1) := by
  induction n using Nat.strong_induction_on with
  | _ n ih =>
    rw [ilog2N_eq]
    by_cases h2 : 2 ≤ n
    · have hlt : n / 2 < n := Nat.div_lt_self (by omega) one_lt_two
      have := ih (n / 2) hlt
      rw [if_pos h2, pow_succ, pow_succ]
      omega
    · rw [if_neg h2]
      omega

/-! Value lemmas for the sign-magnitude integers. -/

theorem SBigInt.value_mk (b : Bool) (m : ℕ) :
    (SBigInt.mk b m).value = (if b then (-1 : ℤ) else 1) * m := by
  cases b <;> simp [SBigInt.value]

theorem SBigInt.value_of_mag_zero {a : SBigInt} (h : a.magnitude = 0) :
    a.value = 0 := by
  unfold SBigInt.value
  rw [h]
  cases a.is_negative <;> simp

theorem SBigInt.value_set_zero : SBigInt.set_zero.value = 0 := by
  simp [SBigInt.set_zero, SBigInt.value]

theorem SBigInt.value_mul (a b : SBigInt) :
    (a.mul b).value = a.value * b.value := by
  unfold SBigInt.mul
  split
  · rename_i h
    rcases h with h | h <;>
      simp [SBigInt.value_set_zero, SBigInt.value_of_mag_zero h]
  · rename_i h
    push_neg at h
    rcases a with ⟨an, am⟩
    rcases b with ⟨bn, bm⟩
    cases an <;> cases bn <;> simp [SBigInt.value_mk] <;> push_cast <;> ring

/-! Value and invariant lemmas for BigFloat. -/

theorem BigFloat.val_mk (b : Bool) (mag : ℕ) (e : ℤ) :
    (BigFloat.mk ⟨b, mag⟩ e).val = (if b then (-1 : ℚ) else 1) * mag * 2 ^ e := by
  cases b <;> simp [BigFloat.val, SBigInt.value]

theorem BigFloat.abs_val (x : BigFloat) :
    |x.val| = (x.m.magnitude : ℚ) * 2 ^ x.e := by
  rcases x with ⟨⟨b, mag⟩, e⟩
  rw [BigFloat.val_mk, abs_mul, abs_mul]
  have h2 : |(2 : ℚ) ^ e| = 2 ^ e := abs_of_pos (by positivity)
  cases b <;> simp [h2]

theorem BigFloat.val_normalize (x : BigFloat) :
    (BigFloat.normalize x).val = x.val := by
  unfold BigFloat.normalize
  by_cases h : x.m.magnitude = 0
  · rw [if_pos h]
    rcases x with ⟨⟨b, mag⟩, e⟩
    simp only at h
    subst h
    simp [BigFloat.val_mk]
  · rw [if_neg h]
    rcases x with ⟨⟨b, mag⟩, e⟩
    simp only at h
    have hdvd : 2 ^ trailingZeros mag ∣ mag := (trailingZeros_spec mag h).1
    have hpow : ((2 : ℚ) ^ trailingZeros mag) ≠ 0 := by positivity
    have hcast : ((mag / 2 ^ trailingZeros mag : ℕ) : ℚ) =
        (mag : ℚ) / 2 ^ trailingZeros mag := by
      rw [Nat.cast_div hdvd (by exact_mod_cast hpow)]
      push_cast
      ring
    simp only [BigFloat.val_mk]
    rw [hcast, zpow_add₀ (two_ne_zero) e (trailingZeros mag : ℤ), zpow_natCast]
    field_simp
    ring

theorem BigFloat.val_from_mantissa_exponent (m : SBigInt) (e : ℤ) :
    (BigFloat.from_mantissa_exponent m e).val = (m.value : ℚ) * 2 ^ e := by
  rw [BigFloat.from_mantissa_exponent, BigFloat.val_normalize]
  rfl

theorem BigFloat.val_mulF (a b : BigFloat) :
    (BigFloat.mulF a b).val = a.val * b.val := by
  rw [BigFloat.mulF, BigFloat.val_from_mantissa_exponent, SBigInt.value_mul]
  unfold BigFloat.val
  rw [zpow_add₀ (two_ne_zero : (2 : ℚ) ≠ 0) a.e b.e]
  push_cast
  ring

theorem BigFloat.Inv_normalize (x : BigFloat) : (BigFloat.normalize x).Inv := by
  unfold BigFloat.normalize
  by_cases h : x.m.magnitude = 0
  · rw [if_pos h]
    exact ⟨fun _ => rfl, fun hc => absurd h hc⟩
  · rw [if_neg h]
    obtain ⟨hdvd, hodd⟩ := trailingZeros_spec x.m.magnitude h
    have hne : x.m.magnitude / 2 ^ trailingZeros x.m.magnitude ≠ 0 := by
      intro h0
      rw [h0] at hodd
      simp at hodd
    exact ⟨fun hc => absurd hc hne, fun _ => hodd⟩

theorem BigFloat.normalize_of_inv {x : BigFloat} (h : x.Inv) :
    BigFloat.normalize x = x := by
  rcases x with ⟨m, e⟩
  unfold BigFloat.normalize
  by_cases hz : m.magnitude = 0
  · rw [if_pos hz]
    have he : e = 0 := h.1 hz
    rw [he]
  · rw [if_neg hz]
    have hodd := h.2 hz
    rw [trailingZeros_of_odd hodd]
    simp

theorem BigFloat.normalize_idem (x : BigFloat) :
    BigFloat.normalize (BigFloat.normalize x) = BigFloat.normalize x :=
  BigFloat.normalize_of_inv (BigFloat.Inv_normalize x)

/-- Error of the half-up rounding of a natural number at bit `s`:
the rounded value times `2^s` differs from the input by at most
`2^(s-1)`. -/
theorem round_mag_err (mag s : ℕ) (hs : s ≠ 0) :
    |(((if mag / 2 ^ (s - 1) % 2 = 1 then mag / 2 ^ s + 1 else mag / 2 ^ s : ℕ)) : ℤ)
        * 2 ^ s - (mag : ℤ)| ≤ 2 ^ (s - 1) := by
  obtain ⟨t, rfl⟩ : ∃ t, s = t + 1 := ⟨s - 1, by omega⟩
  simp only [Nat.add_sub_cancel]
  have hH0 : 0 < 2 ^ t := Nat.pos_pow_of_pos t (by omega)
  set q := mag / 2 ^ (t + 1) with hq
  set r := mag % 2 ^ (t + 1) with hr
  have hqr : 2 ^ (t + 1) * q + r = mag := Nat.div_add_mod _ _
  have hr2 : r < 2 ^ (t + 1) := Nat.mod_lt _ (by positivity)
  have hdiv : mag / 2 ^ t = 2 * q + r / 2 ^ t := by
    conv_lhs => rw [← hqr]
    have hrw : 2 ^ (t + 1) * q + r = 2 ^ t * (2 * q) + r := by ring
    rw [hrw, Nat.mul_add_div hH0]
  have hzqr : (mag : ℤ) = 2 ^ (t + 1) * q + r := by exact_mod_cast hqr.symm
  have h2z : (2 : ℤ) ^ (t + 1) = 2 * 2 ^ t := by rw [pow_succ]; ring
  rcases Nat.lt_or_ge r (2 ^ t) with hlt | hge
  · have hbit : mag / 2 ^ t % 2 = 0 := by
      rw [hdiv, Nat.div_eq_of_lt hlt]
      omega
    rw [if_neg (by omega)]
    have hd : (q : ℤ) * 2 ^ (t + 1) - mag = -r := by rw [hzqr]; ring
    rw [hd, abs_neg, abs_of_nonneg (by positivity)]
    have : (r : ℤ) < 2 ^ t := by exact_mod_cast hlt
    omega
  · have hrt : r / 2 ^ t = 1 :=
      Nat.div_eq_of_lt_le (by omega) (by rw [pow_succ] at hr2; omega)
    have hbit : mag / 2 ^ t % 2 = 1 := by
      rw [hdiv, hrt]
      omega
    rw [if_pos hbit]
    have hd : ((q + 1 : ℕ) : ℤ) * 2 ^ (t + 1) - mag = 2 ^ (t + 1) - r := by
      rw [hzqr]; push_cast; ring
    rw [hd]
    have h1 : (r : ℤ) < 2 ^ (t + 1) := by exact_mod_cast hr2
    have h2 : (2 : ℤ) ^ t ≤ r := by exact_mod_cast hge
    rw [abs_of_nonneg (by omega)]
    omega

/-- `round_to_precision` changes the value by at most `2^(-prec-1)`. -/
theorem BigFloat.round_to_precision_err (x : BigFloat) (p : ℤ) :
    |(x.round_to_precision p).val - x.val| ≤ (2 : ℚ) ^ (-p - 1) := by
  unfold BigFloat.round_to_precision
  by_cases hz : x.is_zero
  · rw [if_pos hz]
    simp only [sub_self, abs_zero]
    positivity
  · rw [if_neg hz]
    by_cases hle : -p ≤ x.e
    · rw [if_pos hle]
      simp only [sub_self, abs_zero]
      positivity
    · rw [if_neg hle]
      rcases x with ⟨⟨b, mag⟩, e⟩
      simp only at hz hle ⊢
      set s := (-p - e).toNat with hsdef
      have hs0 : s ≠ 0 := by
        simp only [hsdef]
        omega
      have hsZ : (s : ℤ) = -p - e := Int.toNat_of_nonneg (by omega)
      rw [BigFloat.val_normalize, BigFloat.val_mk, BigFloat.val_mk]
      have herr := round_mag_err mag s hs0
      set mg : ℕ := if mag / 2 ^ (s - 1) % 2 = 1 then mag / 2 ^ s + 1 else mag / 2 ^ s
        with hmg
      have herrQ : |(mg : ℚ) * 2 ^ (s : ℕ) - (mag : ℚ)| ≤ 2 ^ ((s : ℤ) - 1) := by
        have hcast : ((mg * 2 ^ s - mag : ℤ) : ℚ) = (mg : ℚ) * 2 ^ (s : ℕ) - mag := by
          push_cast
          ring
        have h1 : |((mg * 2 ^ s - mag : ℤ) : ℚ)| ≤ ((2 ^ (s - 1) : ℤ) : ℚ) := by
          rw [← Int.cast_abs]
          exact_mod_cast herr
        rw [hcast] at h1
        have h2 : ((2 ^ (s - 1 : ℕ) : ℤ) : ℚ) = 2 ^ ((s : ℤ) - 1) := by
          push_cast
          rw [← zpow_natCast]
          congr 1
          omega
        rwa [h2] at h1
      have hsplit : (2 : ℚ) ^ (-p) = 2 ^ e * 2 ^ (s : ℤ) := by
        rw [← zpow_add₀ (two_ne_zero : (2 : ℚ) ≠ 0)]
        congr 1
        omega
      have hd : (if b then (-1 : ℚ) else 1) * mg * 2 ^ (-p) -
          (if b then (-1 : ℚ) else 1) * mag * 2 ^ e =
          (if b then (-1 : ℚ) else 1) * (2 ^ e * ((mg : ℚ) * 2 ^ (s : ℕ) - mag)) := by
        rw [hsplit, ← zpow_natCast (2 : ℚ) s]
        ring
      rw [hd, abs_mul, abs_mul]
      have hsgn : |(if b then (-1 : ℚ) else 1)| = 1 := by cases b <;> simp
      rw [hsgn, one_mul, abs_of_pos (a := (2 : ℚ) ^ e) (by positivity)]
      calc (2 : ℚ) ^ e * |(mg : ℚ) * 2 ^ (s : ℕ) - mag|
          ≤ 2 ^ e * 2 ^ ((s : ℤ) - 1) := by
            apply mul_le_mul_of_nonneg_left herrQ (by positivity)
        _ = 2 ^ (-p - 1) := by
            rw [← zpow_add₀ (two_ne_zero : (2 : ℚ) ≠ 0)]
            congr 1
            omega

/-- After `round_to_precision p`, a nonzero result has exponent at
least `-p`, and the invariant holds given it held before. -/
theorem BigFloat.round_to_precision_inv {x : BigFloat} (p : ℤ) (h : x.Inv) :
    (x.round_to_precision p).Inv := by
  unfold BigFloat.round_to_precision
  by_cases hz : x.is_zero
  · rwa [if_pos hz]
  · rw [if_neg hz]
    by_cases hle : -p ≤ x.e
    · rwa [if_pos hle]
    · rw [if_neg hle]
      exact BigFloat.Inv_normalize _

/-- A nonzero BigFloat whose invariant holds keeps `e` unchanged or
increased by `normalize`; after rounding to `p` the exponent is at
least `-p`.  Used for idempotence. -/
theorem BigFloat.normalize_e_ge (x : BigFloat) :
    x.e ≤ (BigFloat.normalize x).e ∨ (BigFloat.normalize x).m.magnitude = 0 := by
  unfold BigFloat.normalize
  by_cases hz : x.m.magnitude = 0
  · rw [if_pos hz]
    right
    exact hz
  · rw [if_neg hz]
    left
    simp only
    omega

theorem BigFloat.round_to_precision_idem (x : BigFloat) (p : ℤ) :
    (x.round_to_precision p).round_to_precision p = x.round_to_precision p := by
  unfold BigFloat.round_to_precision
  by_cases hz : x.is_zero
  · rw [if_pos hz, if_pos hz]
  · rw [if_neg hz]
    by_cases hle : -p ≤ x.e
    · rw [if_pos hle, if_neg hz, if_pos hle]
    · rw [if_neg hle]
      set mg : ℕ := if x.m.magnitude / 2 ^ ((-p - x.e).toNat - 1) % 2 = 1 then
          x.m.magnitude / 2 ^ (-p - x.e).toNat + 1
        else x.m.magnitude / 2 ^ (-p - x.e).toNat with hmg
      set y := BigFloat.normalize ⟨⟨x.m.is_negative, mg⟩, -p⟩ with hy
      by_cases hz2 : y.is_zero
      · rw [if_pos hz2]
      · rw [if_neg hz2]
        have hge : -p ≤ y.e := by
          rcases BigFloat.normalize_e_ge ⟨⟨x.m.is_negative, mg⟩, -p⟩ with hge | hmz
          · exact hge
          · exfalso
            apply hz2
            simp only [hy]
            unfold BigFloat.is_zero SBigInt.is_zero
            simp [hmz]
        rw [if_pos hge]

theorem BigFloat.val_mul_with_precision (a b : BigFloat) (prec : ℤ) :
    |(BigFloat.mul_with_precision a b prec).val - a.val * b.val| ≤ (2 : ℚ) ^ (-prec - 1) := by
  rw [BigFloat.mul_with_precision]
  have h := BigFloat.round_to_precision_err (BigFloat.mulF a b) prec
  rwa [BigFloat.val_mulF] at h

/-- C2: for all BigFloats `a`, `b` and every precision `p` (negative
precisions included), evaluating `Real::from(a) * Real::from(b)` at
`p` yields a BigFloat within `2^(-p)` of the exact product `a·b`.
The closure evaluates its constant operands exactly and multiplies
with precision `p + 1`, so the only error is the final half-up
rounding, of size at most `2^(-p-2)`. -/
theorem real_mul_exact_product (a b : BigFloat) (p : ℤ) :
    |(RealFn.mulR (RealFn.ofBigFloat a) (RealFn.ofBigFloat b) p).val -
      a.val * b.val| < (2 : ℚ) ^ (-p) := by
  have hred : RealFn.mulR (RealFn.ofBigFloat a) (RealFn.ofBigFloat b) p =
      BigFloat.mul_with_precision a b (p + 1) := rfl
  rw [hred]
  have h := BigFloat.val_mul_with_precision a b (p + 1)
  have hlt : (2 : ℚ) ^ (-(p + 1) - 1) < 2 ^ (-p) :=
    zpow_lt_zpow_right₀ (by norm_num) (by omega)
  calc |(BigFloat.mul_with_precision a b (p + 1)).val - a.val * b.val|
      ≤ (2 : ℚ) ^ (-(p + 1) - 1) := h
    _ < 2 ^ (-p) := hlt

/-- C9: sign-magnitude signed addition agrees with integer addition
and preserves the canonical-zero invariant: same signs add magnitudes
keeping the sign, different signs subtract the smaller magnitude from
the larger taking the larger operand's sign, and equal opposite
magnitudes give the canonical zero. -/
theorem bigint_add_signed (a b : SBigInt) (ha : a.Wf) (hb : b.Wf) :
    (a.add b).value = a.value + b.value ∧ (a.add b).Wf := by
  rcases a with ⟨an, am⟩
  rcases b with ⟨bn, bm⟩
  unfold SBigInt.add
  by_cases hs : (an == bn) = true
  · rw [if_pos hs]
    have heq : an = bn := by cases an <;> cases bn <;> simp_all
    subst heq
    refine ⟨?_, ?_⟩
    · cases an <;> simp [SBigInt.value_mk] <;> push_cast <;> ring
    · intro h
      have h' : am + bm = 0 := h
      exact ha (show am = 0 by omega)
  · rw [if_neg hs]
    have hne : an ≠ bn := by
      intro hc
      exact hs (by rw [hc]; exact beq_self_eq_true bn)
    rcases Nat.lt_trichotomy am bm with h | h | h
    · rw [show compare am bm = Ordering.lt from Nat.compare_eq_lt.mpr h]
      refine ⟨?_, fun h0 => absurd (show bm - am = 0 from h0) (by omega)⟩
      cases an <;> cases bn <;> simp_all [SBigInt.value] <;> omega
    · subst h
      rw [show compare am am = Ordering.eq from Nat.compare_eq_eq.mpr rfl]
      refine ⟨?_, fun _ => rfl⟩
      rw [SBigInt.value_set_zero]
      cases an <;> cases bn <;> simp_all [SBigInt.value]
    · rw [show compare am bm = Ordering.gt from Nat.compare_eq_gt.mpr h]
      refine ⟨?_, fun h0 => absurd (show am - bm = 0 from h0) (by omega)⟩
      cases an <;> cases bn <;> simp_all [SBigInt.value] <;> omega

/-- C9 witness. -/
theorem bigint_add_signed_witness :
    ((SBigInt.mk true 5).add ⟨false, 3⟩).value =
        (SBigInt.mk true 5).value + (SBigInt.mk false 3).value ∧
      ((SBigInt.mk true 5).add ⟨false, 3⟩).Wf :=
  bigint_add_signed ⟨true, 5⟩ ⟨false, 3⟩ (by decide) (by decide)

theorem SBigInt.normalize_idempotent (a : SBigInt) :
    SBigInt.normalize (SBigInt.normalize a) = SBigInt.normalize a := by
  unfold SBigInt.normalize
  by_cases h : a.magnitude = 0 <;> simp [h]

theorem SBigInt.normalize_magnitude (a : SBigInt) :
    (SBigInt.normalize a).magnitude = a.magnitude := by
  unfold SBigInt.normalize
  by_cases h : a.magnitude = 0 <;> simp [h]

/-- C10: `round_to_precision`, `reduce` and `normalize` are
idempotent (for `reduce`, on rationals with a nonzero denominator). -/
theorem round_reduce_normalize_idempotent :
    (∀ (x : BigFloat) (p : ℤ),
        (x.round_to_precision p).round_to_precision p = x.round_to_precision p) ∧
    (∀ r : RationalQ, r.d ≠ 0 → r.reduce.reduce = r.reduce) ∧
    (∀ x : BigFloat,
        BigFloat.normalize (BigFloat.normalize x) = BigFloat.normalize x) := by
  refine ⟨BigFloat.round_to_precision_idem, ?_, BigFloat.normalize_idem⟩
  intro r hd
  rcases r with ⟨n, d⟩
  simp only at hd
  have hg0 : 0 < Nat.gcd n.magnitude d :=
    Nat.gcd_pos_of_pos_right _ (Nat.pos_of_ne_zero hd)
  have h1 : RationalQ.reduce ⟨n, d⟩ =
      ⟨SBigInt.normalize ⟨n.is_negative, n.magnitude / Nat.gcd n.magnitude d⟩,
        d / Nat.gcd n.magnitude d⟩ := by
    show (⟨SBigInt.divT n ⟨false, Nat.gcd n.magnitude d⟩, _⟩ : RationalQ) = _
    unfold SBigInt.divT
    simp [Bool.xor_false]
  rw [h1]
  set N := SBigInt.normalize ⟨n.is_negative, n.magnitude / Nat.gcd n.magnitude d⟩
    with hN
  have hNm : N.magnitude = n.magnitude / Nat.gcd n.magnitude d :=
    SBigInt.normalize_magnitude _
  have hcop : Nat.gcd N.magnitude (d / Nat.gcd n.magnitude d) = 1 := by
    rw [hNm]
    exact Nat.coprime_div_gcd_div_gcd hg0
  have h2 : RationalQ.reduce ⟨N, d / Nat.gcd n.magnitude d⟩ =
      ⟨SBigInt.divT N ⟨false, 1⟩, d / Nat.gcd n.magnitude d / 1⟩ := by
    show (⟨SBigInt.divT N ⟨false, Nat.gcd N.magnitude (d / Nat.gcd n.magnitude d)⟩,
        _⟩ : RationalQ) = _
    rw [hcop]
  rw [h2]
  simp only [Nat.div_one]
  congr 1
  have h3 : SBigInt.divT N ⟨false, 1⟩ =
      SBigInt.normalize ⟨N.is_negative, N.magnitude⟩ := by
    unfold SBigInt.divT
    simp [Bool.xor_false]
  rw [h3]
  show SBigInt.normalize N = N
  rw [hN]
  exact SBigInt.normalize_idempotent _

/-- C10 witness. -/
theorem round_reduce_normalize_idempotent_witness :
    RationalQ.reduce (RationalQ.reduce ⟨⟨false, 4⟩, 6⟩) =
      RationalQ.reduce ⟨⟨false, 4⟩, 6⟩ :=
  round_reduce_normalize_idempotent.2.1 ⟨⟨false, 4⟩, 6⟩ (by decide)

/-- C3 counterexample: the right shift of the zero BigFloat is
reachable through the public shift operator and only moves the
exponent, producing mantissa 0 with exponent −1, which violates the
representation invariant. -/
theorem shift_zero_breaks_invariant :
    BigFloat.shr BigFloat.ZERO 1 = ⟨SBigInt.ZERO, -1⟩ ∧
      ¬ (BigFloat.shr BigFloat.ZERO 1).Inv := by
  exact ⟨rfl, by decide⟩

theorem SBigInt.neg_magnitude (a : SBigInt) :
    (SBigInt.neg a).magnitude = a.magnitude := by
  unfold SBigInt.neg
  by_cases h : a.magnitude = 0 <;> simp [h]

/-- C3 (amended): every constructor and arithmetic or rounding
operation establishes the representation invariant, and the shifts
preserve it exactly when the mantissa is nonzero; shifting a zero
BigFloat breaks it (see the counterexample). -/
theorem bigfloat_invariant_preserved :
    (∀ (m : SBigInt) (e : ℤ), (BigFloat.from_mantissa_exponent m e).Inv) ∧
    BigFloat.ZERO.Inv ∧ BigFloat.ONE.Inv ∧ BigFloat.NEG_ONE.Inv ∧
    (∀ v : ℤ, (BigFloat.ofInt v).Inv) ∧
    (∀ a b : BigFloat, a.Inv → b.Inv → (BigFloat.addF a b).Inv) ∧
    (∀ a b : BigFloat, a.Inv → b.Inv → (BigFloat.subF a b).Inv) ∧
    (∀ a b : BigFloat, (BigFloat.mulF a b).Inv) ∧
    (∀ (x : BigFloat) (p : ℤ), x.Inv → (x.round_to_precision p).Inv) ∧
    (∀ (a b : BigFloat) (p : ℤ), a.Inv → b.Inv →
      (BigFloat.add_with_precision a b p).Inv ∧
      (BigFloat.sub_with_precision a b p).Inv ∧
      (BigFloat.mul_with_precision a b p).Inv) ∧
    (∀ (x : BigFloat) (k : ℤ), x.Inv → x.m.magnitude ≠ 0 →
      (BigFloat.shr x k).Inv ∧ (BigFloat.shl x k).Inv) := by
  have hadd : ∀ a b : BigFloat, a.Inv → b.Inv → (BigFloat.addF a b).Inv := by
    intro a b ha hb
    unfold BigFloat.addF
    by_cases hza : a.is_zero
    · rwa [if_pos hza]
    · rw [if_neg hza]
      by_cases hzb : b.is_zero
      · rwa [if_pos hzb]
      · rw [if_neg hzb]
        by_cases hcmp : b.e ≤ a.e
        · rw [if_pos hcmp]
          exact BigFloat.Inv_normalize _
        · rw [if_neg hcmp]
          exact BigFloat.Inv_normalize _
  have hsub : ∀ a b : BigFloat, a.Inv → b.Inv → (BigFloat.subF a b).Inv := by
    intro a b ha hb
    unfold BigFloat.subF
    by_cases hza : a.is_zero
    · rw [if_pos hza]
      unfold BigFloat.negF
      exact ⟨fun h => hb.1 (by rwa [SBigInt.neg_magnitude] at h),
        fun h => by
          rw [SBigInt.neg_magnitude]
          exact hb.2 (by rwa [SBigInt.neg_magnitude] at h)⟩
    · rw [if_neg hza]
      by_cases hzb : b.is_zero
      · rwa [if_pos hzb]
      · rw [if_neg hzb]
        by_cases hcmp : b.e ≤ a.e
        · rw [if_pos hcmp]
          exact BigFloat.Inv_normalize _
        · rw [if_neg hcmp]
          exact BigFloat.Inv_normalize _
  refine ⟨fun m e => BigFloat.Inv_normalize _, by decide, by decide, by decide,
    ?_, hadd, hsub, fun a b => BigFloat.Inv_normalize _,
    fun x p h => BigFloat.round_to_precision_inv p h, ?_, ?_⟩
  · intro v
    unfold BigFloat.ofInt
    by_cases hv : v = 0
    · rw [if_pos hv]
      decide
    · rw [if_neg hv]
      exact BigFloat.Inv_normalize _
  · intro a b p ha hb
    exact ⟨BigFloat.round_to_precision_inv p (hadd a b ha hb),
      BigFloat.round_to_precision_inv p (hsub a b ha hb),
      BigFloat.round_to_precision_inv p (BigFloat.Inv_normalize _)⟩
  · intro x k h hm
    exact ⟨⟨fun h0 => absurd h0 hm, fun _ => h.2 hm⟩,
      ⟨fun h0 => absurd h0 hm, fun _ => h.2 hm⟩⟩

/-- C3 (amended) witness. -/
theorem bigfloat_invariant_preserved_witness :
    (BigFloat.addF BigFloat.ONE BigFloat.ONE).Inv ∧
      (BigFloat.shr BigFloat.ONE 5).Inv := by
  have h := bigfloat_invariant_preserved
  exact ⟨h.2.2.2.2.2.1 BigFloat.ONE BigFloat.ONE (by decide) (by decide),
    (h.2.2.2.2.2.2.2.2.2.2 BigFloat.ONE 5 (by decide) (by decide)).1⟩

/-- C5 counterexample: at requested precision 0, `BigFloat::pi` runs
its Gauss-Legendre arithmetic at working precision `(0+2)+16 = 18`,
not `2·(0+2)+16 = 20` as claimed: the code computes
`working_prec = actual_prec + 16` with `actual_prec = prec + 2`. -/
theorem pi_working_prec_counterexample :
    BigFloat.piWorkingPrec 0 = 18 ∧ (2 * ((0 : ℤ) + 2) + 16 = 20) ∧
      BigFloat.piWorkingPrec 0 ≠ 2 * ((0 : ℤ) + 2) + 16 := by
  refine ⟨rfl, by decide, by decide⟩

/-- C5 (amended): for every requested precision p, `BigFloat::pi`
runs the Gauss-Legendre iteration at working precision `(p+2)+16`;
at each step the loop takes the reciprocal of the incoming `s` (the
reciprocal is computed before `s` is updated, so both bounds divide
by `s_n`), forms the lower bound `(a_{n+1})²·s_n⁻¹` and the upper
bound `(a_n)²·s_n⁻¹`, stops exactly when their difference is zero or
its log2 plus one is less than `-(p+2)`, returning the lower bound,
and otherwise recurses on the updated state with
`s_{n+1} = s_n − c²·2ⁿ`. -/
theorem pi_working_prec_and_stop :
    (∀ p : ℤ, BigFloat.piWorkingPrec p = (p + 2) + 16) ∧
    (∀ (p : ℤ) (delta : BigFloat),
      BigFloat.piStop delta (BigFloat.piActualPrec p) =
        (delta.is_zero || decide (delta.ilog2 + 1 < -(p + 2)))) ∧
    (∀ (wp ap : ℤ) (rf : ℕ) (a b s : BigFloat) (n : ℤ) (fuel : ℕ),
      BigFloat.piLoop wp ap rf a b s n (fuel + 1) =
        (BigFloat.sqrtF (BigFloat.mul_with_precision a b wp) wp rf).bind (fun b1 =>
          (BigFloat.reciprocal s wp rf).bind (fun s_recip =>
            let a_new := BigFloat.shr (BigFloat.add_with_precision a b wp) 1
            let lo_bound := BigFloat.mul_with_precision
              (BigFloat.mul_with_precision a_new a_new wp) s_recip wp
            let hi_bound := BigFloat.mul_with_precision
              (BigFloat.mul_with_precision a a wp) s_recip wp
            let delta := BigFloat.sub_with_precision hi_bound lo_bound wp
            if BigFloat.piStop delta ap then some lo_bound
            else
              let c := BigFloat.sub_with_precision a a_new wp
              let c2 := BigFloat.mul_with_precision c c wp
              BigFloat.piLoop wp ap rf a_new b1
                (BigFloat.sub_with_precision s (BigFloat.shl c2 n) wp)
                (n + 1) fuel))) := by
  exact ⟨fun p => rfl, fun p delta => rfl, fun wp ap rf a b s n fuel => rfl⟩

/-- C7: for a primitive unsigned dividend, `div_rem` against a
`BigUInt` divisor that fits in 128 bits assigns the quotient `n / d`
to BOTH output slots: `7.div_rem(&BigUInt::from(2))` returns (3, 3),
whereas the remainder should be `7 % 2 = 1`. -/
theorem prim_div_rem_failing_input :
    Limb.divRemPrimU 7 [2] = ([3], [3]) ∧
      7 % 2 = 1 ∧ Limb.val [3] ≠ 7 % 2 := by
  refine ⟨by decide, rfl, by decide⟩

/-- C1: the Knuth-division of `div_rem_to` fails on the dividend
`n = 2^191 + 2^64 − 1` (limbs `[2^64−1, 0, 2^63]`) and divisor
`d = 2^127 + 1` (limbs `[1, 2^63]`): the trial quotient for the final
digit is `2^65 − 1`, which does not fit in one limb; the release-mode
`as u64` cast truncates it; moreover the padded working numerator
makes the length-first comparison in `correct_q` accept an
overestimated trial, so the returned pair violates both
`n = q·d + r` and `r < d`.  (The true answer is
`q = 2^64 − 1`, `r = 2^127`.) -/
theorem knuth_div_rem_failing_input :
    Limb.divRemTo [2 ^ 64 - 1, 0, 2 ^ 63] [1, 2 ^ 63] =
      some ([2 ^ 64 - 1, 1],
        [0, 2 ^ 63 - 1, 2 ^ 63, 2 ^ 64 - 1]) ∧
    Limb.val [2 ^ 64 - 1, 1] = 2 ^ 65 - 1 ∧
    Limb.val [2 ^ 64 - 1, 0, 2 ^ 63] ≠
      Limb.val [2 ^ 64 - 1, 1] * Limb.val [1, 2 ^ 63] +
        Limb.val [0, 2 ^ 63 - 1, 2 ^ 63, 2 ^ 64 - 1] ∧
    ¬ Limb.val [0, 2 ^ 63 - 1, 2 ^ 63, 2 ^ 64 - 1] < Limb.val [1, 2 ^ 63] ∧
    Limb.val [2 ^ 64 - 1, 0, 2 ^ 63] =
      (2 ^ 64 - 1) * Limb.val [1, 2 ^ 63] + 2 ^ 127 ∧
    (2 ^ 127 : ℕ) < Limb.val [1, 2 ^ 63] := by
  refine ⟨by decide, by decide, by decide, by decide, by decide, by decide⟩

/-! Correctness of the BigFloat comparisons with respect to values. -/

theorem compare_cast_mul (m1 m2 : ℕ) (c : ℚ) (hc : 0 < c) :
    compare m1 m2 = compare ((m1 : ℚ) * c) ((m2 : ℚ) * c) := by
  rcases Nat.lt_trichotomy m1 m2 with h | h | h
  · rw [Nat.compare_eq_lt.mpr h]
    exact (compare_lt_iff_lt.mpr
      (mul_lt_mul_of_pos_right (show (m1 : ℚ) < m2 by exact_mod_cast h) hc)).symm
  · rw [h, Nat.compare_eq_eq.mpr rfl]
    exact (compare_eq_iff_eq.mpr rfl).symm
  · rw [Nat.compare_eq_gt.mpr h]
    exact (compare_gt_iff_gt.mpr
      (mul_lt_mul_of_pos_right (show (m2 : ℚ) < m1 by exact_mod_cast h) hc)).symm

theorem BigFloat.abs_val_lower {x : BigFloat} (h : x.m.magnitude ≠ 0) :
    (2 : ℚ) ^ (x.e + (ilog2N x.m.magnitude : ℤ)) ≤ |x.val| := by
  rw [BigFloat.abs_val, zpow_add₀ (two_ne_zero : (2 : ℚ) ≠ 0), zpow_natCast]
  have hle : ((2 ^ ilog2N x.m.magnitude : ℕ) : ℚ) ≤ (x.m.magnitude : ℚ) := by
    exact_mod_cast ilog2N_le h
  push_cast at hle
  calc (2 : ℚ) ^ x.e * 2 ^ ilog2N x.m.magnitude
      ≤ 2 ^ x.e * x.m.magnitude := by
        apply mul_le_mul_of_nonneg_left hle (by positivity)
    _ = (x.m.magnitude : ℚ) * 2 ^ x.e := by ring

theorem BigFloat.abs_val_upper (x : BigFloat) :
    |x.val| < 2 ^ (x.e + (ilog2N x.m.magnitude : ℤ) + 1) := by
  rw [BigFloat.abs_val]
  have hlt : (x.m.magnitude : ℚ) < ((2 ^ (ilog2N x.m.magnitude + 1) : ℕ) : ℚ) := by
    exact_mod_cast lt_ilog2N x.m.magnitude
  push_cast at hlt
  have h1 : (2 : ℚ) ^ (x.e + (ilog2N x.m.magnitude : ℤ) + 1) =
      2 ^ x.e * 2 ^ (ilog2N x.m.magnitude + 1) := by
    rw [← zpow_natCast (2 : ℚ) (ilog2N x.m.magnitude + 1),
      ← zpow_add₀ (two_ne_zero : (2 : ℚ) ≠ 0)]
    congr 1
    push_cast
    ring
  rw [h1]
  calc (x.m.magnitude : ℚ) * 2 ^ x.e
      < 2 ^ (ilog2N x.m.magnitude + 1) * 2 ^ x.e := by
        apply mul_lt_mul_of_pos_right hlt (by positivity)
    _ = 2 ^ x.e * 2 ^ (ilog2N x.m.magnitude + 1) := by ring

theorem BigFloat.cmp_abs_non_zero_correct (a b : BigFloat)
    (ha : a.m.magnitude ≠ 0) (hb : b.m.magnitude ≠ 0) :
    BigFloat.cmp_abs_non_zero a b = compare |a.val| |b.val| := by
  unfold BigFloat.cmp_abs_non_zero
  dsimp only
  rcases lt_trichotomy (a.e + (ilog2N a.m.magnitude : ℤ))
      (b.e + (ilog2N b.m.magnitude : ℤ)) with h | h | h
  · rw [compare_lt_iff_lt.mpr h]
    have hab : |a.val| < |b.val| :=
      calc |a.val| < 2 ^ (a.e + (ilog2N a.m.magnitude : ℤ) + 1) :=
            BigFloat.abs_val_upper a
        _ ≤ 2 ^ (b.e + (ilog2N b.m.magnitude : ℤ)) :=
            zpow_le_zpow_right₀ (by norm_num) (by omega)
        _ ≤ |b.val| := BigFloat.abs_val_lower hb
    rw [compare_lt_iff_lt.mpr hab]
    rfl
  · rw [compare_eq_iff_eq.mpr h]
    show (match compare a.e b.e with
      | .lt => compare a.m.magnitude (b.m.magnitude * 2 ^ (b.e - a.e).toNat)
      | .eq => compare a.m.magnitude b.m.magnitude
      | .gt => compare (a.m.magnitude * 2 ^ (a.e - b.e).toNat) b.m.magnitude) =
        compare |a.val| |b.val|
    rcases lt_trichotomy a.e b.e with he | he | he
    · rw [compare_lt_iff_lt.mpr he]
      show compare a.m.magnitude (b.m.magnitude * 2 ^ (b.e - a.e).toNat) =
        compare |a.val| |b.val|
      have h2 : ((b.m.magnitude * 2 ^ (b.e - a.e).toNat : ℕ) : ℚ) * 2 ^ a.e =
          |b.val| := by
        rw [BigFloat.abs_val]
        push_cast
        rw [← zpow_natCast (2 : ℚ) ((b.e - a.e).toNat),
          Int.toNat_of_nonneg (by omega)]
        rw [mul_assoc, ← zpow_add₀ (two_ne_zero : (2 : ℚ) ≠ 0)]
        congr 2
        omega
      rw [compare_cast_mul _ _ ((2 : ℚ) ^ a.e) (by positivity), h2,
        ← BigFloat.abs_val a]
    · rw [compare_eq_iff_eq.mpr he]
      show compare a.m.magnitude b.m.magnitude = compare |a.val| |b.val|
      have h2 : ((b.m.magnitude : ℕ) : ℚ) * 2 ^ a.e = |b.val| := by
        rw [BigFloat.abs_val, he]
      rw [compare_cast_mul _ _ ((2 : ℚ) ^ a.e) (by positivity), h2,
        ← BigFloat.abs_val a]
    · rw [compare_gt_iff_gt.mpr he]
      show compare (a.m.magnitude * 2 ^ (a.e - b.e).toNat) b.m.magnitude =
        compare |a.val| |b.val|
      have h2 : ((a.m.magnitude * 2 ^ (a.e - b.e).toNat : ℕ) : ℚ) * 2 ^ b.e =
          |a.val| := by
        rw [BigFloat.abs_val]
        push_cast
        rw [← zpow_natCast (2 : ℚ) ((a.e - b.e).toNat),
          Int.toNat_of_nonneg (by omega)]
        rw [mul_assoc, ← zpow_add₀ (two_ne_zero : (2 : ℚ) ≠ 0)]
        congr 2
        omega
      rw [compare_cast_mul _ _ ((2 : ℚ) ^ b.e) (by positivity), h2,
        ← BigFloat.abs_val b]
  · rw [compare_gt_iff_gt.mpr h]
    have hab : |b.val| < |a.val| :=
      calc |b.val| < 2 ^ (b.e + (ilog2N b.m.magnitude : ℤ) + 1) :=
            BigFloat.abs_val_upper b
        _ ≤ 2 ^ (a.e + (ilog2N a.m.magnitude : ℤ)) :=
            zpow_le_zpow_right₀ (by norm_num) (by omega)
        _ ≤ |a.val| := BigFloat.abs_val_lower ha
    rw [compare_gt_iff_gt.mpr hab]
    rfl

theorem BigFloat.val_eq_zero_iff (x : BigFloat) :
    x.val = 0 ↔ x.m.magnitude = 0 := by
  rcases x with ⟨⟨b, mag⟩, e⟩
  rw [BigFloat.val_mk]
  constructor
  · intro h
    have h2 : (2 : ℚ) ^ e ≠ 0 := by positivity
    have hs : (if b then (-1 : ℚ) else 1) ≠ 0 := by cases b <;> norm_num
    have : (mag : ℚ) = 0 := by
      rcases mul_eq_zero.mp h with h3 | h3
      · rcases mul_eq_zero.mp h3 with h4 | h4
        · exact absurd h4 hs
        · exact h4
      · exact absurd h3 h2
    exact_mod_cast this
  · intro h
    have h3 : mag = 0 := h
    subst h3
    simp

theorem BigFloat.cmp_abs_correct (a b : BigFloat) :
    BigFloat.cmp_abs a b = compare |a.val| |b.val| := by
  unfold BigFloat.cmp_abs
  have hzval : ∀ x : BigFloat, x.is_zero = true → x.val = 0 := by
    intro x hx
    exact (BigFloat.val_eq_zero_iff x).mpr (by
      unfold BigFloat.is_zero SBigInt.is_zero at hx
      exact_mod_cast of_decide_eq_true hx)
  have hnzval : ∀ x : BigFloat, x.is_zero = false → 0 < |x.val| := by
    intro x hx
    have hmag : x.m.magnitude ≠ 0 := by
      unfold BigFloat.is_zero SBigInt.is_zero at hx
      intro hc
      rw [hc] at hx
      simp at hx
    have := (BigFloat.val_eq_zero_iff x).not.mpr hmag
    exact abs_pos.mpr (by tauto)
  rcases hza : a.is_zero <;> rcases hzb : b.is_zero
  · simp only
    exact (BigFloat.cmp_abs_non_zero_correct a b
      (by unfold BigFloat.is_zero SBigInt.is_zero at hza; simpa using hza)
      (by unfold BigFloat.is_zero SBigInt.is_zero at hzb; simpa using hzb))
  · simp only
    rw [hzval b hzb]
    have := hnzval a hza
    rw [compare_gt_iff_gt.mpr (by simpa using this)]
  · simp only
    rw [hzval a hza]
    have := hnzval b hzb
    rw [compare_lt_iff_lt.mpr (by simpa using this)]
  · simp only
    rw [hzval a hza, hzval b hzb]
    rw [compare_eq_iff_eq.mpr (by simp)]

theorem BigFloat.val_nonneg_of_flag {x : BigFloat} (hx : x.m.is_negative = false) :
    0 ≤ x.val := by
  rcases x with ⟨⟨bx, magx⟩, ex⟩
  have hb : bx = false := hx
  subst hb
  rw [BigFloat.val_mk]
  have hif : (if (false = true) then (-1 : ℚ) else 1) = 1 := by norm_num
  rw [hif, one_mul]
  positivity

theorem BigFloat.val_neg_of_flag {x : BigFloat} (hwf : x.m.Wf)
    (hx : x.m.is_negative = true) : x.val < 0 := by
  rcases x with ⟨⟨bx, magx⟩, ex⟩
  have hb : bx = true := hx
  subst hb
  have hmag : magx ≠ 0 := by
    intro h0
    have := hwf h0
    simp at this
  rw [BigFloat.val_mk]
  have hif : (if (true = true) then (-1 : ℚ) else 1) = -1 := by norm_num
  rw [hif]
  have h1 : (0 : ℚ) < (magx : ℚ) * 2 ^ ex := by
    have : (0 : ℚ) < (magx : ℚ) := by
      exact_mod_cast Nat.pos_of_ne_zero hmag
    positivity
  nlinarith

theorem BigFloat.cmpF_correct (a b : BigFloat) (ha : a.m.Wf) (hb : b.m.Wf) :
    BigFloat.cmpF a b = compare a.val b.val := by
  unfold BigFloat.cmpF BigFloat.is_negative
  rcases hna : a.m.is_negative <;> rcases hnb : b.m.is_negative
  · simp only
    rw [BigFloat.cmp_abs_correct, abs_of_nonneg (BigFloat.val_nonneg_of_flag hna),
      abs_of_nonneg (BigFloat.val_nonneg_of_flag hnb)]
  · simp only
    have h1 := BigFloat.val_neg_of_flag hb hnb
    have h2 := BigFloat.val_nonneg_of_flag hna
    rw [compare_gt_iff_gt.mpr (by linarith)]
  · simp only
    have h1 := BigFloat.val_neg_of_flag ha hna
    have h2 := BigFloat.val_nonneg_of_flag hnb
    rw [compare_lt_iff_lt.mpr (by linarith)]
  · simp only
    have hmaga : a.m.magnitude ≠ 0 := by
      intro h0
      rw [ha h0] at hna
      exact Bool.false_ne_true hna
    have hmagb : b.m.magnitude ≠ 0 := by
      intro h0
      rw [hb h0] at hnb
      exact Bool.false_ne_true hnb
    rw [BigFloat.cmp_abs_non_zero_correct a b hmaga hmagb]
    have ha' : a.val < 0 := BigFloat.val_neg_of_flag ha hna
    have hb' : b.val < 0 := BigFloat.val_neg_of_flag hb hnb
    rcases lt_trichotomy a.val b.val with h | h | h
    · rw [compare_lt_iff_lt.mpr h,
        compare_gt_iff_gt.mpr (show |b.val| < |a.val| by
          rw [abs_of_neg ha', abs_of_neg hb']; linarith)]
      rfl
    · rw [h, compare_eq_iff_eq.mpr (rfl : b.val = b.val),
        compare_eq_iff_eq.mpr (rfl : |b.val| = |b.val|)]
      rfl
    · rw [compare_gt_iff_gt.mpr h,
        compare_lt_iff_lt.mpr (show |a.val| < |b.val| by
          rw [abs_of_neg ha', abs_of_neg hb']; linarith)]
      rfl

theorem BigFloat.cmp_abs_ngt_iff (a b : BigFloat) :
    (¬ BigFloat.cmp_abs a b = .gt) ↔ |a.val| ≤ |b.val| := by
  rw [BigFloat.cmp_abs_correct]
  rw [← not_lt (a := |b.val|) (b := |a.val|)]
  exact not_congr compare_gt_iff_gt

theorem BigFloat.leF_iff (a b : BigFloat) (ha : a.m.Wf) (hb : b.m.Wf) :
    BigFloat.leF a b = true ↔ a.val ≤ b.val := by
  unfold BigFloat.leF
  rw [decide_eq_true_eq, BigFloat.cmpF_correct a b ha hb,
    ← not_lt (a := b.val) (b := a.val)]
  exact not_congr compare_gt_iff_gt

theorem BigFloat.val_tau (tol : ℤ) :
    (BigFloat.shr BigFloat.ONE tol).val = (2 : ℚ) ^ (-tol) := by
  show (BigFloat.mk ⟨false, 1⟩ (0 - tol)).val = _
  rw [BigFloat.val_mk]
  simp

theorem BigFloat.tau_wf (tol : ℤ) : (BigFloat.shr BigFloat.ONE tol).m.Wf :=
  fun h => absurd h one_ne_zero

/-- C4: `Real::div(x, y, τ)` returns the recoverable error carrying
the original dividend `x` if and only if the divisor's approximation
at τ has magnitude at most `2^(-τ)`; `Real::ln(x, τ)` returns the
error carrying `x` if and only if the approximation of `x` at τ is at
most `2^(-τ)` (signed comparison); in all other cases both return the
ordinary composed real.  The hypothesis asks that the probe `x(τ)`
carry a canonical sign flag, as every BigFloat built by the library
does. -/
theorem real_div_ln_uncertain (x y : RealFn) (tol : ℤ) (fuel : ℕ)
    (hx : ((x tol).m).Wf) :
    (RealFn.divR x y tol fuel = .error x ↔ |(y tol).val| ≤ (2 : ℚ) ^ (-tol)) ∧
    ((∃ f, RealFn.divR x y tol fuel = .ok f) ↔ (2 : ℚ) ^ (-tol) < |(y tol).val|) ∧
    (RealFn.lnR x tol fuel = .error x ↔ (x tol).val ≤ (2 : ℚ) ^ (-tol)) ∧
    ((∃ f, RealFn.lnR x tol fuel = .ok f) ↔ (2 : ℚ) ^ (-tol) < (x tol).val) := by
  have habs : |(BigFloat.shr BigFloat.ONE tol).val| = (2 : ℚ) ^ (-tol) := by
    rw [BigFloat.val_tau]
    exact abs_of_pos (by positivity)
  have hdiv : (¬ BigFloat.cmp_abs (y tol) (BigFloat.shr BigFloat.ONE tol) = .gt) ↔
      |(y tol).val| ≤ (2 : ℚ) ^ (-tol) := by
    rw [BigFloat.cmp_abs_ngt_iff, habs]
  have hln : BigFloat.leF (x tol) (BigFloat.shr BigFloat.ONE tol) = true ↔
      (x tol).val ≤ (2 : ℚ) ^ (-tol) := by
    rw [BigFloat.leF_iff _ _ hx (BigFloat.tau_wf tol), BigFloat.val_tau]
  refine ⟨?_, ?_, ?_, ?_⟩
  · unfold RealFn.divR
    by_cases hc : BigFloat.cmp_abs (y tol) (BigFloat.shr BigFloat.ONE tol) ≠ .gt
    · rw [if_pos hc]
      simp only [true_iff]
      exact hdiv.mp hc
    · rw [if_neg hc]
      constructor
      · intro hE
        exact absurd hE (by simp)
      · intro hle
        exact absurd (hdiv.mpr hle) hc
  · unfold RealFn.divR
    by_cases hc : BigFloat.cmp_abs (y tol) (BigFloat.shr BigFloat.ONE tol) ≠ .gt
    · rw [if_pos hc]
      constructor
      · rintro ⟨f, hf⟩
        exact absurd hf (by simp)
      · intro hlt
        exact absurd (hdiv.mp hc) (not_le.mpr hlt)
    · rw [if_neg hc]
      constructor
      · intro _
        exact not_le.mp (fun hle => hc (hdiv.mpr hle))
      · intro _
        exact ⟨_, rfl⟩
  · unfold RealFn.lnR
    by_cases hc : BigFloat.leF (x tol) (BigFloat.shr BigFloat.ONE tol) = true
    · rw [if_pos hc]
      simp only [true_iff]
      exact hln.mp hc
    · rw [if_neg hc]
      constructor
      · intro hE
        exact absurd hE (by simp)
      · intro hle
        exact absurd (hln.mpr hle) hc
  · unfold RealFn.lnR
    by_cases hc : BigFloat.leF (x tol) (BigFloat.shr BigFloat.ONE tol) = true
    · rw [if_pos hc]
      constructor
      · rintro ⟨f, hf⟩
        exact absurd hf (by simp)
      · intro hlt
        exact absurd (hln.mp hc) (not_le.mpr hlt)
    · rw [if_neg hc]
      constructor
      · intro _
        exact not_le.mp (fun hle => hc (hln.mpr hle))
      · intro _
        exact ⟨_, rfl⟩

/-- C4 witness: dividing by the constant real 0 at tolerance 0, and
taking the logarithm of the constant real 0 at tolerance 0, both
return the recoverable error carrying the original operand. -/
theorem real_div_ln_uncertain_witness :
    RealFn.divR (RealFn.ofBigFloat BigFloat.ZERO)
        (RealFn.ofBigFloat BigFloat.ZERO) 0 1 =
      .error (RealFn.ofBigFloat BigFloat.ZERO) ∧
    RealFn.lnR (RealFn.ofBigFloat BigFloat.ZERO) 0 1 =
      .error (RealFn.ofBigFloat BigFloat.ZERO) := by
  have h := real_div_ln_uncertain (RealFn.ofBigFloat BigFloat.ZERO)
    (RealFn.ofBigFloat BigFloat.ZERO) 0 1 (fun _ => rfl)
  have hz : (RealFn.ofBigFloat BigFloat.ZERO 0).val = 0 := by
    show BigFloat.ZERO.val = 0
    rw [show BigFloat.ZERO = BigFloat.mk ⟨false, 0⟩ 0 from rfl, BigFloat.val_mk]
    simp
  refine ⟨h.1.mpr ?_, h.2.2.1.mpr ?_⟩
  · rw [hz]
    simp
  · rw [hz]
    simp

/-! Exact-value lemmas for the remaining BigFloat primitives, used in
the error analysis of the Newton-Raphson reciprocal and of the ln 2
series loop. -/

theorem SBigInt.value_neg (a : SBigInt) : a.neg.value = -a.value := by
  unfold SBigInt.neg
  by_cases h : a.magnitude = 0
  · rw [if_pos h, SBigInt.value_of_mag_zero h]
    simp
  · rw [if_neg h]
    rcases a with ⟨f, m⟩
    cases f <;> simp [SBigInt.value_mk, SBigInt.value]

theorem SBigInt.value_add (a b : SBigInt) : (a.add b).value = a.value + b.value := by
  rcases a with ⟨an, am⟩
  rcases b with ⟨bn, bm⟩
  unfold SBigInt.add
  by_cases hs : (an == bn) = true
  · rw [if_pos hs]
    have heq : an = bn := by cases an <;> cases bn <;> simp_all
    subst heq
    cases an <;> simp [SBigInt.value_mk] <;> push_cast <;> ring
  · rw [if_neg hs]
    have hne : an ≠ bn := by
      intro hc
      exact hs (by rw [hc]; exact beq_self_eq_true bn)
    rcases Nat.lt_trichotomy am bm with h | h | h
    · rw [show compare am bm = Ordering.lt from Nat.compare_eq_lt.mpr h]
      cases an <;> cases bn <;> simp_all [SBigInt.value] <;> omega
    · subst h
      rw [show compare am am = Ordering.eq from Nat.compare_eq_eq.mpr rfl,
        SBigInt.value_set_zero]
      cases an <;> cases bn <;> simp_all [SBigInt.value]
    · rw [show compare am bm = Ordering.gt from Nat.compare_eq_gt.mpr h]
      cases an <;> cases bn <;> simp_all [SBigInt.value] <;> omega

theorem SBigInt.value_sub (a b : SBigInt) : (a.sub b).value = a.value - b.value := by
  unfold SBigInt.sub
  rw [SBigInt.value_neg, SBigInt.value_add, SBigInt.value_neg]
  ring

theorem SBigInt.value_scale (a : SBigInt) (k : ℕ) :
    (SBigInt.mk a.is_negative (a.magnitude * 2 ^ k)).value = a.value * 2 ^ k := by
  rcases a with ⟨f, m⟩
  cases f <;> simp [SBigInt.value_mk, SBigInt.value] <;> push_cast <;> ring

theorem BigFloat.is_zero_iff (x : BigFloat) :
    x.is_zero = true ↔ x.m.magnitude = 0 := by
  unfold BigFloat.is_zero SBigInt.is_zero
  simp

theorem BigFloat.val_of_is_zero {x : BigFloat} (h : x.is_zero = true) : x.val = 0 :=
  (BigFloat.val_eq_zero_iff x).mpr ((BigFloat.is_zero_iff x).mp h)

theorem BigFloat.mag_ne_of_not_is_zero {x : BigFloat} (h : x.is_zero ≠ true) :
    x.m.magnitude ≠ 0 :=
  fun hc => h ((BigFloat.is_zero_iff x).mpr hc)

theorem BigFloat.val_negF (x : BigFloat) : (BigFloat.negF x).val = -x.val := by
  unfold BigFloat.negF BigFloat.val
  dsimp only
  rw [SBigInt.value_neg]
  push_cast
  ring

theorem two_zpow_split (u v w : ℤ) (h : u.toNat + v = w) :
    (2 : ℚ) ^ (u.toNat : ℕ) * 2 ^ v = 2 ^ w := by
  rw [← zpow_natCast (2 : ℚ) u.toNat, ← zpow_add₀ (two_ne_zero : (2 : ℚ) ≠ 0)]
  congr 1

theorem BigFloat.val_addF (a b : BigFloat) :
    (BigFloat.addF a b).val = a.val + b.val := by
  unfold BigFloat.addF
  by_cases ha : a.is_zero
  · rw [if_pos ha, BigFloat.val_of_is_zero ha]
    ring
  · rw [if_neg ha]
    by_cases hb : b.is_zero
    · rw [if_pos hb, BigFloat.val_of_is_zero hb]
      ring
    · rw [if_neg hb]
      by_cases he : b.e ≤ a.e
      · rw [if_pos he, BigFloat.val_normalize]
        show ((SBigInt.add ⟨a.m.is_negative, a.m.magnitude * 2 ^ (a.e - b.e).toNat⟩
          b.m).value : ℚ) * 2 ^ b.e = _
        rw [SBigInt.value_add, SBigInt.value_scale]
        unfold BigFloat.val
        push_cast
        have h2 : (2 : ℚ) ^ ((a.e - b.e).toNat : ℕ) * 2 ^ b.e = 2 ^ a.e :=
          two_zpow_split _ _ _ (by omega)
        calc ((a.m.value : ℚ) * 2 ^ ((a.e - b.e).toNat : ℕ) + b.m.value) * 2 ^ b.e
            = (a.m.value : ℚ) * (2 ^ ((a.e - b.e).toNat : ℕ) * 2 ^ b.e)
                + (b.m.value : ℚ) * 2 ^ b.e := by ring
          _ = _ := by rw [h2]
      · rw [if_neg he, BigFloat.val_normalize]
        show ((SBigInt.add ⟨b.m.is_negative, b.m.magnitude * 2 ^ (b.e - a.e).toNat⟩
          a.m).value : ℚ) * 2 ^ a.e = _
        rw [SBigInt.value_add, SBigInt.value_scale]
        unfold BigFloat.val
        push_cast
        have h2 : (2 : ℚ) ^ ((b.e - a.e).toNat : ℕ) * 2 ^ a.e = 2 ^ b.e :=
          two_zpow_split _ _ _ (by omega)
        calc ((b.m.value : ℚ) * 2 ^ ((b.e - a.e).toNat : ℕ) + a.m.value) * 2 ^ a.e
            = (b.m.value : ℚ) * (2 ^ ((b.e - a.e).toNat : ℕ) * 2 ^ a.e)
                + (a.m.value : ℚ) * 2 ^ a.e := by ring
          _ = _ := by rw [h2]; ring

theorem BigFloat.val_subF_of_le {a b : BigFloat} (h : b.e ≤ a.e) :
    (BigFloat.subF a b).val = a.val - b.val := by
  unfold BigFloat.subF
  by_cases ha : a.is_zero
  · rw [if_pos ha, BigFloat.val_negF, BigFloat.val_of_is_zero ha]
    ring
  · rw [if_neg ha]
    by_cases hb : b.is_zero
    · rw [if_pos hb, BigFloat.val_of_is_zero hb]
      ring
    · rw [if_neg hb, if_pos h, BigFloat.val_normalize]
      show ((SBigInt.sub ⟨a.m.is_negative, a.m.magnitude * 2 ^ (a.e - b.e).toNat⟩
        b.m).value : ℚ) * 2 ^ b.e = _
      rw [SBigInt.value_sub, SBigInt.value_scale]
      unfold BigFloat.val
      push_cast
      have h2 : (2 : ℚ) ^ ((a.e - b.e).toNat : ℕ) * 2 ^ b.e = 2 ^ a.e :=
        two_zpow_split _ _ _ (by omega)
      calc ((a.m.value : ℚ) * 2 ^ ((a.e - b.e).toNat : ℕ) - b.m.value) * 2 ^ b.e
          = (a.m.value : ℚ) * (2 ^ ((a.e - b.e).toNat : ℕ) * 2 ^ b.e)
              - (b.m.value : ℚ) * 2 ^ b.e := by ring
        _ = _ := by rw [h2]

theorem BigFloat.val_subF_abs (a b : BigFloat) :
    |(BigFloat.subF a b).val| = |a.val - b.val| := by
  by_cases he : b.e ≤ a.e
  · rw [BigFloat.val_subF_of_le he]
  · unfold BigFloat.subF
    by_cases ha : a.is_zero
    · rw [if_pos ha, BigFloat.val_negF, BigFloat.val_of_is_zero ha, zero_sub, abs_neg]
    · rw [if_neg ha]
      by_cases hb : b.is_zero
      · rw [if_pos hb, BigFloat.val_of_is_zero hb, sub_zero]
      · rw [if_neg hb, if_neg he, BigFloat.val_normalize, abs_sub_comm]
        show |((SBigInt.sub ⟨b.m.is_negative, b.m.magnitude * 2 ^ (b.e - a.e).toNat⟩
          a.m).value : ℚ) * 2 ^ a.e| = _
        rw [SBigInt.value_sub, SBigInt.value_scale]
        congr 1
        unfold BigFloat.val
        push_cast
        have h2 : (2 : ℚ) ^ ((b.e - a.e).toNat : ℕ) * 2 ^ a.e = 2 ^ b.e :=
          two_zpow_split _ _ _ (by omega)
        calc ((b.m.value : ℚ) * 2 ^ ((b.e - a.e).toNat : ℕ) - a.m.value) * 2 ^ a.e
            = (b.m.value : ℚ) * (2 ^ ((b.e - a.e).toNat : ℕ) * 2 ^ a.e)
                - (a.m.value : ℚ) * 2 ^ a.e := by ring
          _ = _ := by rw [h2]

theorem BigFloat.val_shr (x : BigFloat) (k : ℤ) :
    (BigFloat.shr x k).val = x.val * 2 ^ (-k) := by
  unfold BigFloat.shr BigFloat.val
  dsimp only
  rw [show x.e - k = x.e + -k from by ring, zpow_add₀ (two_ne_zero : (2 : ℚ) ≠ 0)]
  ring

theorem BigFloat.val_ofInt (v : ℤ) : (BigFloat.ofInt v).val = (v : ℚ) := by
  unfold BigFloat.ofInt
  have hval : (SBigInt.ofInt v).value = v := by
    unfold SBigInt.ofInt SBigInt.value
    simp only [decide_eq_true_eq]
    by_cases hv : v < 0
    · rw [if_pos hv]
      omega
    · rw [if_neg hv]
      omega
  by_cases h0 : v = 0
  · rw [if_pos h0, h0]
    rw [show BigFloat.ZERO = BigFloat.mk ⟨false, 0⟩ 0 from rfl, BigFloat.val_mk]
    simp
  · rw [if_neg h0, BigFloat.val_normalize]
    show ((SBigInt.ofInt v).value : ℚ) * 2 ^ (0 : ℤ) = _
    rw [hval]
    simp

theorem BigFloat.abs_val_lt_ilog2 (x : BigFloat) :
    |x.val| < 2 ^ (x.ilog2 + 1) := by
  calc |x.val| < 2 ^ (x.e + (ilog2N x.m.magnitude : ℤ) + 1) := BigFloat.abs_val_upper x
    _ = 2 ^ (x.ilog2 + 1) := by
        unfold BigFloat.ilog2
        congr 1
        ring

theorem BigFloat.le_abs_val_ilog2 {x : BigFloat} (h : x.m.magnitude ≠ 0) :
    2 ^ x.ilog2 ≤ |x.val| := by
  calc (2 : ℚ) ^ x.ilog2 = 2 ^ (x.e + (ilog2N x.m.magnitude : ℤ)) := by
        unfold BigFloat.ilog2
        congr 1
        ring
    _ ≤ |x.val| := BigFloat.abs_val_lower h

theorem BigFloat.ilog2_le_of_abs_le {x : BigFloat} {t : ℤ} (hmag : x.m.magnitude ≠ 0)
    (h : |x.val| ≤ 2 ^ t) : x.ilog2 ≤ t :=
  (zpow_le_zpow_iff_right₀ (by norm_num : (1 : ℚ) < 2)).mp
    (le_trans (BigFloat.le_abs_val_ilog2 hmag) h)

theorem BigFloat.ilog2_eq_of_bracket {x : BigFloat} {t : ℤ} (hmag : x.m.magnitude ≠ 0)
    (h1 : 2 ^ t ≤ |x.val|) (h2 : |x.val| < 2 ^ (t + 1)) : x.ilog2 = t := by
  have ha : x.ilog2 < t + 1 :=
    (zpow_lt_zpow_iff_right₀ (by norm_num : (1 : ℚ) < 2)).mp
      (lt_of_le_of_lt (BigFloat.le_abs_val_ilog2 hmag) h2)
  have hb : t < x.ilog2 + 1 :=
    (zpow_lt_zpow_iff_right₀ (by norm_num : (1 : ℚ) < 2)).mp
      (lt_of_le_of_lt h1 (BigFloat.abs_val_lt_ilog2 x))
  omega

theorem BigFloat.e_le_ilog2 (x : BigFloat) : x.e ≤ x.ilog2 := by
  unfold BigFloat.ilog2
  omega

theorem ilog2N_mono {a b : ℕ} (ha : a ≠ 0) (h : a ≤ b) : ilog2N a ≤ ilog2N b := by
  have h1 : 2 ^ ilog2N a ≤ a := ilog2N_le ha
  have h2 : b < 2 ^ (ilog2N b + 1) := lt_ilog2N b
  have h3 : 2 ^ ilog2N a < 2 ^ (ilog2N b + 1) := lt_of_le_of_lt (le_trans h1 h) h2
  have := (Nat.pow_lt_pow_iff_right (by norm_num : 1 < 2)).mp h3
  omega

theorem two_zpow_le {a b : ℤ} (h : a ≤ b) : (2 : ℚ) ^ a ≤ 2 ^ b :=
  zpow_le_zpow_right₀ (by norm_num) h

theorem two_zpow_add (a b : ℤ) : (2 : ℚ) ^ (a + b) = 2 ^ a * 2 ^ b :=
  zpow_add₀ (by norm_num) a b

/-- Error of the exit iteration of the Newton-Raphson reciprocal: if
the rounded residual `1 − s·x` passes the stop test, the refined
iterate `x·(2 − s·x)` computed at the working precision is within
`2^(-actual_prec - 1)` of the exact reciprocal. -/
theorem BigFloat.reciprocal_exit_err (s x : BigFloat) (wp ap : ℤ)
    (hsmag : s.m.magnitude ≠ 0)
    (hL0 : 0 ≤ s.ilog2) (hLap : s.ilog2 ≤ ap - 4) (hwp : ap + 16 ≤ wp)
    (hexit :
      (BigFloat.sub_with_precision (BigFloat.ofInt 1)
        (BigFloat.mul_with_precision s x wp) wp).is_zero = true ∨
      (BigFloat.sub_with_precision (BigFloat.ofInt 1)
        (BigFloat.mul_with_precision s x wp) wp).ilog2 ≤ -ap + s.ilog2 - 1) :
    |(BigFloat.mul_with_precision x
        (BigFloat.sub_with_precision (BigFloat.ofInt 2)
          (BigFloat.mul_with_precision s x wp) wp) wp).val - (s.val)⁻¹|
      ≤ 2 ^ (-ap - 1) := by
  set L := s.ilog2 with hLdef
  set P := BigFloat.mul_with_precision s x wp with hPdef
  set delta := BigFloat.sub_with_precision (BigFloat.ofInt 1) P wp with hdeltadef
  set diff := BigFloat.sub_with_precision (BigFloat.ofInt 2) P wp with hdiffdef
  set X1 := BigFloat.mul_with_precision x diff wp with hX1def
  set ε : ℚ := 2 ^ (-wp - 1) with hεdef
  have hεpos : (0 : ℚ) < ε := by positivity
  set Λ : ℚ := 2 ^ (L - ap) with hΛdef
  have hΛpos : (0 : ℚ) < Λ := by positivity
  have hone : (BigFloat.ofInt 1).val = 1 := by
    rw [BigFloat.val_ofInt]
    norm_num
  have htwo : (BigFloat.ofInt 2).val = 2 := by
    rw [BigFloat.val_ofInt]
    norm_num
  have hSne : s.val ≠ 0 := fun hc => hsmag ((BigFloat.val_eq_zero_iff s).mp hc)
  have hSabs : (0 : ℚ) < |s.val| := abs_pos.mpr hSne
  have h2L : (2 : ℚ) ^ L ≤ |s.val| := BigFloat.le_abs_val_ilog2 hsmag
  have hS1 : (1 : ℚ) ≤ |s.val| :=
    le_trans (by simpa using two_zpow_le hL0) h2L
  have he1 : |P.val - s.val * x.val| ≤ ε := BigFloat.val_mul_with_precision s x wp
  have hsub1 : |(BigFloat.subF (BigFloat.ofInt 1) P).val| = |1 - P.val| := by
    rw [BigFloat.val_subF_abs, hone]
  have hδr : |delta.val - (BigFloat.subF (BigFloat.ofInt 1) P).val| ≤ ε :=
    BigFloat.round_to_precision_err _ wp
  have hDbound : |delta.val| < Λ := by
    rcases hexit with hz | hlog
    · rw [BigFloat.val_of_is_zero hz]
      simpa using hΛpos
    · calc |delta.val| < 2 ^ (delta.ilog2 + 1) := BigFloat.abs_val_lt_ilog2 delta
        _ ≤ Λ := two_zpow_le (by omega)
  have h1P : |1 - P.val| ≤ |delta.val| + ε := by
    have h := abs_sub_abs_le_abs_sub (BigFloat.subF (BigFloat.ofInt 1) P).val delta.val
    rw [hsub1] at h
    have h2 : |(BigFloat.subF (BigFloat.ofInt 1) P).val - delta.val| ≤ ε := by
      rwa [abs_sub_comm] at hδr
    linarith
  have h1sx : |1 - s.val * x.val| ≤ |delta.val| + 2 * ε := by
    have hrw : (1 : ℚ) - s.val * x.val = (1 - P.val) + (P.val - s.val * x.val) := by
      ring
    calc |1 - s.val * x.val| ≤ |1 - P.val| + |P.val - s.val * x.val| := by
          rw [hrw]
          exact abs_add _ _
      _ ≤ |delta.val| + 2 * ε := by linarith
  have hδ : |1 - s.val * x.val| ≤ Λ + 2 * ε := by linarith
  have h2ε : 2 * ε ≤ Λ := by
    have h1 : (2 : ℚ) * ε = 2 ^ (-wp) := by
      rw [hεdef, show (-wp : ℤ) = 1 + (-wp - 1) from by ring, two_zpow_add]
      norm_num
    rw [h1, hΛdef]
    exact two_zpow_le (by omega)
  have hδ1 : |1 - s.val * x.val| ≤ 2 ^ (L - ap + 1) := by
    have : Λ + Λ = 2 ^ (L - ap + 1) := by
      rw [hΛdef, show (L - ap + 1 : ℤ) = (L - ap) + 1 from by ring, two_zpow_add]
      ring
    linarith
  have hδle1 : |1 - s.val * x.val| ≤ 1 := by
    have : (2 : ℚ) ^ (L - ap + 1) ≤ 2 ^ (0 : ℤ) := two_zpow_le (by omega)
    simp only [zpow_zero] at this
    linarith
  have hΛ16 : Λ ≤ 1 / 16 := by
    have : Λ ≤ 2 ^ (-4 : ℤ) := two_zpow_le (by omega)
    norm_num at this
    linarith
  have hε16 : ε ≤ 1 / 16 := by
    have : ε ≤ 2 ^ (-4 : ℤ) := two_zpow_le (by omega)
    norm_num at this
    linarith
  have hPle2 : |P.val| ≤ 2 := by
    have h := abs_sub_abs_le_abs_sub P.val 1
    rw [abs_one, abs_sub_comm] at h
    have hD16 : |delta.val| ≤ 1 / 16 := le_trans (le_of_lt hDbound) hΛ16
    linarith
  have hdiffexact : (BigFloat.subF (BigFloat.ofInt 2) P).val = 2 - P.val := by
    by_cases hz : P.is_zero = true
    · unfold BigFloat.subF
      rw [if_neg (by decide : ¬((BigFloat.ofInt 2).is_zero = true)), if_pos hz,
        htwo, BigFloat.val_of_is_zero hz]
      ring
    · have hPmag : P.m.magnitude ≠ 0 := BigFloat.mag_ne_of_not_is_zero hz
      have hPilog : P.ilog2 ≤ 1 := by
        apply BigFloat.ilog2_le_of_abs_le hPmag
        have : (2 : ℚ) ^ (1 : ℤ) = 2 := by norm_num
        rw [this]
        exact hPle2
      have hPe : P.e ≤ (BigFloat.ofInt 2).e := by
        have h1 := BigFloat.e_le_ilog2 P
        have h2 : (BigFloat.ofInt 2).e = 1 := by decide
        omega
      rw [BigFloat.val_subF_of_le hPe, htwo]
  have he2 : |diff.val - (2 - P.val)| ≤ ε := by
    have h := BigFloat.round_to_precision_err (BigFloat.subF (BigFloat.ofInt 2) P) wp
    rw [hdiffexact] at h
    exact h
  have he3 : |X1.val - x.val * diff.val| ≤ ε := BigFloat.val_mul_with_precision x diff wp
  have hSX : |s.val * x.val| ≤ 2 := by
    have h := abs_sub_abs_le_abs_sub (s.val * x.val) 1
    rw [abs_one, abs_sub_comm] at h
    linarith
  have hkey : 1 - s.val * X1.val =
      (1 - s.val * x.val) ^ 2
        + s.val * x.val * ((P.val - s.val * x.val) - (diff.val - (2 - P.val)))
        - s.val * (X1.val - x.val * diff.val) := by
    ring
  have hnum : |1 - s.val * X1.val| ≤
      |1 - s.val * x.val| ^ 2 + 4 * ε + |s.val| * ε := by
    rw [hkey]
    have hA : |(1 - s.val * x.val) ^ 2| = |1 - s.val * x.val| ^ 2 := by
      rw [abs_of_nonneg (sq_nonneg _), sq_abs]
    have hB : |s.val * x.val * ((P.val - s.val * x.val) - (diff.val - (2 - P.val)))|
        ≤ 4 * ε := by
      rw [abs_mul]
      have h1 : |(P.val - s.val * x.val) - (diff.val - (2 - P.val))| ≤ 2 * ε := by
        calc |(P.val - s.val * x.val) - (diff.val - (2 - P.val))|
            ≤ |P.val - s.val * x.val| + |diff.val - (2 - P.val)| := abs_sub _ _
          _ ≤ ε + ε := add_le_add he1 he2
          _ = 2 * ε := by ring
      calc |s.val * x.val| * |(P.val - s.val * x.val) - (diff.val - (2 - P.val))|
          ≤ 2 * (2 * ε) := by
            apply mul_le_mul hSX h1 (abs_nonneg _) (by norm_num)
        _ = 4 * ε := by ring
    have hC : |s.val * (X1.val - x.val * diff.val)| ≤ |s.val| * ε := by
      rw [abs_mul]
      exact mul_le_mul_of_nonneg_left he3 (abs_nonneg _)
    calc |(1 - s.val * x.val) ^ 2
          + s.val * x.val * ((P.val - s.val * x.val) - (diff.val - (2 - P.val)))
          - s.val * (X1.val - x.val * diff.val)|
        ≤ |(1 - s.val * x.val) ^ 2
            + s.val * x.val * ((P.val - s.val * x.val) - (diff.val - (2 - P.val)))|
          + |s.val * (X1.val - x.val * diff.val)| := abs_sub _ _
      _ ≤ |(1 - s.val * x.val) ^ 2|
          + |s.val * x.val * ((P.val - s.val * x.val) - (diff.val - (2 - P.val)))|
          + |s.val * (X1.val - x.val * diff.val)| := by
            linarith [abs_add ((1 - s.val * x.val) ^ 2)
              (s.val * x.val * ((P.val - s.val * x.val) - (diff.val - (2 - P.val))))]
      _ ≤ |1 - s.val * x.val| ^ 2 + 4 * ε + |s.val| * ε := by
            rw [hA]
            linarith
  have ht1 : |1 - s.val * x.val| ^ 2 ≤ 2 ^ (-ap - 2) * |s.val| := by
    have h1 : |1 - s.val * x.val| ^ 2 ≤ (2 ^ (L - ap + 1) : ℚ) ^ 2 :=
      pow_le_pow_left (abs_nonneg _) hδ1 2
    have h2 : ((2 : ℚ) ^ (L - ap + 1)) ^ 2 = 2 ^ ((L - ap + 1) + (L - ap + 1)) := by
      rw [sq]
      exact (two_zpow_add _ _).symm
    have h3 : (2 : ℚ) ^ ((L - ap + 1) + (L - ap + 1)) ≤ 2 ^ (L + (-ap - 2)) :=
      two_zpow_le (by omega)
    calc |1 - s.val * x.val| ^ 2 ≤ (2 ^ (L - ap + 1) : ℚ) ^ 2 := h1
      _ = 2 ^ ((L - ap + 1) + (L - ap + 1)) := h2
      _ ≤ 2 ^ (L + (-ap - 2)) := h3
      _ = 2 ^ L * 2 ^ (-ap - 2) := two_zpow_add L (-ap - 2)
      _ ≤ |s.val| * 2 ^ (-ap - 2) := by
          apply mul_le_mul_of_nonneg_right h2L (by positivity)
      _ = 2 ^ (-ap - 2) * |s.val| := by ring
  have ht2 : 4 * ε ≤ 2 ^ (-ap - 4) * |s.val| := by
    have h1 : (4 : ℚ) * ε = 2 ^ (-wp + 1) := by
      rw [hεdef, show (-wp + 1 : ℤ) = 2 + (-wp - 1) from by ring, two_zpow_add]
      norm_num
    have h2 : (2 : ℚ) ^ (-wp + 1) ≤ 2 ^ (-ap - 4) := two_zpow_le (by omega)
    calc (4 : ℚ) * ε = 2 ^ (-wp + 1) := h1
      _ ≤ 2 ^ (-ap - 4) := h2
      _ = 2 ^ (-ap - 4) * 1 := (mul_one _).symm
      _ ≤ 2 ^ (-ap - 4) * |s.val| := by
          apply mul_le_mul_of_nonneg_left hS1 (by positivity)
  have ht3 : |s.val| * ε ≤ 2 ^ (-ap - 17) * |s.val| := by
    have h1 : ε ≤ 2 ^ (-ap - 17) := by
      rw [hεdef]
      exact two_zpow_le (by omega)
    calc |s.val| * ε ≤ |s.val| * 2 ^ (-ap - 17) :=
          mul_le_mul_of_nonneg_left h1 (abs_nonneg _)
      _ = 2 ^ (-ap - 17) * |s.val| := by ring
  have hsum : (2 : ℚ) ^ (-ap - 2) + 2 ^ (-ap - 4) + 2 ^ (-ap - 17) ≤ 2 ^ (-ap - 1) := by
    have e2 : (2 : ℚ) ^ (-ap - 2) = 2 ^ (-ap - 1) * 2 ^ (-1 : ℤ) := by
      rw [← two_zpow_add]
      congr 1
      ring
    have e4 : (2 : ℚ) ^ (-ap - 4) = 2 ^ (-ap - 1) * 2 ^ (-3 : ℤ) := by
      rw [← two_zpow_add]
      congr 1
      ring
    have e17 : (2 : ℚ) ^ (-ap - 17) = 2 ^ (-ap - 1) * 2 ^ (-16 : ℤ) := by
      rw [← two_zpow_add]
      congr 1
      ring
    have hc : (2 : ℚ) ^ (-1 : ℤ) + 2 ^ (-3 : ℤ) + 2 ^ (-16 : ℤ) ≤ 1 := by norm_num
    have hpos : (0 : ℚ) < 2 ^ (-ap - 1) := by positivity
    calc (2 : ℚ) ^ (-ap - 2) + 2 ^ (-ap - 4) + 2 ^ (-ap - 17)
        = 2 ^ (-ap - 1) * (2 ^ (-1 : ℤ) + 2 ^ (-3 : ℤ) + 2 ^ (-16 : ℤ)) := by
          rw [e2, e4, e17]
          ring
      _ ≤ 2 ^ (-ap - 1) * 1 := by
          apply mul_le_mul_of_nonneg_left hc (le_of_lt hpos)
      _ = 2 ^ (-ap - 1) := mul_one _
  have hfrac : |X1.val - (s.val)⁻¹| = |1 - s.val * X1.val| / |s.val| := by
    have h : X1.val - (s.val)⁻¹ = (s.val * X1.val - 1) / s.val := by
      field_simp
      ring
    rw [h, abs_div, abs_sub_comm]
  rw [hfrac, div_le_iff₀ hSabs]
  have hmono := mul_le_mul_of_nonneg_right hsum (abs_nonneg s.val)
  calc |1 - s.val * X1.val|
      ≤ |1 - s.val * x.val| ^ 2 + 4 * ε + |s.val| * ε := hnum
    _ ≤ (2 ^ (-ap - 2) + 2 ^ (-ap - 4) + 2 ^ (-ap - 17)) * |s.val| := by
        linarith
    _ ≤ 2 ^ (-ap - 1) * |s.val| := hmono

/-- The fueled Newton loop of `BigFloat::reciprocal`, when it exits,
returns a value within `2^(-actual_prec - 1)` of the exact
reciprocal. -/
theorem BigFloat.reciprocalLoop_err (s : BigFloat) (wp ap : ℤ)
    (hsmag : s.m.magnitude ≠ 0) (hL0 : 0 ≤ s.ilog2) (hLap : s.ilog2 ≤ ap - 4)
    (hwp : ap + 16 ≤ wp) :
    ∀ (fuel : ℕ) (x y : BigFloat),
      BigFloat.reciprocalLoop s wp ap s.ilog2 x fuel = some y →
      |y.val - (s.val)⁻¹| ≤ 2 ^ (-ap - 1) := by
  intro fuel
  induction fuel with
  | zero =>
    intro x y h
    exact absurd h (by simp [BigFloat.reciprocalLoop])
  | succ n ih =>
    intro x y h
    rw [BigFloat.reciprocalLoop] at h
    by_cases hc :
        (BigFloat.sub_with_precision (BigFloat.ofInt 1)
          (BigFloat.mul_with_precision s x wp) wp).is_zero = true ∨
        (BigFloat.sub_with_precision (BigFloat.ofInt 1)
          (BigFloat.mul_with_precision s x wp) wp).ilog2 ≤ -ap + s.ilog2 - 1
    · rw [if_pos hc] at h
      have hy := Option.some.inj h
      rw [← hy]
      exact BigFloat.reciprocal_exit_err s x wp ap hsmag hL0 hLap hwp hc
    · rw [if_neg hc] at h
      exact ih _ y h

/-- Accuracy contract of `BigFloat::reciprocal`: for an operand with
real exponent between `0` and `prec - 2`, a successful run returns a
value within `2^(-prec - 2)` of the exact reciprocal.  The bound
covers all three return paths: exact powers of two, an already
accurate 64-bit seed, and the rounded result of the Newton loop. -/
theorem BigFloat.reciprocal_err (s : BigFloat) (prec : ℤ) (fuel : ℕ) (y : BigFloat)
    (hL0 : 0 ≤ s.ilog2) (hLp : s.ilog2 ≤ prec - 2)
    (h : BigFloat.reciprocal s prec fuel = some y) :
    |y.val - (s.val)⁻¹| ≤ 2 ^ (-prec - 2) := by
  unfold BigFloat.reciprocal at h
  by_cases hz : s.is_zero = true
  · rw [if_pos hz] at h
    exact absurd h (by simp)
  · rw [if_neg hz] at h
    have hsmag : s.m.magnitude ≠ 0 := BigFloat.mag_ne_of_not_is_zero hz
    have hSne : s.val ≠ 0 := fun hc => hsmag ((BigFloat.val_eq_zero_iff s).mp hc)
    have hSabs : (0 : ℚ) < |s.val| := abs_pos.mpr hSne
    have h2L : (2 : ℚ) ^ s.ilog2 ≤ |s.val| := BigFloat.le_abs_val_ilog2 hsmag
    by_cases hex : s.ilog2_exact.isSome = true
    · rw [if_pos hex] at h
      have hy := Option.some.inj h
      have hmag1 : s.m.magnitude = 1 := by
        unfold BigFloat.ilog2_exact at hex
        by_cases h0 : s.m.magnitude = 0
        · rw [if_pos h0] at hex
          simp at hex
        · rw [if_neg h0] at hex
          by_cases h1 : s.m.magnitude = 1
          · exact h1
          · rw [if_neg h1] at hex
            simp at hex
      have hsv : s.val = (if s.m.is_negative then (-1 : ℚ) else 1) * 2 ^ s.e := by
        rcases s with ⟨⟨b, mag⟩, e⟩
        simp only at hmag1
        subst hmag1
        rw [BigFloat.val_mk]
        ring_nf
      have hyval : y.val = (s.val)⁻¹ := by
        rw [← hy, BigFloat.val_from_mantissa_exponent, hsv]
        have hneg : BigFloat.is_negative s = s.m.is_negative := rfl
        cases hb : s.m.is_negative
        · rw [show BigFloat.is_negative s = false from hneg.trans hb]
          show ((SBigInt.ONE.value : ℚ)) * 2 ^ (-s.e) = _
          rw [show (SBigInt.ONE.value : ℚ) = 1 from rfl]
          rw [if_neg (by simp)]
          rw [zpow_neg]
          simp
        · rw [show BigFloat.is_negative s = true from hneg.trans hb]
          show ((SBigInt.NEG_ONE.value : ℚ)) * 2 ^ (-s.e) = _
          rw [show (SBigInt.NEG_ONE.value : ℚ) = -1 from rfl]
          rw [if_pos (by simp)]
          rw [zpow_neg]
          field_simp
      rw [hyval]
      simp only [sub_self, abs_zero]
      positivity
    · rw [if_neg hex] at h
      dsimp only at h
      set est := BigFloat.from_mantissa_exponent
        (SBigInt.divT ⟨false, 2 ^ (ilog2N s.m.magnitude + 64)⟩ s.m)
        (-s.e - (ilog2N s.m.magnitude + 64 : ℕ)) with hestdef
      by_cases hbr : (BigFloat.subF (BigFloat.ofInt 1) (BigFloat.mulF s est)).ilog2 + 1 <
          s.ilog2 - (prec + 2)
      · rw [if_pos hbr] at h
        have hy := Option.some.inj h
        set d0 := BigFloat.subF (BigFloat.ofInt 1) (BigFloat.mulF s est) with hd0def
        have hd0v : |d0.val| = |1 - s.val * est.val| := by
          rw [hd0def, BigFloat.val_subF_abs, BigFloat.val_mulF, BigFloat.val_ofInt]
          norm_num
        have hd0b : |d0.val| < 2 ^ (s.ilog2 - (prec + 2) - 1) := by
          calc |d0.val| < 2 ^ (d0.ilog2 + 1) := BigFloat.abs_val_lt_ilog2 d0
            _ ≤ 2 ^ (s.ilog2 - (prec + 2) - 1) := two_zpow_le (by omega)
        have hfrac : |est.val - (s.val)⁻¹| = |1 - s.val * est.val| / |s.val| := by
          have hq : est.val - (s.val)⁻¹ = (s.val * est.val - 1) / s.val := by
            field_simp
            ring
          rw [hq, abs_div, abs_sub_comm]
        rw [← hy, hfrac, div_le_iff₀ hSabs]
        calc |1 - s.val * est.val| = |d0.val| := hd0v.symm
          _ ≤ 2 ^ (s.ilog2 - (prec + 2) - 1) := le_of_lt hd0b
          _ = 2 ^ (-prec - 2) * 2 ^ (s.ilog2 - 1) := by
              rw [← two_zpow_add]
              congr 1
              ring
          _ ≤ 2 ^ (-prec - 2) * |s.val| := by
              apply mul_le_mul_of_nonneg_left _ (by positivity)
              calc (2 : ℚ) ^ (s.ilog2 - 1) ≤ 2 ^ s.ilog2 := two_zpow_le (by omega)
                _ ≤ |s.val| := h2L
      · rw [if_neg hbr] at h
        rcases Option.map_eq_some'.mp h with ⟨w, hw1, hw2⟩
        set ap := prec + 2 with hapdef
        set niter := (ilog2N (Int.tdiv (s.ilog2 - (prec + 2))
          ((BigFloat.subF (BigFloat.ofInt 1) (BigFloat.mulF s est)).ilog2 + 1) + 1).toNat : ℤ)
          with hniterdef
        set wp := prec + 2 + (niter + 2) + max 0 est.ilog2 + 16 with hwpdef
        have hwpge : ap + 16 ≤ wp := by
          have h1 : (0 : ℤ) ≤ niter := by
            rw [hniterdef]
            exact_mod_cast Int.ofNat_nonneg _
          have h2 : (0 : ℤ) ≤ max 0 est.ilog2 := le_max_left _ _
          omega
        have hloop := BigFloat.reciprocalLoop_err s wp ap hsmag hL0 (by omega) hwpge
          fuel est w hw1
        have hround := BigFloat.round_to_precision_err w ap
        rw [← hw2]
        have htot : |(w.round_to_precision ap).val - (s.val)⁻¹| ≤
            2 ^ (-ap - 1) + 2 ^ (-ap - 1) := by
          calc |(w.round_to_precision ap).val - (s.val)⁻¹|
              ≤ |(w.round_to_precision ap).val - w.val| + |w.val - (s.val)⁻¹| := by
                have hrw : (w.round_to_precision ap).val - (s.val)⁻¹ =
                    ((w.round_to_precision ap).val - w.val) + (w.val - (s.val)⁻¹) := by
                  ring
                rw [hrw]
                exact abs_add _ _
            _ ≤ 2 ^ (-ap - 1) + 2 ^ (-ap - 1) := add_le_add hround hloop
        calc |(w.round_to_precision ap).val - (s.val)⁻¹|
            ≤ 2 ^ (-ap - 1) + 2 ^ (-ap - 1) := htot
          _ = 2 ^ (-prec - 2) := by
              rw [hapdef]
              rw [show (-(prec + 2) - 1 : ℤ) = (-prec - 2) + (-1) from by ring,
                two_zpow_add]
              ring_nf

theorem BigFloat.ln2Partial_of_lt {prec k : ℤ} (h : prec < k) :
    BigFloat.ln2Partial prec k = 0 := by
  unfold BigFloat.ln2Partial
  rw [show (prec + 1 - k).toNat = 0 from by omega]
  simp

theorem BigFloat.ln2Partial_step {prec k : ℤ} (h : k ≤ prec) :
    BigFloat.ln2Partial prec k =
      ((k : ℚ) * 2 ^ k)⁻¹ + BigFloat.ln2Partial prec (k + 1) := by
  unfold BigFloat.ln2Partial
  rw [show (prec + 1 - k).toNat = (prec + 1 - (k + 1)).toNat + 1 from by omega,
    Finset.sum_range_succ', add_comm]
  congr 1
  · norm_num
  · apply Finset.sum_congr rfl
    intro i _
    have hc : k + ((i + 1 : ℕ) : ℤ) = (k + 1) + (i : ℤ) := by
      push_cast
      ring
    rw [hc]

theorem BigFloat.ofInt_k_facts {k : ℤ} (hk : 1 ≤ k) :
    (BigFloat.ofInt k).val = (k : ℚ) ∧ (BigFloat.ofInt k).m.magnitude ≠ 0 ∧
      (BigFloat.ofInt k).ilog2 = (ilog2N k.toNat : ℤ) := by
  have hv := BigFloat.val_ofInt k
  have hkQ : (0 : ℚ) < (k : ℚ) := by exact_mod_cast hk
  have hne : (BigFloat.ofInt k).val ≠ 0 := by
    rw [hv]
    exact ne_of_gt hkQ
  have hmag : (BigFloat.ofInt k).m.magnitude ≠ 0 :=
    fun hc => hne ((BigFloat.val_eq_zero_iff _).mpr hc)
  refine ⟨hv, hmag, ?_⟩
  have hkt : ((k.toNat : ℤ)) = k := by omega
  have hktQ : ((k.toNat : ℕ) : ℚ) = (k : ℚ) := by exact_mod_cast congrArg Int.cast hkt
  have habs : |(BigFloat.ofInt k).val| = (k : ℚ) := by
    rw [hv]
    exact abs_of_pos hkQ
  apply BigFloat.ilog2_eq_of_bracket hmag
  · rw [habs]
    have hl : 2 ^ ilog2N k.toNat ≤ k.toNat := ilog2N_le (by omega)
    have hlQ : ((2 ^ ilog2N k.toNat : ℕ) : ℚ) ≤ ((k.toNat : ℕ) : ℚ) := by
      exact_mod_cast hl
    rw [hktQ] at hlQ
    calc (2 : ℚ) ^ ((ilog2N k.toNat : ℕ) : ℤ) = ((2 ^ ilog2N k.toNat : ℕ) : ℚ) := by
          rw [zpow_natCast]
          push_cast
          rfl
      _ ≤ (k : ℚ) := hlQ
  · rw [habs]
    have hu : k.toNat < 2 ^ (ilog2N k.toNat + 1) := lt_ilog2N k.toNat
    have huQ : ((k.toNat : ℕ) : ℚ) < ((2 ^ (ilog2N k.toNat + 1) : ℕ) : ℚ) := by
      exact_mod_cast hu
    rw [hktQ] at huQ
    calc (k : ℚ) < ((2 ^ (ilog2N k.toNat + 1) : ℕ) : ℚ) := huQ
      _ = 2 ^ ((ilog2N k.toNat : ℤ) + 1) := by
          rw [show (ilog2N k.toNat : ℤ) + 1 = ((ilog2N k.toNat + 1 : ℕ) : ℤ) from by
            push_cast; ring, zpow_natCast]
          push_cast
          rfl

/-- Accumulated error of the series loop of `ln2_underestimate`: each
term contributes the reciprocal's error scaled by `2^(-k)`. -/
theorem BigFloat.ln2Loop_err (wp prec : ℤ) (rf : ℕ) (hprec : 1 ≤ prec)
    (hwp : (ilog2N prec.toNat : ℤ) + 2 ≤ wp) :
    ∀ (fuel : ℕ) (k : ℤ) (res y : BigFloat), 1 ≤ k →
      BigFloat.ln2Loop wp prec rf k res fuel = some y →
      |y.val - res.val - BigFloat.ln2Partial prec k| ≤
        ((prec + 1 - k).toNat : ℚ) * 2 ^ (-wp - 2) := by
  intro fuel
  induction fuel with
  | zero =>
    intro k res y hk h
    exact absurd h (by simp [BigFloat.ln2Loop])
  | succ n ih =>
    intro k res y hk h
    rw [BigFloat.ln2Loop] at h
    by_cases hlt : prec < k
    · rw [if_pos hlt] at h
      have hy := Option.some.inj h
      rw [← hy, BigFloat.ln2Partial_of_lt hlt,
        show (prec + 1 - k).toNat = 0 from by omega]
      simp
    · rw [if_neg hlt] at h
      rcases hrec : BigFloat.reciprocal (BigFloat.ofInt k) wp rf with _ | a
      · rw [hrec] at h
        exact absurd h (by simp)
      · rw [hrec] at h
        simp only [Option.some_bind] at h
        obtain ⟨hval, hmag, hilog⟩ := BigFloat.ofInt_k_facts hk
        have hmono : ilog2N k.toNat ≤ ilog2N prec.toNat :=
          ilog2N_mono (by omega) (by omega)
        have hcontract := BigFloat.reciprocal_err (BigFloat.ofInt k) wp rf a
          (by rw [hilog]; exact_mod_cast Int.ofNat_nonneg _)
          (by rw [hilog]; omega) hrec
        rw [hval] at hcontract
        have hresv : (BigFloat.addF res (a.shr k)).val =
            res.val + a.val * 2 ^ (-k) := by
          rw [BigFloat.val_addF, BigFloat.val_shr]
        have hIH := ih (k + 1) (BigFloat.addF res (a.shr k)) y (by omega) h
        rw [hresv] at hIH
        rw [BigFloat.ln2Partial_step (by omega : k ≤ prec)]
        have hterm : |a.val * 2 ^ (-k) - ((k : ℚ) * 2 ^ k)⁻¹| ≤
            2 ^ (-wp - 2) * 2 ^ (-k) := by
          have h1 : ((k : ℚ) * 2 ^ k)⁻¹ = (k : ℚ)⁻¹ * 2 ^ (-k) := by
            rw [mul_inv, ← zpow_neg]
          rw [h1, show a.val * 2 ^ (-k) - (k : ℚ)⁻¹ * 2 ^ (-k) =
            (a.val - (k : ℚ)⁻¹) * 2 ^ (-k) from by ring, abs_mul,
            abs_of_pos (show (0 : ℚ) < 2 ^ (-k) from by positivity)]
          exact mul_le_mul_of_nonneg_right hcontract (by positivity)
        have hterm2 : (2 : ℚ) ^ (-wp - 2) * 2 ^ (-k) ≤ 2 ^ (-wp - 2) := by
          have hk1 : (2 : ℚ) ^ (-k) ≤ 1 := by
            have h0 := two_zpow_le (show -k ≤ 0 by omega)
            rwa [zpow_zero] at h0
          have h2 := mul_le_mul_of_nonneg_left hk1
            (show (0 : ℚ) ≤ 2 ^ (-wp - 2) by positivity)
          rwa [mul_one] at h2
        have hrw : y.val - res.val -
            (((k : ℚ) * 2 ^ k)⁻¹ + BigFloat.ln2Partial prec (k + 1)) =
            (y.val - (res.val + a.val * 2 ^ (-k)) - BigFloat.ln2Partial prec (k + 1))
              + (a.val * 2 ^ (-k) - ((k : ℚ) * 2 ^ k)⁻¹) := by
          ring
        have hcount : ((prec + 1 - k).toNat : ℚ) = ((prec + 1 - (k + 1)).toNat : ℚ) + 1 := by
          have hn : (prec + 1 - k).toNat = (prec + 1 - (k + 1)).toNat + 1 := by omega
          rw [hn]
          push_cast
          ring
        calc |y.val - res.val -
              (((k : ℚ) * 2 ^ k)⁻¹ + BigFloat.ln2Partial prec (k + 1))|
            ≤ |y.val - (res.val + a.val * 2 ^ (-k)) - BigFloat.ln2Partial prec (k + 1)|
              + |a.val * 2 ^ (-k) - ((k : ℚ) * 2 ^ k)⁻¹| := by
              rw [hrw]
              exact abs_add _ _
          _ ≤ ((prec + 1 - (k + 1)).toNat : ℚ) * 2 ^ (-wp - 2) + 2 ^ (-wp - 2) := by
              have := le_trans hterm hterm2
              linarith
          _ = ((prec + 1 - k).toNat : ℚ) * 2 ^ (-wp - 2) := by
              rw [hcount]
              ring

/-- Total error of `ln2_underestimate` against the exact partial sum
of the series: final rounding plus the accumulated reciprocal
errors. -/
theorem BigFloat.ln2U_err (prec : ℤ) (hp : 1 ≤ prec) (fuel : ℕ) (y : BigFloat)
    (h : BigFloat.ln2U prec fuel = some y) :
    |y.val - BigFloat.ln2Partial prec 1| ≤ 2 ^ (-prec - 1) + 2 ^ (-prec - 17) := by
  unfold BigFloat.ln2U at h
  rcases Option.map_eq_some'.mp h with ⟨res, hres, hy⟩
  have hwp : (ilog2N prec.toNat : ℤ) + 2 ≤ BigFloat.ln2WorkingPrec prec := by
    unfold BigFloat.ln2WorkingPrec
    omega
  have hloop := BigFloat.ln2Loop_err (BigFloat.ln2WorkingPrec prec) prec fuel hp hwp
    fuel 1 BigFloat.ZERO res (le_refl 1) hres
  have hz : BigFloat.ZERO.val = 0 := by
    rw [show BigFloat.ZERO = BigFloat.mk ⟨false, 0⟩ 0 from rfl, BigFloat.val_mk]
    simp
  rw [hz, sub_zero] at hloop
  have hcard : ((prec + 1 - 1).toNat : ℚ) = ((prec.toNat : ℕ) : ℚ) := by
    norm_num
  rw [hcard] at hloop
  have hcount : ((prec.toNat : ℕ) : ℚ) ≤ 2 ^ ((ilog2N prec.toNat : ℤ) + 1) := by
    have hu : prec.toNat < 2 ^ (ilog2N prec.toNat + 1) := lt_ilog2N prec.toNat
    have huQ : ((prec.toNat : ℕ) : ℚ) ≤ ((2 ^ (ilog2N prec.toNat + 1) : ℕ) : ℚ) := by
      exact_mod_cast le_of_lt hu
    calc ((prec.toNat : ℕ) : ℚ) ≤ ((2 ^ (ilog2N prec.toNat + 1) : ℕ) : ℚ) := huQ
      _ = 2 ^ ((ilog2N prec.toNat : ℤ) + 1) := by
          rw [show (ilog2N prec.toNat : ℤ) + 1 = ((ilog2N prec.toNat + 1 : ℕ) : ℤ) from by
            push_cast; ring, zpow_natCast]
          push_cast
          rfl
  have hloop2 : |res.val - BigFloat.ln2Partial prec 1| ≤ 2 ^ (-prec - 17) := by
    have hε : (0 : ℚ) < 2 ^ (-(BigFloat.ln2WorkingPrec prec) - 2) := by positivity
    have hmul : ((prec.toNat : ℕ) : ℚ) * 2 ^ (-(BigFloat.ln2WorkingPrec prec) - 2) ≤
        2 ^ ((ilog2N prec.toNat : ℤ) + 1) * 2 ^ (-(BigFloat.ln2WorkingPrec prec) - 2) :=
      mul_le_mul_of_nonneg_right hcount (le_of_lt hε)
    have hpow : (2 : ℚ) ^ ((ilog2N prec.toNat : ℤ) + 1) *
        2 ^ (-(BigFloat.ln2WorkingPrec prec) - 2) = 2 ^ (-prec - 17) := by
      rw [← two_zpow_add]
      congr 1
      unfold BigFloat.ln2WorkingPrec
      ring
    calc |res.val - BigFloat.ln2Partial prec 1|
        ≤ ((prec.toNat : ℕ) : ℚ) * 2 ^ (-(BigFloat.ln2WorkingPrec prec) - 2) := hloop
      _ ≤ 2 ^ (-prec - 17) := by rw [← hpow]; exact hmul
  have hround : |y.val - res.val| ≤ 2 ^ (-prec - 1) := by
    rw [← hy]
    exact BigFloat.round_to_precision_err res prec
  calc |y.val - BigFloat.ln2Partial prec 1|
      ≤ |y.val - res.val| + |res.val - BigFloat.ln2Partial prec 1| := by
        have hrw : y.val - BigFloat.ln2Partial prec 1 =
            (y.val - res.val) + (res.val - BigFloat.ln2Partial prec 1) := by
          ring
        rw [hrw]
        exact abs_add _ _
    _ ≤ 2 ^ (-prec - 1) + 2 ^ (-prec - 17) := add_le_add hround hloop2

/-- At precision one the series loop performs a single exact step:
the reciprocal of one is exact and `1/(1·2^1)` needs no rounding, so
`ln2_underestimate(1)` returns exactly one half. -/
theorem BigFloat.ln2U_one_val (fuel : ℕ) (y : BigFloat)
    (h : BigFloat.ln2U 1 fuel = some y) : y.val = 1 / 2 := by
  rcases fuel with _ | fuel
  · exact absurd h (by rw [show BigFloat.ln2U 1 0 = none from rfl]; simp)
  rcases fuel with _ | n
  · exact absurd h (by rw [show BigFloat.ln2U 1 1 = none from rfl]; simp)
  · rw [show BigFloat.ln2U 1 (n + 2) = some ⟨⟨false, 1⟩, -1⟩ from rfl] at h
    rw [← Option.some.inj h,
      show (⟨⟨false, 1⟩, -1⟩ : BigFloat) = BigFloat.mk ⟨false, 1⟩ (-1) from rfl,
      BigFloat.val_mk]
    norm_num

/-- Tail bound of the ln 2 series: the partial sum of
`Σ x^(n+1)/(n+1)` at `x = 1/2` underestimates `log 2` by at most
`(1/(p+1))·(1/2)^p`. -/
theorem log_two_tail (p : ℕ) :
    0 ≤ Real.log 2 - (Finset.range p).sum (fun i => ((1 : ℝ)/2) ^ (i + 1) / ((i : ℝ) + 1)) ∧
    Real.log 2 - (Finset.range p).sum (fun i => ((1 : ℝ)/2) ^ (i + 1) / ((i : ℝ) + 1)) ≤
      (1 / ((p : ℝ) + 1)) * (1/2) ^ p := by
  have hx : |(1 : ℝ)/2| < 1 := by
    rw [abs_of_pos (by norm_num : (0 : ℝ) < 1/2)]
    norm_num
  have hs := Real.hasSum_pow_div_log_of_abs_lt_one hx
  have hlog : -Real.log (1 - 1/2) = Real.log 2 := by
    rw [show (1 - 1/2 : ℝ) = 2⁻¹ by norm_num, Real.log_inv]
    ring
  rw [hlog] at hs
  have hsumm : Summable (fun n : ℕ => ((1 : ℝ)/2) ^ (n + 1) / ((n : ℝ) + 1)) := hs.summable
  have htsum : tsum (fun n : ℕ => ((1 : ℝ)/2) ^ (n + 1) / ((n : ℝ) + 1)) = Real.log 2 := hs.tsum_eq
  have hsplit := sum_add_tsum_nat_add (f := fun n : ℕ => ((1 : ℝ)/2) ^ (n + 1) / ((n : ℝ) + 1))
    p hsumm
  rw [htsum] at hsplit
  have hT : Real.log 2 -
      (Finset.range p).sum (fun i => ((1 : ℝ)/2) ^ (i + 1) / ((i : ℝ) + 1)) =
      tsum (fun i : ℕ => ((1 : ℝ)/2) ^ ((i + p) + 1) / (((i + p : ℕ) : ℝ) + 1)) := by
    linarith [hsplit]
  constructor
  · rw [hT]
    apply tsum_nonneg
    intro i
    positivity
  · rw [hT]
    have hf' : Summable (fun i : ℕ => ((1 : ℝ)/2) ^ ((i + p) + 1) / (((i + p : ℕ) : ℝ) + 1)) :=
      (summable_nat_add_iff p).mpr hsumm
    have hgeo : Summable (fun i : ℕ => ((1 : ℝ)/2) ^ (p + 1) * ((1 : ℝ)/2) ^ i) :=
      (summable_geometric_of_lt_one (by norm_num) (by norm_num)).mul_left _
    have hg : Summable (fun i : ℕ => (1 / ((p : ℝ) + 1)) *
        (((1 : ℝ)/2) ^ (p + 1) * ((1 : ℝ)/2) ^ i)) := hgeo.mul_left _
    have hle : ∀ i : ℕ, ((1 : ℝ)/2) ^ ((i + p) + 1) / (((i + p : ℕ) : ℝ) + 1) ≤
        (1 / ((p : ℝ) + 1)) * (((1 : ℝ)/2) ^ (p + 1) * ((1 : ℝ)/2) ^ i) := by
      intro i
      have hnum : (0 : ℝ) ≤ ((1 : ℝ)/2) ^ ((i + p) + 1) := by positivity
      have hden : (0 : ℝ) < (p : ℝ) + 1 := by positivity
      have hdle : (p : ℝ) + 1 ≤ ((i + p : ℕ) : ℝ) + 1 := by
        push_cast
        linarith [Nat.cast_nonneg (α := ℝ) i]
      calc ((1 : ℝ)/2) ^ ((i + p) + 1) / (((i + p : ℕ) : ℝ) + 1)
          ≤ ((1 : ℝ)/2) ^ ((i + p) + 1) / ((p : ℝ) + 1) :=
            div_le_div_of_nonneg_left hnum hden hdle
        _ = (1 / ((p : ℝ) + 1)) * (((1 : ℝ)/2) ^ (p + 1) * ((1 : ℝ)/2) ^ i) := by
            rw [show (i + p) + 1 = (p + 1) + i from by ring, pow_add]
            ring
    have hTle := tsum_le_tsum hle hf' hg
    have hval : tsum (fun i : ℕ => (1 / ((p : ℝ) + 1)) *
        (((1 : ℝ)/2) ^ (p + 1) * ((1 : ℝ)/2) ^ i)) = (1 / ((p : ℝ) + 1)) * (1/2) ^ p := by
      rw [tsum_mul_left, tsum_mul_left, tsum_geometric_of_lt_one (by norm_num) (by norm_num)]
      rw [show (1 - (1 : ℝ)/2)⁻¹ = 2 by norm_num, pow_succ]
      ring
    rw [hval] at hTle
    exact hTle

/-- The embedded rational partial sum agrees with the real partial
sum of the series. -/
theorem ln2Partial_cast (prec : ℤ) :
    ((BigFloat.ln2Partial prec 1 : ℚ) : ℝ) =
      (Finset.range prec.toNat).sum (fun i => ((1 : ℝ)/2) ^ (i + 1) / ((i : ℝ) + 1)) := by
  unfold BigFloat.ln2Partial
  rw [show (prec + 1 - 1).toNat = prec.toNat from by norm_num]
  rw [Rat.cast_sum]
  apply Finset.sum_congr rfl
  intro i _
  have hc : (1 : ℤ) + (i : ℤ) = ((i + 1 : ℕ) : ℤ) := by
    push_cast
    ring
  rw [hc, zpow_natCast]
  push_cast
  rw [mul_inv, ← one_div, div_pow, one_pow, one_div ((2 : ℝ) ^ (i + 1))]
  rw [div_eq_mul_inv]
  ring

set_option maxRecDepth 100000 in
/-- C8: for every requested precision `p ≥ 1`, whenever the fueled
embedding of `BigFloat::ln2` returns, its result is within `2^(-p)`
of the natural logarithm of 2, and the series loop works at precision
`p + log2(p) + 16`.  The error splits into the final half-up rounding
(at most `2^(-p-1)`), the accumulated reciprocal errors (at most
`2^(-p-17)`), and the series tail `log 2 - Σ_{k=1..p} 1/(k·2^k)`,
which is nonnegative and at most `(1/(p+1))·2^(-p)`; for `p = 1` the
single loop step is exact and the direct estimate applies. -/
theorem ln2_series_accuracy :
    (∀ p : ℤ, BigFloat.ln2WorkingPrec p = p + (ilog2N p.toNat : ℤ) + 16) ∧
    ∀ p : ℤ, 1 ≤ p → ∀ (fuel : ℕ) (y : BigFloat), BigFloat.ln2U p fuel = some y →
      |(y.val : ℝ) - Real.log 2| < (2 : ℝ) ^ (-p) := by
  refine ⟨fun p => rfl, ?_⟩
  intro p hp fuel y h
  by_cases hp1 : p = 1
  · subst hp1
    rw [BigFloat.ln2U_one_val fuel y h]
    have h1 : ((1 / 2 : ℚ) : ℝ) = 1 / 2 := by norm_num
    have hgt := Real.log_two_gt_d9
    have hlt := Real.log_two_lt_d9
    have h2 : ((2 : ℝ) ^ (-1 : ℤ)) = 1 / 2 := by norm_num
    rw [h1, abs_sub_comm, abs_of_pos (by linarith), h2]
    linarith
  · have hp2 : 2 ≤ p := by omega
    have hq := BigFloat.ln2U_err p hp fuel y h
    have hqR : |(y.val : ℝ) - ((BigFloat.ln2Partial p 1 : ℚ) : ℝ)| ≤
        (2 : ℝ) ^ (-p - 1) + (2 : ℝ) ^ (-p - 17) := by
      have h1 : |((y.val - BigFloat.ln2Partial p 1 : ℚ) : ℝ)| ≤
          (((2 : ℚ) ^ (-p - 1) + (2 : ℚ) ^ (-p - 17) : ℚ) : ℝ) := by
        rw [← Rat.cast_abs]
        exact_mod_cast hq
      push_cast at h1
      exact h1
    obtain ⟨htail0, htail⟩ := log_two_tail p.toNat
    have hTS : ((BigFloat.ln2Partial p 1 : ℚ) : ℝ) =
        (Finset.range p.toNat).sum (fun i => ((1 : ℝ)/2) ^ (i + 1) / ((i : ℝ) + 1)) :=
      ln2Partial_cast p
    have htailbound : |((BigFloat.ln2Partial p 1 : ℚ) : ℝ) - Real.log 2| ≤
        (1 / ((p.toNat : ℝ) + 1)) * (1/2) ^ p.toNat := by
      rw [hTS, abs_sub_comm, abs_of_nonneg htail0]
      exact htail
    have hpow : ((1 : ℝ)/2) ^ p.toNat = (2 : ℝ) ^ (-p) := by
      rw [one_div, inv_pow, ← zpow_natCast (2 : ℝ) p.toNat, ← zpow_neg]
      congr 1
      omega
    have hfrac : (1 / ((p.toNat : ℝ) + 1)) ≤ 1 / 3 := by
      have h3 : (3 : ℝ) ≤ (p.toNat : ℝ) + 1 := by
        have : (2 : ℕ) ≤ p.toNat := by omega
        have h4 : (2 : ℝ) ≤ (p.toNat : ℝ) := by exact_mod_cast this
        linarith
      exact one_div_le_one_div_of_le (by norm_num) h3
    set A : ℝ := (2 : ℝ) ^ (-p) with hA
    have hApos : (0 : ℝ) < A := by positivity
    have e1 : (2 : ℝ) ^ (-p - 1) = A * (2 : ℝ) ^ (-1 : ℤ) := by
      rw [hA, ← zpow_add₀ (two_ne_zero : (2 : ℝ) ≠ 0)]
      congr 1
    have e17 : (2 : ℝ) ^ (-p - 17) = A * (2 : ℝ) ^ (-17 : ℤ) := by
      rw [hA, ← zpow_add₀ (two_ne_zero : (2 : ℝ) ≠ 0)]
      congr 1
    have htail2 : (1 / ((p.toNat : ℝ) + 1)) * (1/2) ^ p.toNat ≤ (1/3) * A := by
      rw [hpow]
      exact mul_le_mul_of_nonneg_right hfrac (le_of_lt hApos)
    have hconst : (2 : ℝ) ^ (-1 : ℤ) + (2 : ℝ) ^ (-17 : ℤ) + 1/3 < 1 := by norm_num
    calc |(y.val : ℝ) - Real.log 2|
        ≤ |(y.val : ℝ) - ((BigFloat.ln2Partial p 1 : ℚ) : ℝ)|
          + |((BigFloat.ln2Partial p 1 : ℚ) : ℝ) - Real.log 2| := by
          have hrw : (y.val : ℝ) - Real.log 2 =
              ((y.val : ℝ) - ((BigFloat.ln2Partial p 1 : ℚ) : ℝ))
                + (((BigFloat.ln2Partial p 1 : ℚ) : ℝ) - Real.log 2) := by
            ring
          rw [hrw]
          exact abs_add _ _
      _ ≤ ((2 : ℝ) ^ (-p - 1) + (2 : ℝ) ^ (-p - 17))
          + (1 / ((p.toNat : ℝ) + 1)) * (1/2) ^ p.toNat := add_le_add hqR htailbound
      _ ≤ A * (2 : ℝ) ^ (-1 : ℤ) + A * (2 : ℝ) ^ (-17 : ℤ) + (1/3) * A := by
          rw [e1, e17]
          linarith
      _ = A * ((2 : ℝ) ^ (-1 : ℤ) + (2 : ℝ) ^ (-17 : ℤ) + 1/3) := by ring
      _ < A * 1 := by
          exact mul_lt_mul_of_pos_left hconst hApos
      _ = (2 : ℝ) ^ (-p) := by rw [mul_one]

set_option maxRecDepth 100000 in
/-- C8 witness: the accuracy theorem instantiated at the claim's
cited precision `p = 128`, with the embedded code evaluated at
concrete fuel 256 (enough for the 128 series terms and every Newton
iteration); the working precision is `128 + log2(128) + 16 = 151`. -/
theorem ln2_series_accuracy_witness :
    BigFloat.ln2WorkingPrec 128 = 151 ∧
    BigFloat.ln2U 128 256 =
      some ⟨⟨false, 235865763225513294137944142764154484399⟩, -128⟩ ∧
    |(((BigFloat.mk ⟨false, 235865763225513294137944142764154484399⟩ (-128)).val : ℚ) : ℝ)
        - Real.log 2| < (2 : ℝ) ^ (-(128 : ℤ)) := by
  have heval : BigFloat.ln2U 128 256 =
      some ⟨⟨false, 235865763225513294137944142764154484399⟩, -128⟩ := by decide
  exact ⟨by decide, heval,
    ln2_series_accuracy.2 128 (by norm_num) 256 _ heval⟩

/-! Decimal digit and integer string round-trip facts. -/

theorem parse_digit_to_ascii {d : ℕ} (h : d ≤ 9) :
    parse_ascii_digit (digit_to_ascii d false) = some d := by
  unfold digit_to_ascii parse_ascii_digit
  rw [if_pos h, if_pos (by omega)]
  congr 1
  omega

theorem digit_to_ascii_range {d : ℕ} (h : d ≤ 9) :
    48 ≤ digit_to_ascii d false ∧ digit_to_ascii d false ≤ 57 := by
  unfold digit_to_ascii
  rw [if_pos h]
  omega

theorem parse_ascii_digit_of_range {c : ℕ} (h1 : 48 ≤ c) (h2 : c ≤ 57) :
    parse_ascii_digit c = some (c - 48) ∧ c - 48 < 10 := by
  unfold parse_ascii_digit
  rw [if_pos ⟨h1, h2⟩]
  exact ⟨rfl, by omega⟩

theorem BigUInt.parseLoop_sem (radix : ℕ) :
    ∀ (l : List ℕ), (∀ c ∈ l, ∃ d, parse_ascii_digit c = some d ∧ d < radix) →
      ∀ power res, BigUInt.parseLoop radix l power res =
        some (res + power * BigUInt.lsbVal radix l) := by
  intro l
  induction l with
  | nil =>
    intro _ power res
    simp [BigUInt.parseLoop, BigUInt.lsbVal]
  | cons c rest ih =>
    intro hv power res
    obtain ⟨d, hd, hdr⟩ := hv c (List.mem_cons_self c rest)
    unfold BigUInt.parseLoop
    rw [hd]
    rw [Option.bind_eq_bind]
    simp only [Option.some_bind]
    rw [if_neg (by omega)]
    rw [ih (fun c hc => hv c (List.mem_cons_of_mem _ hc)) (power * radix) (res + d * power)]
    congr 1
    rw [show BigUInt.lsbVal radix (c :: rest) =
        (parse_ascii_digit c).getD 0 + radix * BigUInt.lsbVal radix rest from rfl, hd]
    simp only [Option.getD_some]
    ring

theorem BigUInt.lsbVal_append (radix : ℕ) (l : List ℕ) (c : ℕ) :
    BigUInt.lsbVal radix (l ++ [c]) =
      BigUInt.lsbVal radix l + (parse_ascii_digit c).getD 0 * radix ^ l.length := by
  induction l with
  | nil =>
    show BigUInt.lsbVal radix [c] =
      BigUInt.lsbVal radix [] + (parse_ascii_digit c).getD 0 * radix ^ (0 : ℕ)
    rw [show BigUInt.lsbVal radix [c] =
        (parse_ascii_digit c).getD 0 + radix * BigUInt.lsbVal radix [] from rfl,
      show BigUInt.lsbVal radix [] = 0 from rfl]
    ring
  | cons a rest ih =>
    show BigUInt.lsbVal radix (a :: (rest ++ [c])) = _
    rw [show BigUInt.lsbVal radix (a :: (rest ++ [c])) =
        (parse_ascii_digit a).getD 0 + radix * BigUInt.lsbVal radix (rest ++ [c]) from rfl]
    rw [ih]
    rw [show BigUInt.lsbVal radix (a :: rest) =
        (parse_ascii_digit a).getD 0 + radix * BigUInt.lsbVal radix rest from rfl]
    simp only [List.length_cons]
    ring

theorem BigUInt.lsbVal_reverse (radix : ℕ) (l : List ℕ) :
    BigUInt.lsbVal radix l.reverse = BigUInt.msbVal radix l := by
  induction l with
  | nil => rfl
  | cons c rest ih =>
    rw [List.reverse_cons, BigUInt.lsbVal_append, ih]
    rw [show BigUInt.msbVal radix (c :: rest) =
        (parse_ascii_digit c).getD 0 * radix ^ rest.length + BigUInt.msbVal radix rest from rfl]
    rw [List.length_reverse]
    ring

theorem BigUInt.toStringAux_spec :
    ∀ (fuel n : ℕ), n ≤ fuel →
      BigUInt.lsbVal 10 (BigUInt.toStringAux 10 n fuel) = n ∧
      ∀ c ∈ BigUInt.toStringAux 10 n fuel, 48 ≤ c ∧ c ≤ 57 := by
  intro fuel
  induction fuel with
  | zero =>
    intro n hn
    interval_cases n
    exact ⟨rfl, by simp [BigUInt.toStringAux]⟩
  | succ m ih =>
    intro n hn
    by_cases h0 : n = 0
    · subst h0
      unfold BigUInt.toStringAux
      exact ⟨rfl, by simp⟩
    · unfold BigUInt.toStringAux
      rw [if_neg h0]
      have hd : n % 10 ≤ 9 := by omega
      have hrec := ih (n / 10) (by omega)
      constructor
      · unfold BigUInt.lsbVal
        rw [parse_digit_to_ascii hd]
        simp only [Option.getD_some]
        rw [hrec.1]
        omega
      · intro c hc
        rcases List.mem_cons.mp hc with hc | hc
        · rw [hc]
          exact digit_to_ascii_range hd
        · exact hrec.2 c hc

theorem BigUInt.to_string_radix_range (n : ℕ) :
    ∀ c ∈ BigUInt.to_string_radix n 10, 48 ≤ c ∧ c ≤ 57 := by
  unfold BigUInt.to_string_radix
  by_cases h0 : n = 0
  · rw [if_pos h0]
    intro c hc
    simp only [List.mem_singleton] at hc
    omega
  · rw [if_neg h0]
    intro c hc
    exact (BigUInt.toStringAux_spec n n (le_refl n)).2 c (List.mem_reverse.mp hc)

theorem BigUInt.to_string_radix_ne_nil (n : ℕ) :
    BigUInt.to_string_radix n 10 ≠ [] := by
  unfold BigUInt.to_string_radix
  by_cases h0 : n = 0
  · rw [if_pos h0]
    simp
  · rw [if_neg h0]
    rcases hn : n with _ | m
    · exact absurd hn h0
    · show (BigUInt.toStringAux 10 (m + 1) (m + 1)).reverse ≠ []
      unfold BigUInt.toStringAux
      rw [if_neg (by omega)]
      simp

theorem BigUInt.parse_to_string (n : ℕ) :
    BigUInt.parse_helper (BigUInt.to_string_radix n 10) 10 = some n := by
  unfold BigUInt.parse_helper
  rw [if_neg (BigUInt.to_string_radix_ne_nil n)]
  have hv : ∀ c ∈ (BigUInt.to_string_radix n 10).reverse,
      ∃ d, parse_ascii_digit c = some d ∧ d < 10 := by
    intro c hc
    obtain ⟨h1, h2⟩ := BigUInt.to_string_radix_range n c (List.mem_reverse.mp hc)
    obtain ⟨hd, hlt⟩ := parse_ascii_digit_of_range h1 h2
    exact ⟨c - 48, hd, hlt⟩
  rw [BigUInt.parseLoop_sem 10 _ hv 1 0]
  congr 1
  unfold BigUInt.to_string_radix
  by_cases h0 : n = 0
  · rw [if_pos h0]
    subst h0
    decide
  · rw [if_neg h0]
    rw [List.reverse_reverse]
    rw [(BigUInt.toStringAux_spec n n (le_refl n)).1]
    omega

theorem split_once_of_not_mem {l : List ℕ} {c : ℕ} (h : c ∉ l) :
    split_once l c = none := by
  induction l with
  | nil => rfl
  | cons b rest ih =>
    unfold split_once
    rw [if_neg (by simp at h; omega), ih (by simp at h; tauto)]
    rfl

theorem split_once_append {l1 l2 : List ℕ} {c : ℕ} (h : c ∉ l1) :
    split_once (l1 ++ c :: l2) c = some (l1, l2) := by
  induction l1 with
  | nil =>
    show split_once (c :: l2) c = _
    unfold split_once
    rw [if_pos rfl]
  | cons b rest ih =>
    show split_once (b :: (rest ++ c :: l2)) c = _
    unfold split_once
    rw [if_neg (by simp at h; omega), ih (by simp at h; tauto)]
    rfl

theorem SBigInt.from_ascii_of_render (bneg : Bool) (mag : ℕ) :
    SBigInt.from_ascii_radix ((if bneg then [45] else []) ++ BigUInt.to_string_radix mag 10) 10
      = some (SBigInt.from_sign_and_magnitude bneg mag) := by
  have hne := BigUInt.to_string_radix_ne_nil mag
  obtain ⟨c, rest, hcr⟩ : ∃ c rest, BigUInt.to_string_radix mag 10 = c :: rest := by
    rcases hl : BigUInt.to_string_radix mag 10 with _ | ⟨c, rest⟩
    · exact absurd hl hne
    · exact ⟨c, rest, rfl⟩
  have hcrange := BigUInt.to_string_radix_range mag c (by rw [hcr]; exact List.mem_cons_self c rest)
  have hparse : BigUInt.parse_helper (BigUInt.to_string_radix mag 10) 10 = some mag :=
    BigUInt.parse_to_string mag
  cases bneg
  · simp only [Bool.false_eq_true, if_false, List.nil_append]
    unfold SBigInt.from_ascii_radix
    rw [if_neg hne]
    dsimp only
    rw [hcr]
    simp only [List.head?_cons]
    rw [if_neg (by intro hc; injection hc with hc; omega)]
    simp only
    rw [if_neg (by intro hc; injection hc with hc; omega)]
    rw [← hcr, hparse]
    rfl
  · simp only [if_true]
    unfold SBigInt.from_ascii_radix
    rw [if_neg (by simp)]
    dsimp only
    simp only [List.nil_append, List.cons_append, List.head?_cons, List.tail_cons, reduceIte]
    rw [hcr]
    simp only [List.head?_cons]
    rw [if_neg (by intro hc; injection hc with hc; omega)]
    rw [← hcr, hparse]
    rfl

/-! Semantics of the truncation helpers used by decimal rendering. -/

theorem floor_div_two_pow (a : ℤ) (k : ℕ) : ⌊(a : ℚ) / 2 ^ k⌋ = Int.fdiv a (2 ^ k) := by
  rw [Int.fdiv_eq_ediv _ (by positivity)]
  rw [show ((2 : ℚ) ^ k : ℚ) = (((2 ^ k : ℕ) : ℤ) : ℚ) by push_cast; rfl]
  rw [show ((((2 ^ k : ℕ) : ℤ)) : ℚ) = ((2 ^ k : ℕ) : ℚ) by push_cast; rfl]
  rw [Rat.floor_intCast_div_natCast a (2 ^ k)]
  norm_num

theorem SBigInt.value_ofInt (v : ℤ) : (SBigInt.ofInt v).value = v := by
  unfold SBigInt.ofInt SBigInt.value
  simp only [decide_eq_true_eq]
  by_cases hv : v < 0
  · rw [if_pos hv]
    omega
  · rw [if_neg hv]
    omega

theorem SBigInt.value_shrA (a : SBigInt) (k : ℕ) :
    (a.shrA k).value = Int.fdiv a.value (2 ^ k) :=
  SBigInt.value_ofInt _

theorem SBigInt.value_shl (a : SBigInt) (k : ℕ) :
    (a.shl k).value = a.value * 2 ^ k :=
  SBigInt.value_scale a k

theorem BigFloat.normalize_e_nonneg {m : SBigInt} {e : ℤ} (he : 0 ≤ e) :
    0 ≤ (BigFloat.normalize ⟨m, e⟩).e := by
  unfold BigFloat.normalize
  by_cases h : m.magnitude = 0
  · rw [if_pos h]
  · rw [if_neg h]
    simp only
    omega

theorem BigFloat.val_int_of_e_nonneg {x : BigFloat} (he : 0 ≤ x.e) :
    x.val = ((x.m.value * 2 ^ x.e.toNat : ℤ) : ℚ) := by
  calc x.val = (x.m.value : ℚ) * 2 ^ x.e := rfl
    _ = (x.m.value : ℚ) * 2 ^ (x.e.toNat : ℤ) := by rw [Int.toNat_of_nonneg he]
    _ = ((x.m.value * 2 ^ x.e.toNat : ℤ) : ℚ) := by
        push_cast [zpow_natCast]
        ring

theorem BigFloat.floor0_spec (x : BigFloat) (hx : x.Inv) :
    (x.floor_to_precision 0).val = (⌊x.val⌋ : ℤ) ∧
      0 ≤ (x.floor_to_precision 0).e ∧ (x.floor_to_precision 0).Inv := by
  unfold BigFloat.floor_to_precision
  by_cases hz : x.is_zero = true
  · rw [if_pos hz]
    have h0 : x.val = 0 := BigFloat.val_of_is_zero hz
    have he : x.e = 0 := hx.1 ((BigFloat.is_zero_iff x).mp hz)
    refine ⟨?_, by omega, hx⟩
    rw [h0]
    norm_num
  · rw [if_neg hz]
    by_cases he : -(0 : ℤ) ≤ x.e
    · rw [if_pos he]
      have hle : (0 : ℤ) ≤ x.e := by omega
      refine ⟨?_, hle, hx⟩
      rw [BigFloat.val_int_of_e_nonneg hle, Int.floor_intCast]
    · rw [if_neg he]
      have he' : x.e < 0 := by omega
      refine ⟨?_, BigFloat.normalize_e_nonneg (by omega), BigFloat.Inv_normalize _⟩
      rw [BigFloat.val_normalize]
      show ((x.m.shrA (-(0 : ℤ) - x.e).toNat).value : ℚ) * 2 ^ (-(0 : ℤ)) = _
      rw [SBigInt.value_shrA]
      have hfl : ⌊x.val⌋ = Int.fdiv x.m.value (2 ^ (-(0 : ℤ) - x.e).toNat) := by
        have hxv : x.val = (x.m.value : ℚ) / 2 ^ (-(0 : ℤ) - x.e).toNat := by
          calc x.val = (x.m.value : ℚ) * 2 ^ x.e := rfl
            _ = (x.m.value : ℚ) / 2 ^ (-(0 : ℤ) - x.e).toNat := by
                rw [div_eq_mul_inv, ← zpow_natCast (2 : ℚ) (-(0 : ℤ) - x.e).toNat,
                  ← zpow_neg]
                congr 2
                omega
        rw [hxv, floor_div_two_pow]
      rw [hfl]
      norm_num

theorem BigFloat.val_not_int {x : BigFloat} (hx : x.Inv) (hmag : x.m.magnitude ≠ 0)
    (he : x.e < 0) : ((⌊x.val⌋ : ℚ)) ≠ x.val := by
  intro hc
  set k := (-x.e).toNat with hk
  have hkpos : 1 ≤ k := by omega
  have hxv : x.val * 2 ^ k = (x.m.value : ℚ) := by
    calc x.val * 2 ^ k = (x.m.value : ℚ) * (2 ^ x.e * 2 ^ (k : ℤ)) := by
          rw [← zpow_natCast (2 : ℚ) k]
          show (x.m.value : ℚ) * 2 ^ x.e * 2 ^ (k : ℤ) = _
          ring
      _ = (x.m.value : ℚ) * 2 ^ (x.e + k) := by rw [← two_zpow_add]
      _ = (x.m.value : ℚ) := by
          rw [show x.e + (k : ℤ) = 0 from by omega]
          norm_num
  have hint : ((⌊x.val⌋ * 2 ^ k : ℤ) : ℚ) = (x.m.value : ℚ) := by
    push_cast
    rw [hc]
    exact hxv
  have hZ : ⌊x.val⌋ * 2 ^ k = x.m.value := by exact_mod_cast hint
  have hodd := hx.2 hmag
  have heven : x.m.value % 2 = 0 := by
    rcases Nat.exists_eq_add_of_le hkpos with ⟨t, ht⟩
    rw [← hZ, ht]
    have h2t : (2 : ℤ) ^ (1 + t) = 2 * 2 ^ t := by rw [pow_add]; ring
    rw [h2t]
    have hre : ⌊x.val⌋ * (2 * 2 ^ t) = 2 * (⌊x.val⌋ * 2 ^ t) := by ring
    rw [hre]
    omega
  have hvm : x.m.value % 2 = (x.m.magnitude : ℤ) % 2 := by
    unfold SBigInt.value
    by_cases hb : x.m.is_negative = true
    · rw [if_pos hb]
      omega
    · rw [if_neg hb]
  omega

theorem BigFloat.ceil0_spec (x : BigFloat) (hx : x.Inv) :
    (x.ceil_to_precision 0).val = (⌈x.val⌉ : ℤ) ∧
      0 ≤ (x.ceil_to_precision 0).e ∧ (x.ceil_to_precision 0).Inv := by
  unfold BigFloat.ceil_to_precision
  by_cases hz : x.is_zero = true
  · rw [if_pos hz]
    have h0 : x.val = 0 := BigFloat.val_of_is_zero hz
    have he : x.e = 0 := hx.1 ((BigFloat.is_zero_iff x).mp hz)
    refine ⟨?_, by omega, hx⟩
    rw [h0]
    norm_num
  · rw [if_neg hz]
    by_cases he : -(0 : ℤ) ≤ x.e
    · rw [if_pos he]
      have hle : (0 : ℤ) ≤ x.e := by omega
      refine ⟨?_, hle, hx⟩
      rw [BigFloat.val_int_of_e_nonneg hle, Int.ceil_intCast]
    · rw [if_neg he]
      have he' : x.e < 0 := by omega
      have hmag : x.m.magnitude ≠ 0 := BigFloat.mag_ne_of_not_is_zero hz
      refine ⟨?_, BigFloat.normalize_e_nonneg (by omega), BigFloat.Inv_normalize _⟩
      rw [BigFloat.val_normalize]
      show (((x.m.shrA (-(0 : ℤ) - x.e).toNat).add SBigInt.ONE).value : ℚ) *
        2 ^ (-(0 : ℤ)) = _
      rw [SBigInt.value_add, SBigInt.value_shrA]
      have hone : SBigInt.ONE.value = 1 := rfl
      have hfl : ⌊x.val⌋ = Int.fdiv x.m.value (2 ^ (-(0 : ℤ) - x.e).toNat) := by
        have hxv : x.val = (x.m.value : ℚ) / 2 ^ (-(0 : ℤ) - x.e).toNat := by
          calc x.val = (x.m.value : ℚ) * 2 ^ x.e := rfl
            _ = (x.m.value : ℚ) / 2 ^ (-(0 : ℤ) - x.e).toNat := by
                rw [div_eq_mul_inv, ← zpow_natCast (2 : ℚ) (-(0 : ℤ) - x.e).toNat,
                  ← zpow_neg]
                congr 2
                omega
        rw [hxv, floor_div_two_pow]
      have hceil : ⌈x.val⌉ = ⌊x.val⌋ + 1 := by
        have hne := BigFloat.val_not_int hx hmag he'
        have h1 : ⌊x.val⌋ < ⌈x.val⌉ := by
          have hlt : (⌊x.val⌋ : ℚ) < x.val := lt_of_le_of_ne (Int.floor_le x.val) hne
          have : (⌊x.val⌋ : ℚ) < (⌈x.val⌉ : ℚ) := lt_of_lt_of_le hlt (Int.le_ceil x.val)
          exact_mod_cast this
        have h2 := Int.ceil_le_floor_add_one x.val
        omega
      rw [hone, hceil, hfl]
      push_cast
      ring

theorem BigFloat.trunc_spec (x : BigFloat) (hx : x.Inv) :
    (x.trunc).val = ((if x.is_negative = true then ⌈x.val⌉ else ⌊x.val⌋ : ℤ) : ℚ) ∧
      0 ≤ (x.trunc).e ∧ (x.trunc).Inv := by
  unfold BigFloat.trunc
  by_cases hb : x.is_negative = true
  · rw [if_pos hb, if_pos hb]
    exact BigFloat.ceil0_spec x hx
  · rw [if_neg hb, if_neg hb]
    exact BigFloat.floor0_spec x hx

theorem BigFloat.abs_val_eq (z : BigFloat) : (BigFloat.abs z).val = |z.val| := by
  rw [BigFloat.abs_val z]
  rcases z with ⟨⟨b, mag⟩, e⟩
  rw [show BigFloat.abs ⟨⟨b, mag⟩, e⟩ = BigFloat.mk ⟨false, mag⟩ e from rfl,
    BigFloat.val_mk]
  norm_num

theorem BigFloat.negF_inv {x : BigFloat} (hx : x.Inv) : (BigFloat.negF x).Inv := by
  unfold BigFloat.negF SBigInt.neg
  by_cases h : x.m.magnitude = 0
  · rw [if_pos h]
    exact hx
  · rw [if_neg h]
    exact ⟨fun hc => hx.1 hc, fun hc => hx.2 hc⟩

theorem BigFloat.abs_inv {x : BigFloat} (hx : x.Inv) : (BigFloat.abs x).Inv :=
  ⟨fun hc => hx.1 hc, fun hc => hx.2 hc⟩

theorem BigFloat.subF_inv {a b : BigFloat} (ha : a.Inv) (hb : b.Inv) :
    (BigFloat.subF a b).Inv := by
  unfold BigFloat.subF
  by_cases hza : a.is_zero = true
  · rw [if_pos hza]
    exact BigFloat.negF_inv hb
  · rw [if_neg hza]
    by_cases hzb : b.is_zero = true
    · rw [if_pos hzb]
      exact ha
    · rw [if_neg hzb]
      by_cases he : b.e ≤ a.e
      · rw [if_pos he]
        exact BigFloat.Inv_normalize _
      · rw [if_neg he]
        exact BigFloat.Inv_normalize _

theorem BigFloat.addF_inv {a b : BigFloat} (ha : a.Inv) (hb : b.Inv) :
    (BigFloat.addF a b).Inv := by
  unfold BigFloat.addF
  by_cases hza : a.is_zero = true
  · rw [if_pos hza]
    exact hb
  · rw [if_neg hza]
    by_cases hzb : b.is_zero = true
    · rw [if_pos hzb]
      exact ha
    · rw [if_neg hzb]
      by_cases he : b.e ≤ a.e
      · rw [if_pos he]
        exact BigFloat.Inv_normalize _
      · rw [if_neg he]
        exact BigFloat.Inv_normalize _

theorem BigFloat.trunc_fract_spec (x : BigFloat) (hx : x.Inv) :
    ((x.trunc_fract.1.value : ℚ)) = (x.trunc).val ∧
      x.trunc_fract.2.val = |x.val - (x.trunc).val| ∧ (x.trunc_fract.2).Inv := by
  obtain ⟨hval, he, hinv⟩ := BigFloat.trunc_spec x hx
  refine ⟨?_, ?_, ?_⟩
  · show (((x.trunc).m.shl (x.trunc).e.toNat).value : ℚ) = _
    rw [SBigInt.value_shl, BigFloat.val_int_of_e_nonneg he]
  · show ((BigFloat.subF x x.trunc).abs).val = _
    rw [BigFloat.abs_val_eq, BigFloat.val_subF_abs]
  · exact BigFloat.abs_inv (BigFloat.subF_inv hx hinv)

theorem BigFloat.trunc_close (x : BigFloat) (hx : x.Inv) :
    |x.val - (x.trunc).val| < 1 ∧
      x.val = (x.trunc).val +
        (if x.is_negative = true then (-1 : ℚ) else 1) * |x.val - (x.trunc).val| := by
  obtain ⟨hval, _, _⟩ := BigFloat.trunc_spec x hx
  by_cases hb : x.is_negative = true
  · rw [hb] at hval ⊢
    simp only [if_true] at hval ⊢
    have h1 : x.val ≤ (⌈x.val⌉ : ℚ) := Int.le_ceil x.val
    have h2 : (⌈x.val⌉ : ℚ) < x.val + 1 := Int.ceil_lt_add_one x.val
    rw [hval]
    rw [abs_sub_comm, abs_of_nonneg (by linarith)]
    constructor
    · linarith
    · ring
  · rw [if_neg hb] at hval ⊢
    have h1 : (⌊x.val⌋ : ℚ) ≤ x.val := Int.floor_le x.val
    have h2 : x.val < (⌊x.val⌋ : ℚ) + 1 := Int.lt_floor_add_one x.val
    rw [hval]
    rw [abs_of_nonneg (by linarith)]
    constructor
    · linarith
    · ring

/-! The digit loop of decimal rendering computes the exact value of
the fractional part. -/

theorem SBigInt.value_of_flag_false {a : SBigInt} (h : a.is_negative = false) :
    a.value = (a.magnitude : ℤ) := by
  unfold SBigInt.value
  rw [h]
  simp

theorem BigFloat.normalize_flag (x : BigFloat) :
    (BigFloat.normalize x).m.is_negative = x.m.is_negative := by
  unfold BigFloat.normalize
  by_cases h : x.m.magnitude = 0
  · rw [if_pos h]
  · rw [if_neg h]

theorem BigFloat.mulF_inv (a b : BigFloat) : (BigFloat.mulF a b).Inv :=
  BigFloat.Inv_normalize _

theorem BigFloat.mulF_flag_false {a b : BigFloat} (ha : a.m.is_negative = false)
    (hb : b.m.is_negative = false) : (BigFloat.mulF a b).m.is_negative = false := by
  unfold BigFloat.mulF BigFloat.from_mantissa_exponent
  rw [BigFloat.normalize_flag]
  show (a.m.mul b.m).is_negative = false
  unfold SBigInt.mul
  by_cases h : a.m.magnitude = 0 ∨ b.m.magnitude = 0
  · rw [if_pos h]
    rfl
  · rw [if_neg h]
    show xor a.m.is_negative b.m.is_negative = false
    rw [ha, hb]
    rfl

theorem SBigInt.shrA_flag_false {a : SBigInt} (ha : a.is_negative = false) (k : ℕ) :
    (a.shrA k).is_negative = false := by
  unfold SBigInt.shrA SBigInt.ofInt
  have hval : 0 ≤ a.value := by
    rw [SBigInt.value_of_flag_false ha]
    positivity
  have hf : 0 ≤ Int.fdiv a.value (2 ^ k) := Int.fdiv_nonneg hval (by positivity)
  show (decide (Int.fdiv a.value (2 ^ k) < 0)) = false
  simp only [decide_eq_false_iff_not, not_lt]
  exact hf

theorem BigFloat.trunc_flag_false {x : BigFloat} (hx : x.m.is_negative = false) :
    ((x.trunc).m).is_negative = false := by
  unfold BigFloat.trunc
  rw [show BigFloat.is_negative x = x.m.is_negative from rfl, hx]
  rw [if_neg (by simp)]
  unfold BigFloat.floor_to_precision
  by_cases hz : x.is_zero = true
  · rw [if_pos hz]
    exact hx
  · rw [if_neg hz]
    by_cases he : -(0 : ℤ) ≤ x.e
    · rw [if_pos he]
      exact hx
    · rw [if_neg he]
      rw [BigFloat.normalize_flag]
      exact SBigInt.shrA_flag_false hx _

theorem BigFloat.val_ofNat (n : ℕ) : (BigFloat.ofNat n).val = (n : ℚ) := by
  unfold BigFloat.ofNat
  rw [BigFloat.val_ofInt]
  norm_num

theorem BigFloat.fract_digits_spec :
    ∀ (fuel : ℕ) (F : BigFloat) (ds : List ℕ),
      F.Inv → F.m.is_negative = false → F.val < 1 →
      BigFloat.fract_digits (BigFloat.ofNat 10) F fuel = some ds →
      (∀ c ∈ ds, 48 ≤ c ∧ c ≤ 57) ∧
      (BigUInt.msbVal 10 ds : ℚ) = F.val * 10 ^ ds.length ∧
      (F.m.magnitude ≠ 0 → ds ≠ []) := by
  intro fuel
  induction fuel with
  | zero =>
    intro F ds _ _ _ h
    exact absurd h (by simp [BigFloat.fract_digits])
  | succ n ih =>
    intro F ds hInv hflag hlt1 h
    rw [BigFloat.fract_digits] at h
    by_cases hz : F.is_zero = true
    · rw [if_pos hz] at h
      have hds : ds = [] := (Option.some.inj h).symm
      subst hds
      refine ⟨by simp, ?_, ?_⟩
      · rw [BigFloat.val_of_is_zero hz]
        show ((0 : ℕ) : ℚ) = 0 * 10 ^ 0
        norm_num
      · intro hmag
        exact absurd ((BigFloat.is_zero_iff F).mp hz) hmag
    · rw [if_neg hz] at h
      set G := BigFloat.mulF F (BigFloat.ofNat 10) with hGdef
      have hGval : G.val = F.val * 10 := by
        rw [hGdef, BigFloat.val_mulF, BigFloat.val_ofNat]
        norm_num
      have hGflag : G.m.is_negative = false :=
        BigFloat.mulF_flag_false hflag (by decide)
      have hGinv : G.Inv := BigFloat.mulF_inv _ _
      have hF0 : 0 ≤ F.val := BigFloat.val_nonneg_of_flag hflag
      have hG0 : 0 ≤ G.val := by rw [hGval]; positivity
      have hG10 : G.val < 10 := by rw [hGval]; linarith
      obtain ⟨hw, hFr, hFrInv⟩ := BigFloat.trunc_fract_spec G hGinv
      obtain ⟨hc1, _⟩ := BigFloat.trunc_close G hGinv
      obtain ⟨htval, _, _⟩ := BigFloat.trunc_spec G hGinv
      have htfloor : (G.trunc).val = ((⌊G.val⌋ : ℤ) : ℚ) := by
        rw [htval, show BigFloat.is_negative G = G.m.is_negative from rfl, hGflag]
        norm_num
      have hwflag : (BigFloat.trunc_fract G).1.is_negative = false := by
        show ((G.trunc).m.shl (G.trunc).e.toNat).is_negative = false
        exact BigFloat.trunc_flag_false hGflag
      have hwval : ((BigFloat.trunc_fract G).1.value : ℚ) = ((⌊G.val⌋ : ℤ) : ℚ) := by
        rw [hw, htfloor]
      have hwvalZ : (BigFloat.trunc_fract G).1.value = ⌊G.val⌋ := by exact_mod_cast hwval
      have hfl0 : 0 ≤ ⌊G.val⌋ := Int.floor_nonneg.mpr hG0
      have hfl9 : ⌊G.val⌋ ≤ 9 := by
        have : ⌊G.val⌋ < 10 := by
          have := Int.floor_le G.val
          have h10 : (⌊G.val⌋ : ℚ) < 10 := lt_of_le_of_lt this hG10
          exact_mod_cast h10
        omega
      have hwmag : ((BigFloat.trunc_fract G).1.magnitude : ℤ) = ⌊G.val⌋ := by
        rw [← hwvalZ, SBigInt.value_of_flag_false hwflag]
      have hwmag9 : (BigFloat.trunc_fract G).1.magnitude ≤ 9 := by omega
      rw [if_neg (by
        rw [hwflag]
        simp only [Bool.false_eq_true, false_or, not_lt]
        omega)] at h
      rcases hrec : BigFloat.fract_digits (BigFloat.ofNat 10) (BigFloat.trunc_fract G).2 n
        with _ | ds'
      · rw [hrec] at h
        exact absurd h (by simp)
      · rw [hrec] at h
        simp only [Option.map_some'] at h
        have hds : ds = digit_to_ascii (BigFloat.trunc_fract G).1.magnitude false :: ds' :=
          (Option.some.inj h).symm
        have hFrflag : (BigFloat.trunc_fract G).2.m.is_negative = false := rfl
        have hFrval : (BigFloat.trunc_fract G).2.val = G.val - ((⌊G.val⌋ : ℤ) : ℚ) := by
          rw [hFr, htfloor]
          rw [abs_of_nonneg (by
            have := Int.floor_le G.val
            linarith)]
        have hFrlt1 : (BigFloat.trunc_fract G).2.val < 1 := by
          rw [hFrval]
          have := Int.lt_floor_add_one G.val
          linarith
        obtain ⟨ihr, ihv, _⟩ := ih (BigFloat.trunc_fract G).2 ds' hFrInv hFrflag hFrlt1 hrec
        have hdig9 : (BigFloat.trunc_fract G).1.magnitude ≤ 9 := hwmag9
        refine ⟨?_, ?_, ?_⟩
        · intro c hc
          rw [hds] at hc
          rcases List.mem_cons.mp hc with hc | hc
          · rw [hc]
            exact digit_to_ascii_range hdig9
          · exact ihr c hc
        · rw [hds]
          rw [show BigUInt.msbVal 10
              (digit_to_ascii (BigFloat.trunc_fract G).1.magnitude false :: ds') =
              (parse_ascii_digit
                (digit_to_ascii (BigFloat.trunc_fract G).1.magnitude false)).getD 0 *
                10 ^ ds'.length + BigUInt.msbVal 10 ds' from rfl]
          rw [parse_digit_to_ascii hdig9]
          simp only [Option.getD_some, List.length_cons]
          push_cast
          rw [ihv, hFrval]
          have hGF : G.val = F.val * 10 := hGval
          have hmagQ : (((BigFloat.trunc_fract G).1.magnitude : ℕ) : ℚ) =
              ((⌊G.val⌋ : ℤ) : ℚ) := by exact_mod_cast hwmag
          rw [hmagQ]
          rw [pow_succ]
          linear_combination ((10 : ℚ) ^ ds'.length) * hGF
        · intro _
          rw [hds]
          simp

/-! Accuracy of `BigFloat::div`, conversion lemmas, and uniqueness of
the normalized representation. -/

theorem BigFloat.divF_err (a b : BigFloat) (P : ℤ) (f : ℕ) (q : BigFloat)
    (hb0 : 0 ≤ b.ilog2) (hblog : b.ilog2 ≤ P + a.ilog2 - 1)
    (h : BigFloat.divF a b P f = some q) :
    |q.val - a.val * (b.val)⁻¹| ≤ 2 ^ (-P - 1) := by
  unfold BigFloat.divF at h
  rcases Option.map_eq_some'.mp h with ⟨r, hr, hq⟩
  have hrec := BigFloat.reciprocal_err b (P + a.ilog2 + 1) f r hb0 (by omega) hr
  have hmul := BigFloat.val_mul_with_precision a r (P + 1)
  have habs : |a.val| < 2 ^ (a.ilog2 + 1) := BigFloat.abs_val_lt_ilog2 a
  have h1 : |a.val * r.val - a.val * (b.val)⁻¹| ≤ 2 ^ (-P - 2) := by
    rw [show a.val * r.val - a.val * (b.val)⁻¹ = a.val * (r.val - (b.val)⁻¹) from by ring,
      abs_mul]
    calc |a.val| * |r.val - (b.val)⁻¹|
        ≤ 2 ^ (a.ilog2 + 1) * 2 ^ (-(P + a.ilog2 + 1) - 2) := by
          apply mul_le_mul (le_of_lt habs) hrec (abs_nonneg _) (by positivity)
      _ = 2 ^ (-P - 2) := by
          rw [← two_zpow_add]
          congr 1
          ring
  rw [← hq]
  calc |(BigFloat.mul_with_precision a r (P + 1)).val - a.val * (b.val)⁻¹|
      ≤ |(BigFloat.mul_with_precision a r (P + 1)).val - a.val * r.val|
        + |a.val * r.val - a.val * (b.val)⁻¹| := by
        have hrw : (BigFloat.mul_with_precision a r (P + 1)).val - a.val * (b.val)⁻¹ =
            ((BigFloat.mul_with_precision a r (P + 1)).val - a.val * r.val)
              + (a.val * r.val - a.val * (b.val)⁻¹) := by
          ring
        rw [hrw]
        exact abs_add _ _
    _ ≤ 2 ^ (-(P + 1) - 1) + 2 ^ (-P - 2) := add_le_add hmul h1
    _ = 2 ^ (-P - 1) := by
        rw [show (-(P + 1) - 1 : ℤ) = -P - 2 from by ring,
          show (-P - 2 : ℤ) = (-P - 1) + (-1) from by ring, two_zpow_add,
          show ((2 : ℚ) ^ (-1 : ℤ)) = 1 / 2 from by norm_num]
        ring

theorem BigFloat.val_add_with_precision (a b : BigFloat) (P : ℤ) :
    |(BigFloat.add_with_precision a b P).val - (a.val + b.val)| ≤ 2 ^ (-P - 1) := by
  unfold BigFloat.add_with_precision
  have h := BigFloat.round_to_precision_err (BigFloat.addF a b) P
  rwa [BigFloat.val_addF] at h

theorem BigFloat.add_with_precision_inv {a b : BigFloat} (ha : a.Inv) (hb : b.Inv)
    (P : ℤ) : (BigFloat.add_with_precision a b P).Inv :=
  BigFloat.round_to_precision_inv P (BigFloat.addF_inv ha hb)

theorem BigFloat.mul_with_precision_inv (a b : BigFloat) (P : ℤ) :
    (BigFloat.mul_with_precision a b P).Inv :=
  BigFloat.round_to_precision_inv P (BigFloat.mulF_inv a b)

theorem BigFloat.divF_inv {a b : BigFloat} {P : ℤ} {f : ℕ} {q : BigFloat}
    (h : BigFloat.divF a b P f = some q) : q.Inv := by
  unfold BigFloat.divF at h
  rcases Option.map_eq_some'.mp h with ⟨r, _, hq⟩
  rw [← hq]
  exact BigFloat.mul_with_precision_inv a r (P + 1)

theorem BigFloat.normalize_mag_ne {x : BigFloat} (h : x.m.magnitude ≠ 0) :
    (BigFloat.normalize x).m.magnitude ≠ 0 := by
  unfold BigFloat.normalize
  rw [if_neg h]
  obtain ⟨_, hodd⟩ := trailingZeros_spec x.m.magnitude h
  intro hc
  rw [show (BigFloat.mk ⟨x.m.is_negative, x.m.magnitude / 2 ^ trailingZeros x.m.magnitude⟩
    (x.e + trailingZeros x.m.magnitude)).m.magnitude =
    x.m.magnitude / 2 ^ trailingZeros x.m.magnitude from rfl] at hc
  rw [hc] at hodd
  simp at hodd

theorem BigFloat.val_ofSBigInt (m : SBigInt) :
    (BigFloat.ofSBigInt m).val = (m.value : ℚ) := by
  unfold BigFloat.ofSBigInt
  by_cases h : m.magnitude = 0
  · rw [if_pos h, SBigInt.value_of_mag_zero h]
    rw [show BigFloat.ZERO = BigFloat.mk ⟨false, 0⟩ 0 from rfl, BigFloat.val_mk]
    simp
  · rw [if_neg h, BigFloat.val_normalize]
    show (m.value : ℚ) * 2 ^ (0 : ℤ) = _
    simp

theorem BigFloat.ofSBigInt_inv (m : SBigInt) : (BigFloat.ofSBigInt m).Inv := by
  unfold BigFloat.ofSBigInt
  by_cases h : m.magnitude = 0
  · rw [if_pos h]
    exact ⟨fun _ => rfl, fun hc => absurd rfl hc⟩
  · rw [if_neg h]
    exact BigFloat.Inv_normalize _

theorem BigFloat.ofSBigInt_wf (m : SBigInt) : (BigFloat.ofSBigInt m).m.Wf := by
  unfold BigFloat.ofSBigInt
  by_cases h : m.magnitude = 0
  · rw [if_pos h]
    exact fun _ => rfl
  · rw [if_neg h]
    exact fun hc => absurd hc (BigFloat.normalize_mag_ne h)

theorem BigFloat.val_set_sign (x : BigFloat) (b : Bool) :
    (x.set_sign b).val = (if b then (-1 : ℚ) else 1) * |x.val| := by
  unfold BigFloat.set_sign SBigInt.set_sign
  by_cases h : x.m.magnitude = 0
  · rw [if_pos h]
    have hx0 : x.val = 0 := (BigFloat.val_eq_zero_iff x).mpr h
    show (BigFloat.mk ⟨false, x.m.magnitude⟩ x.e).val = _
    rw [BigFloat.val_mk, h, hx0]
    simp
  · rw [if_neg h]
    show (BigFloat.mk ⟨b, x.m.magnitude⟩ x.e).val = _
    rw [BigFloat.val_mk, BigFloat.abs_val, mul_assoc]

theorem BigFloat.ilog2_set_sign (x : BigFloat) (b : Bool) :
    (x.set_sign b).ilog2 = x.ilog2 := by
  unfold BigFloat.set_sign SBigInt.set_sign BigFloat.ilog2
  by_cases h : x.m.magnitude = 0 <;> simp [h]

theorem BigFloat.set_sign_inv {x : BigFloat} (hx : x.Inv) (b : Bool) :
    (x.set_sign b).Inv := by
  unfold BigFloat.set_sign SBigInt.set_sign
  by_cases h : x.m.magnitude = 0
  · rw [if_pos h]
    exact ⟨fun hc => hx.1 hc, fun hc => hx.2 hc⟩
  · rw [if_neg h]
    exact ⟨fun hc => hx.1 hc, fun hc => hx.2 hc⟩

theorem BigFloat.val_mul_two_pow_int (x : BigFloat) (p : ℤ) (h : -p ≤ x.e) :
    ∃ n : ℤ, x.val * 2 ^ p = (n : ℚ) := by
  refine ⟨x.m.value * 2 ^ (x.e + p).toNat, ?_⟩
  calc x.val * 2 ^ p = (x.m.value : ℚ) * (2 ^ x.e * 2 ^ p) := by
        show (x.m.value : ℚ) * 2 ^ x.e * 2 ^ p = _
        ring
    _ = (x.m.value : ℚ) * 2 ^ (x.e + p) := by rw [two_zpow_add]
    _ = (x.m.value : ℚ) * 2 ^ ((x.e + p).toNat : ℤ) := by
        rw [Int.toNat_of_nonneg (by omega)]
    _ = ((x.m.value * 2 ^ (x.e + p).toNat : ℤ) : ℚ) := by
        push_cast [zpow_natCast]
        ring

theorem BigFloat.val_pos_of_flag_false {x : BigFloat} (hf : x.m.is_negative = false)
    (hm : x.m.magnitude ≠ 0) : 0 < x.val := by
  have h0 := BigFloat.val_nonneg_of_flag hf
  have hne : x.val ≠ 0 := fun hc => hm ((BigFloat.val_eq_zero_iff x).mp hc)
  exact lt_of_le_of_ne h0 (Ne.symm hne)

theorem BigFloat.val_neg_of_flag_true {x : BigFloat} (hf : x.m.is_negative = true)
    (hm : x.m.magnitude ≠ 0) : x.val < 0 := by
  rcases x with ⟨⟨b, mag⟩, e⟩
  simp only at hf hm
  subst hf
  rw [BigFloat.val_mk]
  simp only [if_true]
  have h1 : (0 : ℚ) < mag := by exact_mod_cast Nat.pos_of_ne_zero hm
  have h2 : (0 : ℚ) < 2 ^ e := by positivity
  nlinarith

theorem BigFloat.val_inv_unique {x y : BigFloat} (hx : x.Inv) (hy : y.Inv)
    (hne : x.val ≠ 0) (h : x.val = y.val) : x = y := by
  have hmx : x.m.magnitude ≠ 0 := fun hc => hne ((BigFloat.val_eq_zero_iff x).mpr hc)
  have hmy : y.m.magnitude ≠ 0 := by
    intro hc
    rw [h] at hne
    exact hne ((BigFloat.val_eq_zero_iff y).mpr hc)
  have hflag : x.m.is_negative = y.m.is_negative := by
    cases hfx : x.m.is_negative <;> cases hfy : y.m.is_negative
    · rfl
    · exfalso
      have h1 := BigFloat.val_pos_of_flag_false hfx hmx
      have h2 := BigFloat.val_neg_of_flag_true hfy hmy
      rw [h] at h1
      linarith
    · exfalso
      have h1 := BigFloat.val_neg_of_flag_true hfx hmx
      have h2 := BigFloat.val_pos_of_flag_false hfy hmy
      rw [h] at h1
      linarith
    · rfl
  have habs : (x.m.magnitude : ℚ) * 2 ^ x.e = (y.m.magnitude : ℚ) * 2 ^ y.e := by
    rw [← BigFloat.abs_val, ← BigFloat.abs_val, h]
  have hoddx := hx.2 hmx
  have hoddy := hy.2 hmy
  have hmageq : x.m.magnitude = y.m.magnitude ∧ x.e = y.e := by
    rcases le_total x.e y.e with hle | hle
    · have hd : (y.m.magnitude : ℚ) * 2 ^ ((y.e - x.e).toNat : ℕ) = (x.m.magnitude : ℚ) := by
        have h2 : (2 : ℚ) ^ y.e = 2 ^ x.e * 2 ^ ((y.e - x.e).toNat : ℕ) := by
          rw [← zpow_natCast (2 : ℚ), ← two_zpow_add]
          congr 1
          omega
        have hp : (2 : ℚ) ^ x.e ≠ 0 := by positivity
        rw [h2] at habs
        have habs2 : (x.m.magnitude : ℚ) * 2 ^ x.e =
            ((y.m.magnitude : ℚ) * 2 ^ ((y.e - x.e).toNat : ℕ)) * 2 ^ x.e := by
          rw [habs]
          ring
        have hcancel := mul_right_cancel₀ hp habs2
        linarith [hcancel]
      have hdN : y.m.magnitude * 2 ^ (y.e - x.e).toNat = x.m.magnitude := by
        exact_mod_cast hd
      rcases hdt : (y.e - x.e).toNat with _ | t
      · have hee : x.e = y.e := by omega
        rw [hdt] at hdN
        simp at hdN
        exact ⟨hdN.symm, hee⟩
      · exfalso
        rw [hdt] at hdN
        have : x.m.magnitude = 2 * (y.m.magnitude * 2 ^ t) := by
          rw [← hdN, pow_succ]
          ring
        omega
    · have hd : (x.m.magnitude : ℚ) * 2 ^ ((x.e - y.e).toNat : ℕ) = (y.m.magnitude : ℚ) := by
        have h2 : (2 : ℚ) ^ x.e = 2 ^ y.e * 2 ^ ((x.e - y.e).toNat : ℕ) := by
          rw [← zpow_natCast (2 : ℚ), ← two_zpow_add]
          congr 1
          omega
        have hp : (2 : ℚ) ^ y.e ≠ 0 := by positivity
        rw [h2] at habs
        have habs2 : ((x.m.magnitude : ℚ) * 2 ^ ((x.e - y.e).toNat : ℕ)) * 2 ^ y.e =
            (y.m.magnitude : ℚ) * 2 ^ y.e := by
          rw [← habs]
          ring
        have hcancel := mul_right_cancel₀ hp habs2
        linarith [hcancel]
      have hdN : x.m.magnitude * 2 ^ (x.e - y.e).toNat = y.m.magnitude := by
        exact_mod_cast hd
      rcases hdt : (x.e - y.e).toNat with _ | t
      · have hee : x.e = y.e := by omega
        rw [hdt] at hdN
        simp at hdN
        exact ⟨hdN, hee⟩
      · exfalso
        rw [hdt] at hdN
        have : y.m.magnitude = 2 * (x.m.magnitude * 2 ^ t) := by
          rw [← hdN, pow_succ]
          ring
        omega
  rcases x with ⟨⟨fx, mx⟩, ex⟩
  rcases y with ⟨⟨fy, my⟩, ey⟩
  simp only at hflag hmageq
  rw [hflag, hmageq.1, hmageq.2]

/-- The half-up rounding of the mantissa computed by
`round_to_precision` equals adding half a unit and flooring. -/
theorem round_half_up_div (mag s : ℕ) (hs : s ≠ 0) :
    (if mag / 2 ^ (s - 1) % 2 = 1 then mag / 2 ^ s + 1 else mag / 2 ^ s) =
      (mag + 2 ^ (s - 1)) / 2 ^ s := by
  obtain ⟨t, rfl⟩ : ∃ t, s = t + 1 := ⟨s - 1, by omega⟩
  simp only [Nat.add_sub_cancel]
  have hH0 : 0 < 2 ^ t := Nat.pos_pow_of_pos t (by omega)
  set q := mag / 2 ^ (t + 1) with hq
  set r := mag % 2 ^ (t + 1) with hr
  have hqr : 2 ^ (t + 1) * q + r = mag := Nat.div_add_mod _ _
  have hr2 : r < 2 ^ (t + 1) := Nat.mod_lt _ (by positivity)
  have hdiv : mag / 2 ^ t = 2 * q + r / 2 ^ t := by
    conv_lhs => rw [← hqr]
    have hrw : 2 ^ (t + 1) * q + r = 2 ^ t * (2 * q) + r := by ring
    rw [hrw, Nat.mul_add_div hH0]
  have hpow : 2 ^ (t + 1) = 2 * 2 ^ t := by rw [pow_succ]; ring
  rcases Nat.lt_or_ge r (2 ^ t) with hlt | hge
  · have hbit : mag / 2 ^ t % 2 = 0 := by
      rw [hdiv, Nat.div_eq_of_lt hlt]
      omega
    rw [if_neg (by omega)]
    symm
    apply Nat.div_eq_of_lt_le
    · set P := 2 ^ (t + 1) * q with hP
      have h1 : P ≤ mag := by omega
      calc q * 2 ^ (t + 1) = P := by rw [hP]; ring
        _ ≤ mag + 2 ^ t := by omega
    · set P := 2 ^ (t + 1) * q with hP
      have hexp : (q + 1) * 2 ^ (t + 1) = P + 2 ^ (t + 1) := by rw [hP]; ring
      rw [hexp]
      omega
  · have hrt : r / 2 ^ t = 1 :=
      Nat.div_eq_of_lt_le (by omega) (by rw [pow_succ] at hr2; omega)
    have hbit : mag / 2 ^ t % 2 = 1 := by
      rw [hdiv, hrt]
      omega
    rw [if_pos hbit]
    symm
    apply Nat.div_eq_of_lt_le
    · set P := 2 ^ (t + 1) * q with hP
      have hexp : (q + 1) * 2 ^ (t + 1) = P + 2 ^ (t + 1) := by rw [hP]; ring
      rw [hexp]
      omega
    · set P := 2 ^ (t + 1) * q with hP
      have hexp : (q + 1 + 1) * 2 ^ (t + 1) = P + 2 ^ (t + 1) + 2 ^ (t + 1) := by
        rw [hP]
        ring
      rw [hexp]
      omega

/-- If a value `v` lies strictly within half an ulp of a normalized
non-zero BigFloat `b` whose exponent is at least `-p`, then rounding
`v` to precision `p` returns exactly `b`: the grid of representable
values at precision `p` has spacing `2^(-p)` and rounding picks the
unique nearest grid point. -/
theorem BigFloat.round_to_precision_recovers {v b : BigFloat} {p : ℤ}
    (hv : v.Inv) (hb : b.Inv) (hbm : b.m.magnitude ≠ 0)
    (hbe : -p ≤ b.e) (hclose : |v.val - b.val| < 2 ^ (-p - 1)) :
    BigFloat.round_to_precision v p = b := by
  have hbne : b.val ≠ 0 := fun hc => hbm ((BigFloat.val_eq_zero_iff b).mp hc)
  have hbabs : (2 : ℚ) ^ (-p) ≤ |b.val| := by
    calc (2 : ℚ) ^ (-p) ≤ 2 ^ b.e := two_zpow_le hbe
      _ ≤ |b.val| := by
        rw [BigFloat.abs_val]
        have h1 : (1 : ℚ) ≤ (b.m.magnitude : ℚ) := by
          exact_mod_cast Nat.one_le_iff_ne_zero.mpr hbm
        have h2 : (0 : ℚ) < 2 ^ b.e := by positivity
        nlinarith
  have hhalf : (2 : ℚ) ^ (-p - 1) < 2 ^ (-p) := by
    apply zpow_lt_zpow_right₀ (by norm_num)
    omega
  unfold BigFloat.round_to_precision
  by_cases hz : v.is_zero = true
  · exfalso
    have hv0 : v.val = 0 := BigFloat.val_of_is_zero hz
    rw [hv0, zero_sub, abs_neg] at hclose
    linarith
  · rw [if_neg hz]
    have hvmag : v.m.magnitude ≠ 0 := BigFloat.mag_ne_of_not_is_zero hz
    have hvne : v.val ≠ 0 := fun hc => hvmag ((BigFloat.val_eq_zero_iff v).mp hc)
    by_cases he : -p ≤ v.e
    · rw [if_pos he]
      obtain ⟨nv, hnv⟩ := BigFloat.val_mul_two_pow_int v p he
      obtain ⟨nb, hnb⟩ := BigFloat.val_mul_two_pow_int b p hbe
      have hdiff : ((nv - nb : ℤ) : ℚ) = (v.val - b.val) * 2 ^ p := by
        push_cast
        rw [← hnv, ← hnb]
        ring
      have hsmall : |((nv - nb : ℤ) : ℚ)| < 1 / 2 := by
        rw [hdiff, abs_mul, abs_of_pos (show (0 : ℚ) < 2 ^ p from by positivity)]
        calc |v.val - b.val| * 2 ^ p < 2 ^ (-p - 1) * 2 ^ p := by
              apply mul_lt_mul_of_pos_right hclose (by positivity)
          _ = 1 / 2 := by
              rw [← two_zpow_add, show -p - 1 + p = (-1 : ℤ) from by ring,
                zpow_neg, zpow_one]
              norm_num
      have hz2 : nv = nb := by
        by_contra hne2
        have h1 : (1 : ℤ) ≤ |nv - nb| := Int.one_le_abs (sub_ne_zero.mpr hne2)
        have h2 : (1 : ℚ) ≤ |((nv - nb : ℤ) : ℚ)| := by
          rw [← Int.cast_abs]
          exact_mod_cast h1
        linarith
      have hvb : v.val = b.val := by
        have h2 : v.val * 2 ^ p = b.val * 2 ^ p := by rw [hnv, hnb, hz2]
        have hp0 : (2 : ℚ) ^ p ≠ 0 := by positivity
        exact mul_right_cancel₀ hp0 h2
      exact BigFloat.val_inv_unique hv hb hvne hvb
    · rw [if_neg he]
      set sh := (-p - v.e).toNat with hshdef
      have hsh0 : sh ≠ 0 := by omega
      have hshZ : (sh : ℤ) = -p - v.e := by omega
      have hbe2 : (0 : ℤ) ≤ b.e + p := by omega
      set Nb := b.m.magnitude * 2 ^ (b.e + p).toNat with hNbdef
      have hNbval : |b.val| * 2 ^ p = (Nb : ℚ) := by
        rw [BigFloat.abs_val, hNbdef]
        push_cast
        rw [← zpow_natCast (2 : ℚ) ((b.e + p).toNat), Int.toNat_of_nonneg hbe2]
        rw [mul_assoc, ← two_zpow_add]
      have hsign : v.m.is_negative = b.m.is_negative := by
        by_contra hne2
        have hcontr : (2 : ℚ) ^ (-p) ≤ |v.val - b.val| := by
          cases hfv : v.m.is_negative <;> cases hfb : b.m.is_negative
          · rw [hfv, hfb] at hne2
            exact absurd rfl hne2
          · have h1 := BigFloat.val_pos_of_flag_false hfv hvmag
            have h2 := BigFloat.val_neg_of_flag_true hfb hbm
            rw [abs_of_pos (by linarith)]
            have : |b.val| = -b.val := abs_of_neg h2
            linarith
          · have h1 := BigFloat.val_neg_of_flag_true hfv hvmag
            have h2 := BigFloat.val_pos_of_flag_false hfb hbm
            rw [abs_of_neg (by linarith), neg_sub]
            have : |b.val| = b.val := abs_of_pos h2
            linarith
          · rw [hfv, hfb] at hne2
            exact absurd rfl hne2
        linarith
      have hvabs : |v.val| * 2 ^ p = (v.m.magnitude : ℚ) / 2 ^ sh := by
        rw [BigFloat.abs_val]
        rw [show (v.m.magnitude : ℚ) * 2 ^ v.e * 2 ^ p =
          (v.m.magnitude : ℚ) * (2 ^ v.e * 2 ^ p) from by ring, ← two_zpow_add]
        rw [div_eq_mul_inv, ← zpow_natCast (2 : ℚ) sh, ← zpow_neg]
        rw [show -(sh : ℤ) = v.e + p from by omega]
      have hdist : |(v.m.magnitude : ℚ) / 2 ^ sh - (Nb : ℚ)| < 1 / 2 := by
        rw [← hvabs, ← hNbval]
        rw [show |v.val| * 2 ^ p - |b.val| * 2 ^ p = (|v.val| - |b.val|) * 2 ^ p from by
          ring]
        rw [abs_mul, abs_of_pos (show (0 : ℚ) < 2 ^ p from by positivity)]
        calc |(|v.val| - |b.val|)| * 2 ^ p ≤ |v.val - b.val| * 2 ^ p := by
              apply mul_le_mul_of_nonneg_right (abs_abs_sub_abs_le_abs_sub _ _)
                (by positivity)
          _ < 2 ^ (-p - 1) * 2 ^ p := by
              apply mul_lt_mul_of_pos_right hclose (by positivity)
          _ = 1 / 2 := by
              rw [← two_zpow_add, show -p - 1 + p = (-1 : ℤ) from by ring,
                zpow_neg, zpow_one]
              norm_num
      have hdistZ : |(v.m.magnitude : ℤ) - (Nb : ℤ) * 2 ^ sh| < 2 ^ (sh - 1) := by
        have h2sh : (0 : ℚ) < 2 ^ sh := by positivity
        have h1 : |(v.m.magnitude : ℚ) - (Nb : ℚ) * 2 ^ sh| < 2 ^ sh / 2 := by
          have hmul := mul_lt_mul_of_pos_right hdist h2sh
          have heq : |(v.m.magnitude : ℚ) / 2 ^ sh - (Nb : ℚ)| * 2 ^ sh =
              |(v.m.magnitude : ℚ) - (Nb : ℚ) * 2 ^ sh| := by
            rw [← abs_of_pos h2sh, ← abs_mul]
            congr 1
            field_simp
            ring
          rw [heq] at hmul
          linarith
        have h2 : ((2 ^ (sh - 1) : ℤ) : ℚ) = 2 ^ sh / 2 := by
          push_cast
          rw [show sh = (sh - 1) + 1 from by omega, pow_succ]
          have hre : ((2 : ℚ) ^ (sh - 1) * 2) / 2 = 2 ^ (sh - 1) := by ring
          rw [show (sh - 1) + 1 - 1 = sh - 1 from by omega, hre]
        have h3 : |((v.m.magnitude : ℤ) - (Nb : ℤ) * 2 ^ sh : ℤ)| < (2 ^ (sh - 1) : ℤ) := by
          have hcast : ((|(v.m.magnitude : ℤ) - (Nb : ℤ) * 2 ^ sh| : ℤ) : ℚ) <
              ((2 ^ (sh - 1) : ℤ) : ℚ) := by
            rw [h2]
            push_cast
            exact h1
          exact_mod_cast hcast
        exact h3
      have hmgNb : (if v.m.magnitude / 2 ^ (sh - 1) % 2 = 1 then
          v.m.magnitude / 2 ^ sh + 1 else v.m.magnitude / 2 ^ sh) = Nb := by
        rw [round_half_up_div _ _ hsh0]
        have hpow2Z : (2 : ℤ) ^ sh = 2 ^ (sh - 1) * 2 := by
          rw [show sh = (sh - 1) + 1 from by omega, pow_succ,
            show (sh - 1) + 1 - 1 = sh - 1 from by omega]
        have hd2 := abs_lt.mp hdistZ
        apply Nat.div_eq_of_lt_le
        · have hZ : (Nb : ℤ) * 2 ^ sh ≤ (v.m.magnitude : ℤ) + 2 ^ (sh - 1) := by
            linarith [hd2.1]
          exact_mod_cast hZ
        · have hexp : ((Nb : ℤ) + 1) * 2 ^ sh = (Nb : ℤ) * 2 ^ sh + 2 ^ (sh - 1) * 2 := by
            rw [← hpow2Z]
            ring
          have hZ : (v.m.magnitude : ℤ) + 2 ^ (sh - 1) < ((Nb : ℤ) + 1) * 2 ^ sh := by
            rw [hexp]
            linarith [hd2.2]
          exact_mod_cast hZ
      dsimp only
      rw [hmgNb]
      have hyval : (BigFloat.normalize ⟨⟨v.m.is_negative, Nb⟩, -p⟩).val = b.val := by
        rw [BigFloat.val_normalize, BigFloat.val_mk, hsign]
        have hNb2 : (Nb : ℚ) * 2 ^ (-p) = (b.m.magnitude : ℚ) * 2 ^ b.e := by
          rw [hNbdef]
          push_cast
          rw [← zpow_natCast (2 : ℚ) ((b.e + p).toNat), Int.toNat_of_nonneg hbe2]
          rw [mul_assoc, ← two_zpow_add]
          congr 1
          ring
        rcases b with ⟨⟨fb, mb⟩, eb⟩
        rw [BigFloat.val_mk]
        simp only at hNb2 ⊢
        rw [mul_assoc, hNb2, mul_assoc]
      exact BigFloat.val_inv_unique (BigFloat.Inv_normalize _) hb
        (by rw [hyval]; exact hbne) hyval

/-- A normalized non-zero BigFloat whose value times `10^L` is an
integer has exponent at least `-L` (two-adic valuation via the odd
mantissa). -/
theorem BigFloat.e_ge_of_den (b : BigFloat) (hb : b.Inv) (hmag : b.m.magnitude ≠ 0)
    (L : ℕ) (z : ℤ) (h : b.val * 10 ^ L = (z : ℚ)) : -(L : ℤ) ≤ b.e := by
  by_contra hlt
  push_neg at hlt
  set t := (-(L : ℤ) - b.e).toNat with ht
  have ht1 : 1 ≤ t := by omega
  have hkey : ((z * 2 ^ t : ℤ) : ℚ) = ((b.m.value * 5 ^ L : ℤ) : ℚ) := by
    push_cast
    rw [← h]
    show b.val * 10 ^ L * 2 ^ (t : ℕ) = (b.m.value : ℚ) * 5 ^ L
    rw [show b.val = (b.m.value : ℚ) * 2 ^ b.e from rfl]
    rw [show ((10 : ℚ)) ^ L = 2 ^ L * 5 ^ L from by rw [← mul_pow]; norm_num]
    rw [← zpow_natCast (2 : ℚ) L, ← zpow_natCast (2 : ℚ) t]
    rw [show (b.m.value : ℚ) * 2 ^ b.e * (2 ^ (L : ℤ) * 5 ^ L) * 2 ^ (t : ℤ) =
      (b.m.value : ℚ) * 5 ^ L * (2 ^ b.e * 2 ^ (L : ℤ) * 2 ^ (t : ℤ)) from by ring]
    rw [← two_zpow_add, ← two_zpow_add]
    rw [show b.e + (L : ℤ) + (t : ℤ) = 0 from by omega]
    norm_num
  have hZeq : z * 2 ^ t = b.m.value * 5 ^ L := by exact_mod_cast hkey
  have hoddm : b.m.magnitude % 2 = 1 := hb.2 hmag
  have hoddv : b.m.value % 2 = 1 := by
    unfold SBigInt.value
    by_cases hf : b.m.is_negative = true
    · rw [if_pos hf]
      omega
    · rw [if_neg hf]
      omega
  have hodd5 : (5 : ℤ) ^ L % 2 = 1 :=
    Int.odd_iff.mp (Odd.pow ⟨2, by norm_num⟩)
  have hoddprod : (b.m.value * 5 ^ L) % 2 = 1 := by
    have h1 : Odd (b.m.value) := Int.odd_iff.mpr hoddv
    have h2 : Odd ((5 : ℤ) ^ L) := Int.odd_iff.mpr hodd5
    exact Int.odd_iff.mp (h1.mul h2)
  have heven : (z * 2 ^ t) % 2 = 0 := by
    obtain ⟨u, hu⟩ : ∃ u, t = 1 + u := ⟨t - 1, by omega⟩
    rw [hu, pow_add]
    have : z * (2 ^ 1 * 2 ^ u) = 2 * (z * 2 ^ u) := by ring
    rw [this]
    omega
  omega

/-- The square-and-multiply loop of `BigUInt::pow` computes
`res * base ^ power` when given at least `power` fuel. -/
theorem BigUInt.powAux_spec :
    ∀ (fuel power base res : ℕ), power ≤ fuel →
      BigUInt.powAux fuel power base res = res * base ^ power := by
  intro fuel
  induction fuel with
  | zero =>
    intro power base res hle
    have h0 : power = 0 := by omega
    subst h0
    show res = res * base ^ 0
    simp
  | succ f ih =>
    intro power base res hle
    rw [show BigUInt.powAux (f + 1) power base res =
      (if power = 0 then res
       else BigUInt.powAux f (power / 2) (base * base)
         (if power % 2 = 1 then res * base else res)) from rfl]
    by_cases h0 : power = 0
    · rw [if_pos h0, h0]
      simp
    · rw [if_neg h0]
      rw [ih (power / 2) (base * base) _ (by omega)]
      have hsplit : base ^ power = base ^ (power % 2) * (base * base) ^ (power / 2) := by
        rw [show base * base = base ^ 2 from by ring, ← pow_mul,
          ← pow_add]
        congr 1
        omega
      by_cases h2 : power % 2 = 1
      · rw [if_pos h2, hsplit, h2]
        ring
      · rw [if_neg h2, hsplit, show power % 2 = 0 from by omega]
        ring

/-- `BigUInt::pow` computes the mathematical power. -/
theorem BigUInt.pow_spec (base power : ℕ) :
    BigUInt.pow base power = base ^ power :=
  (BigUInt.powAux_spec power power base 1 le_rfl).trans (one_mul _)

/-- Parsing a non-empty list of decimal ASCII digits yields its
most-significant-first value. -/
theorem BigUInt.from_ascii_digits (ds : List ℕ) (hne : ds ≠ [])
    (hr : ∀ c ∈ ds, 48 ≤ c ∧ c ≤ 57) :
    BigUInt.from_ascii_radix ds 10 = some (BigUInt.msbVal 10 ds) := by
  obtain ⟨c, rest, rfl⟩ : ∃ c rest, ds = c :: rest := by
    rcases ds with _ | ⟨c, rest⟩
    · exact absurd rfl hne
    · exact ⟨c, rest, rfl⟩
  obtain ⟨hc1, hc2⟩ := hr c (List.mem_cons_self c rest)
  unfold BigUInt.from_ascii_radix
  rw [if_neg (by simp)]
  rw [if_neg (by simp only [List.head?]; intro hc; rw [Option.some.injEq] at hc; omega)]
  rw [if_neg (by simp only [List.head?]; intro hc; rw [Option.some.injEq] at hc; omega)]
  unfold BigUInt.parse_helper
  rw [if_neg (by simp)]
  have hv : ∀ b ∈ (c :: rest).reverse, ∃ d, parse_ascii_digit b = some d ∧ d < 10 := by
    intro b hb
    obtain ⟨h1, h2⟩ := hr b (List.mem_reverse.mp hb)
    obtain ⟨hd, hlt⟩ := parse_ascii_digit_of_range h1 h2
    exact ⟨b - 48, hd, hlt⟩
  rw [BigUInt.parseLoop_sem 10 _ hv 1 0, BigUInt.lsbVal_reverse]
  congr 1
  omega

/-- An upper bound on `ilog2N` from a strict power-of-two bound. -/
theorem ilog2N_le_of_lt {n k : ℕ} (hn : n ≠ 0) (h : n < 2 ^ (k + 1)) :
    ilog2N n ≤ k := by
  have h1 : 2 ^ ilog2N n ≤ n := ilog2N_le hn
  have h2 : 2 ^ ilog2N n < 2 ^ (k + 1) := lt_of_le_of_lt h1 h
  have := (Nat.pow_lt_pow_iff_right (by norm_num : 1 < 2)).mp h2
  omega

/-- The floor log2 of `10^L` is below `4·L + 1`. -/
theorem ilog2N_ten_pow (L : ℕ) : ilog2N (10 ^ L) ≤ 4 * L := by
  apply ilog2N_le_of_lt (by positivity)
  calc (10 : ℕ) ^ L ≤ 16 ^ L := Nat.pow_le_pow_left (by norm_num) L
    _ = 2 ^ (4 * L) := by
        rw [show (16 : ℕ) = 2 ^ 4 from rfl, ← pow_mul]
    _ < 2 ^ (4 * L + 1) := Nat.pow_lt_pow_right (by norm_num) (by omega)

/-- A normalized BigFloat with a well-formed mantissa is determined
by its rational value, zero included. -/
theorem BigFloat.val_inv_wf_unique {x y : BigFloat} (hx : x.Inv) (hy : y.Inv)
    (hxw : x.m.Wf) (hyw : y.m.Wf) (h : x.val = y.val) : x = y := by
  by_cases h0 : x.val = 0
  · have hmx : x.m.magnitude = 0 := (BigFloat.val_eq_zero_iff x).mp h0
    have hmy : y.m.magnitude = 0 := (BigFloat.val_eq_zero_iff y).mp (by rw [← h]; exact h0)
    have hfx : x.m.is_negative = false := hxw hmx
    have hfy : y.m.is_negative = false := hyw hmy
    have hex : x.e = 0 := hx.1 hmx
    have hey : y.e = 0 := hy.1 hmy
    rcases x with ⟨⟨bx, mx⟩, ex⟩
    rcases y with ⟨⟨by2, my⟩, ey⟩
    simp only at hmx hmy hfx hfy hex hey
    subst hmx hmy hfx hfy hex hey
    rfl
  · exact BigFloat.val_inv_unique hx hy h0 h

/-- Combining the dividend's sign flag with the magnitude of the
truncated integer part recovers the integer part's exact value. -/
theorem BigFloat.from_sign_trunc_value (x : BigFloat) (hx : x.Inv) (hwf : x.m.Wf) :
    ((SBigInt.from_sign_and_magnitude x.m.is_negative
      (x.trunc_fract.1).magnitude).value : ℚ) = (x.trunc).val := by
  have h1 := (BigFloat.trunc_fract_spec x hx).1
  rw [← h1]
  have hW : x.trunc_fract.1 = (x.trunc).m.shl (x.trunc).e.toNat := rfl
  have hWflag : (x.trunc_fract.1).is_negative = (x.trunc).m.is_negative := by
    rw [hW]
    rfl
  have hWmag : (x.trunc_fract.1).magnitude =
      (x.trunc).m.magnitude * 2 ^ (x.trunc).e.toNat := by
    rw [hW]
    rfl
  by_cases hm0 : (x.trunc_fract.1).magnitude = 0
  · unfold SBigInt.from_sign_and_magnitude
    rw [if_pos hm0]
    rcases hWe : x.trunc_fract.1 with ⟨bW, mW⟩
    rw [hWe] at hm0
    simp only at hm0
    subst hm0
    unfold SBigInt.value
    cases bW <;> simp
  · unfold SBigInt.from_sign_and_magnitude
    rw [if_neg hm0]
    have hflag : x.m.is_negative = (x.trunc_fract.1).is_negative := by
      rw [hWflag]
      cases hfx : x.m.is_negative
      · exact (BigFloat.trunc_flag_false hfx).symm
      · have htm : (x.trunc).m.magnitude ≠ 0 := by
          rw [hWmag] at hm0
          intro hc
          rw [hc] at hm0
          simp at hm0
        have hxm : x.m.magnitude ≠ 0 := by
          intro hc
          have hfx2 := hwf hc
          rw [hfx] at hfx2
          exact Bool.true_eq_false.mp hfx2
        have hxneg : x.val < 0 := BigFloat.val_neg_of_flag_true hfx hxm
        have htv := (BigFloat.trunc_spec x hx).1
        rw [show BigFloat.is_negative x = x.m.is_negative from rfl, hfx] at htv
        simp only [if_pos rfl] at htv
        by_contra hft
        have hff : (x.trunc).m.is_negative = false := by
          cases hft2 : (x.trunc).m.is_negative
          · rfl
          · rw [hft2] at hft
            exact absurd rfl hft
        have hpos := BigFloat.val_pos_of_flag_false hff htm
        have hle : (x.trunc).val ≤ 0 := by
          rw [htv]
          have : ⌈x.val⌉ ≤ (0 : ℤ) := Int.ceil_le.mpr (by exact_mod_cast le_of_lt hxneg)
          exact_mod_cast this
        linarith
    rw [hflag]

/-- Parsing the rendered string of a BigFloat whose fractional part
is zero returns the BigFloat itself, at any requested precision. -/
theorem BigFloat.roundtrip_int_case (x : BigFloat) (hx : x.Inv) (hwf : x.m.Wf)
    (prec : ℤ) (fuel : ℕ) (hFz : (x.trunc_fract.2).is_zero = true) :
    BigFloat.from_ascii_radix_with_precision
      ((if x.m.is_negative = true then [45] else []) ++
        BigUInt.to_string_radix (x.trunc_fract.1).magnitude 10) 10 prec fuel
      = some x := by
  have h46 : (46 : ℕ) ∉ (if x.m.is_negative = true then [45] else ([] : List ℕ)) ++
      BigUInt.to_string_radix (x.trunc_fract.1).magnitude 10 := by
    intro hmem
    rcases List.mem_append.mp hmem with hs | hw
    · by_cases hf : x.m.is_negative = true
      · rw [if_pos hf] at hs
        simp at hs
      · rw [if_neg hf] at hs
        simp at hs
    · have := BigUInt.to_string_radix_range (x.trunc_fract.1).magnitude 46 hw
      omega
  have hsplit : split_once ((if x.m.is_negative = true then [45] else ([] : List ℕ)) ++
      BigUInt.to_string_radix (x.trunc_fract.1).magnitude 10) 46 = none :=
    split_once_of_not_mem h46
  have hparse1 := SBigInt.from_ascii_of_render x.m.is_negative (x.trunc_fract.1).magnitude
  unfold BigFloat.from_ascii_radix_with_precision
  rw [hsplit]
  simp only [Option.getD_none]
  rw [hparse1, show BigUInt.from_ascii_radix [48] 10 = some 0 from by decide]
  simp only [Option.bind_eq_bind, Option.some_bind]
  rw [if_pos trivial]
  show some (BigFloat.ofSBigInt
    (SBigInt.from_sign_and_magnitude x.m.is_negative (x.trunc_fract.1).magnitude)) = some x
  congr 1
  apply BigFloat.val_inv_wf_unique (BigFloat.ofSBigInt_inv _) hx (BigFloat.ofSBigInt_wf _) hwf
  rw [BigFloat.val_ofSBigInt, BigFloat.from_sign_trunc_value x hx hwf]
  have hF0 : (x.trunc_fract.2).val = 0 := BigFloat.val_of_is_zero hFz
  have hFabs := (BigFloat.trunc_fract_spec x hx).2.1
  rw [hF0] at hFabs
  have := abs_eq_zero.mp hFabs.symm
  linarith [this]

/-- Parsing the rendered string of a BigFloat with a non-zero
terminating fractional expansion returns the BigFloat itself, for any
parse precision at least four times the digit count. -/
theorem BigFloat.roundtrip_fract_case (x : BigFloat) (hx : x.Inv) (hwf : x.m.Wf)
    (fuel fuel2 : ℕ) (ds : List ℕ) (prec : ℤ) (y : BigFloat)
    (hFz : (x.trunc_fract.2).is_zero ≠ true)
    (hds : BigFloat.fract_digits (BigFloat.ofNat 10) (x.trunc_fract.2) fuel = some ds)
    (hprec : 4 * (ds.length : ℤ) ≤ prec)
    (h2 : BigFloat.from_ascii_radix_with_precision
      ((if x.m.is_negative = true then [45] else []) ++
        BigUInt.to_string_radix (x.trunc_fract.1).magnitude 10 ++ 46 :: ds) 10
      prec fuel2 = some y) :
    y = x := by
  have hFinv : (x.trunc_fract.2).Inv := (BigFloat.trunc_fract_spec x hx).2.2
  have hFflag : (x.trunc_fract.2).m.is_negative = false := rfl
  have hFval := (BigFloat.trunc_fract_spec x hx).2.1
  have hFlt1 : (x.trunc_fract.2).val < 1 := by
    rw [hFval]
    exact (BigFloat.trunc_close x hx).1
  have hFmag : (x.trunc_fract.2).m.magnitude ≠ 0 := BigFloat.mag_ne_of_not_is_zero hFz
  obtain ⟨hdsr, hdsval, hdsne'⟩ :=
    BigFloat.fract_digits_spec fuel _ ds hFinv hFflag hFlt1 hds
  have hdsne : ds ≠ [] := hdsne' hFmag
  have hFpos : 0 < (x.trunc_fract.2).val := BigFloat.val_pos_of_flag_false hFflag hFmag
  have hmsb0 : BigUInt.msbVal 10 ds ≠ 0 := by
    intro hc
    rw [hc] at hdsval
    have hpos : (0 : ℚ) < (x.trunc_fract.2).val * 10 ^ ds.length :=
      mul_pos hFpos (by positivity)
    rw [← hdsval] at hpos
    simp at hpos
  have h46 : (46 : ℕ) ∉ (if x.m.is_negative = true then [45] else ([] : List ℕ)) ++
      BigUInt.to_string_radix (x.trunc_fract.1).magnitude 10 := by
    intro hmem
    rcases List.mem_append.mp hmem with hs | hw
    · by_cases hf : x.m.is_negative = true
      · rw [if_pos hf] at hs
        simp at hs
      · rw [if_neg hf] at hs
        simp at hs
    · have := BigUInt.to_string_radix_range (x.trunc_fract.1).magnitude 46 hw
      omega
  have hsplit : split_once ((if x.m.is_negative = true then [45] else ([] : List ℕ)) ++
      BigUInt.to_string_radix (x.trunc_fract.1).magnitude 10 ++ 46 :: ds) 46 =
      some ((if x.m.is_negative = true then [45] else ([] : List ℕ)) ++
        BigUInt.to_string_radix (x.trunc_fract.1).magnitude 10, ds) :=
    split_once_append h46
  have hparse1 := SBigInt.from_ascii_of_render x.m.is_negative (x.trunc_fract.1).magnitude
  unfold BigFloat.from_ascii_radix_with_precision at h2
  rw [hsplit] at h2
  simp only [Option.getD_some] at h2
  rw [hparse1, BigUInt.from_ascii_digits ds hdsne hdsr] at h2
  simp only [Option.bind_eq_bind, Option.some_bind] at h2
  rw [if_neg hmsb0] at h2
  have hneg : (decide (((if x.m.is_negative = true then [45] else ([] : List ℕ)) ++
      BigUInt.to_string_radix (x.trunc_fract.1).magnitude 10).head? = some 45))
      = x.m.is_negative := by
    cases hf : x.m.is_negative
    · rw [if_neg (by simp)]
      rw [List.nil_append]
      have hne := BigUInt.to_string_radix_ne_nil (x.trunc_fract.1).magnitude
      obtain ⟨c, rest, hcr⟩ : ∃ c rest,
          BigUInt.to_string_radix (x.trunc_fract.1).magnitude 10 = c :: rest := by
        rcases hl : BigUInt.to_string_radix (x.trunc_fract.1).magnitude 10 with _ | ⟨c, rest⟩
        · exact absurd hl hne
        · exact ⟨c, rest, rfl⟩
      have hcrange := BigUInt.to_string_radix_range (x.trunc_fract.1).magnitude c
        (by rw [hcr]; exact List.mem_cons_self c rest)
      rw [hcr]
      simp only [List.head?_cons, decide_eq_false_iff_not]
      intro hcq
      rw [Option.some.injEq] at hcq
      omega
    · rw [if_pos rfl]
      show decide ((45 :: BigUInt.to_string_radix (x.trunc_fract.1).magnitude 10).head?
        = some 45) = true
      simp
  rw [hneg] at h2
  rcases hq : BigFloat.divF
      ((BigFloat.ofNat (BigUInt.msbVal 10 ds)).set_sign x.m.is_negative)
      (BigFloat.ofNat (BigUInt.pow 10 ds.length)) (prec + 16) fuel2 with _ | q
  · rw [hq] at h2
    exact absurd h2 (by simp)
  · rw [hq] at h2
    simp only [Option.some_bind] at h2
    have hy : (((BigFloat.ofSBigInt (SBigInt.from_sign_and_magnitude x.m.is_negative
        (x.trunc_fract.1).magnitude)).add_with_precision q (prec + 16)).round_to_precision
        prec) = y := Option.some.inj h2
    have hWval : (BigFloat.ofSBigInt (SBigInt.from_sign_and_magnitude x.m.is_negative
        (x.trunc_fract.1).magnitude)).val = (x.trunc).val := by
      rw [BigFloat.val_ofSBigInt, BigFloat.from_sign_trunc_value x hx hwf]
    have hpow : BigUInt.pow 10 ds.length = 10 ^ ds.length := BigUInt.pow_spec 10 ds.length
    have hdfacts := BigFloat.ofInt_k_facts (k := ((10 ^ ds.length : ℕ) : ℤ))
      (by exact_mod_cast Nat.one_le_pow ds.length 10 (by norm_num))
    have hffacts := BigFloat.ofInt_k_facts (k := ((BigUInt.msbVal 10 ds : ℕ) : ℤ))
      (by exact_mod_cast Nat.one_le_iff_ne_zero.mpr hmsb0)
    have hdilog : (BigFloat.ofNat (BigUInt.pow 10 ds.length)).ilog2 =
        (ilog2N (10 ^ ds.length) : ℤ) := by
      show (BigFloat.ofInt ((BigUInt.pow 10 ds.length : ℕ) : ℤ)).ilog2 = _
      rw [hpow, hdfacts.2.2]
      congr 1
    have hdval : (BigFloat.ofNat (BigUInt.pow 10 ds.length)).val = (10 : ℚ) ^ ds.length := by
      rw [BigFloat.val_ofNat, hpow]
      push_cast
      ring
    have hfval : ((BigFloat.ofNat (BigUInt.msbVal 10 ds)).set_sign x.m.is_negative).val
        = (if x.m.is_negative = true then (-1 : ℚ) else 1) * (BigUInt.msbVal 10 ds : ℚ) := by
      rw [BigFloat.val_set_sign, BigFloat.val_ofNat,
        abs_of_nonneg (Nat.cast_nonneg _)]
    have hfilog0 : 0 ≤ ((BigFloat.ofNat (BigUInt.msbVal 10 ds)).set_sign
        x.m.is_negative).ilog2 := by
      rw [BigFloat.ilog2_set_sign]
      show 0 ≤ (BigFloat.ofInt ((BigUInt.msbVal 10 ds : ℕ) : ℤ)).ilog2
      rw [hffacts.2.2]
      exact_mod_cast Nat.zero_le _
    have hL4 : (ilog2N (10 ^ ds.length) : ℤ) ≤ 4 * (ds.length : ℤ) := by
      exact_mod_cast ilog2N_ten_pow ds.length
    have herr := BigFloat.divF_err
      ((BigFloat.ofNat (BigUInt.msbVal 10 ds)).set_sign x.m.is_negative)
      (BigFloat.ofNat (BigUInt.pow 10 ds.length)) (prec + 16) fuel2 q
      (by rw [hdilog]; exact_mod_cast Nat.zero_le _)
      (by rw [hdilog]; omega) hq
    have h10 : ((10 : ℚ) ^ ds.length) ≠ 0 := by positivity
    have hratio : ((BigFloat.ofNat (BigUInt.msbVal 10 ds)).set_sign x.m.is_negative).val
        * ((BigFloat.ofNat (BigUInt.pow 10 ds.length)).val)⁻¹
        = (if x.m.is_negative = true then (-1 : ℚ) else 1) * (x.trunc_fract.2).val := by
      rw [hfval, hdval, hdsval, mul_assoc, mul_inv_cancel_right₀ h10]
    rw [hratio] at herr
    have hisneg : BigFloat.is_negative x = x.m.is_negative := rfl
    have hdecomp := (BigFloat.trunc_close x hx).2
    rw [hisneg, ← hFval] at hdecomp
    have hxvalne : x.val ≠ 0 := by
      intro hc
      have htv := (BigFloat.trunc_spec x hx).1
      rw [hc] at htv
      simp only [Int.ceil_zero, Int.floor_zero, if_pos, if_neg, ite_self, Int.cast_zero] at htv
      rw [hFval, hc, htv] at hFpos
      simp at hFpos
    have hxmag : x.m.magnitude ≠ 0 := fun hc => hxvalne ((BigFloat.val_eq_zero_iff x).mpr hc)
    have htv := (BigFloat.trunc_spec x hx).1
    rw [hisneg] at htv
    have hz : x.val * 10 ^ ds.length =
        (((if x.m.is_negative = true then ⌈x.val⌉ else ⌊x.val⌋) * 10 ^ ds.length +
          (if x.m.is_negative = true then -(BigUInt.msbVal 10 ds : ℤ)
            else (BigUInt.msbVal 10 ds : ℤ)) : ℤ) : ℚ) := by
      push_cast
      cases hf : x.m.is_negative
      · rw [hf] at hdecomp htv
        simp only [Bool.false_eq_true, if_false] at hdecomp htv ⊢
        rw [hdsval, ← htv, hdecomp]
        ring
      · rw [hf] at hdecomp htv
        simp only [if_pos] at hdecomp htv ⊢
        rw [hdsval, ← htv, hdecomp]
        ring
    have hebound := BigFloat.e_ge_of_den x hx hxmag ds.length _ hz
    have hprecE : -prec ≤ x.e := by omega
    have hadd := BigFloat.val_add_with_precision
      (BigFloat.ofSBigInt (SBigInt.from_sign_and_magnitude x.m.is_negative
        (x.trunc_fract.1).magnitude)) q (prec + 16)
    have hclose : |((BigFloat.ofSBigInt (SBigInt.from_sign_and_magnitude x.m.is_negative
        (x.trunc_fract.1).magnitude)).add_with_precision q (prec + 16)).val - x.val|
        < 2 ^ (-prec - 1) := by
      have hstep : |((BigFloat.ofSBigInt (SBigInt.from_sign_and_magnitude x.m.is_negative
          (x.trunc_fract.1).magnitude)).add_with_precision q (prec + 16)).val - x.val|
          ≤ 2 ^ (-(prec + 16) - 1) + 2 ^ (-(prec + 16) - 1) := by
        have htri : |((BigFloat.ofSBigInt (SBigInt.from_sign_and_magnitude x.m.is_negative
            (x.trunc_fract.1).magnitude)).add_with_precision q (prec + 16)).val - x.val|
            ≤ |((BigFloat.ofSBigInt (SBigInt.from_sign_and_magnitude x.m.is_negative
              (x.trunc_fract.1).magnitude)).add_with_precision q (prec + 16)).val
              - ((BigFloat.ofSBigInt (SBigInt.from_sign_and_magnitude x.m.is_negative
                (x.trunc_fract.1).magnitude)).val + q.val)|
            + |q.val - (if x.m.is_negative = true then (-1 : ℚ) else 1)
              * (x.trunc_fract.2).val| := by
          have hxw : x.val = (BigFloat.ofSBigInt (SBigInt.from_sign_and_magnitude
              x.m.is_negative (x.trunc_fract.1).magnitude)).val
              + (if x.m.is_negative = true then (-1 : ℚ) else 1)
                * (x.trunc_fract.2).val := by
            rw [hWval, hdecomp]
          rw [show ((BigFloat.ofSBigInt (SBigInt.from_sign_and_magnitude x.m.is_negative
            (x.trunc_fract.1).magnitude)).add_with_precision q (prec + 16)).val - x.val =
            (((BigFloat.ofSBigInt (SBigInt.from_sign_and_magnitude x.m.is_negative
              (x.trunc_fract.1).magnitude)).add_with_precision q (prec + 16)).val
              - ((BigFloat.ofSBigInt (SBigInt.from_sign_and_magnitude x.m.is_negative
                (x.trunc_fract.1).magnitude)).val + q.val))
            + (q.val - (if x.m.is_negative = true then (-1 : ℚ) else 1)
              * (x.trunc_fract.2).val) from by rw [hxw]; ring]
          exact abs_add _ _
        exact le_trans htri (add_le_add hadd herr)
      have hsum : (2 : ℚ) ^ (-(prec + 16) - 1) + 2 ^ (-(prec + 16) - 1)
          = 2 ^ (-prec - 16) := by
        rw [show (-prec - 16 : ℤ) = (-(prec + 16) - 1) + 1 from by ring, two_zpow_add]
        norm_num
        ring
      have hlt : (2 : ℚ) ^ (-prec - 16) < 2 ^ (-prec - 1) :=
        zpow_lt_zpow_right₀ (by norm_num) (by omega)
      rw [hsum] at hstep
      exact lt_of_le_of_lt hstep hlt
    have hfin := BigFloat.round_to_precision_recovers
      (BigFloat.add_with_precision_inv (BigFloat.ofSBigInt_inv _)
        (BigFloat.divF_inv hq) (prec + 16))
      hx hxmag hprecE hclose
    rw [← hy]
    exact hfin

/-- C6: for every BigFloat `b` (satisfying the representation
invariant, with a canonically signed mantissa) whose decimal rendering
terminates, parsing the rendered decimal string back with the default
precision derived from the fractional digit count returns a BigFloat
equal to `b`: `parse(render(b)) == b`. -/
theorem decimal_roundtrip (b : BigFloat) (hb : b.Inv) (hwf : b.m.Wf)
    (f1 f2 : ℕ) (s : List ℕ) (y : BigFloat)
    (h1 : BigFloat.to_string_radix b 10 f1 = some s)
    (h2 : BigFloat.from_ascii_radix s 10 f2 = some y) :
    y = b := by
  have hisneg : BigFloat.is_negative b = b.m.is_negative := rfl
  have habs : (SBigInt.abs (b.trunc_fract.1)).to_string_radix 10 =
      BigUInt.to_string_radix (b.trunc_fract.1).magnitude 10 := rfl
  unfold BigFloat.to_string_radix at h1
  dsimp only at h1
  rw [hisneg, habs] at h1
  unfold BigFloat.from_ascii_radix at h2
  by_cases hFz : (b.trunc_fract.2).is_zero = true
  · rw [if_pos hFz] at h1
    have hs := Option.some.inj h1
    rw [← hs] at h2
    rw [BigFloat.roundtrip_int_case b hb hwf _ f2 hFz] at h2
    exact (Option.some.inj h2).symm
  · rw [if_neg hFz] at h1
    obtain ⟨ds, hds, hseq⟩ := Option.map_eq_some'.mp h1
    rw [← hseq] at h2
    exact BigFloat.roundtrip_fract_case b hb hwf f1 f2 ds _ y hFz hds
      (by
        have h46 : (46 : ℕ) ∉ (if b.m.is_negative = true then [45] else ([] : List ℕ)) ++
            BigUInt.to_string_radix (b.trunc_fract.1).magnitude 10 := by
          intro hmem
          rcases List.mem_append.mp hmem with hsg | hw
          · by_cases hf : b.m.is_negative = true
            · rw [if_pos hf] at hsg
              simp at hsg
            · rw [if_neg hf] at hsg
              simp at hsg
          · have := BigUInt.to_string_radix_range (b.trunc_fract.1).magnitude 46 hw
            omega
        have hsp : split_once ((if b.m.is_negative = true then [45] else ([] : List ℕ)) ++
            BigUInt.to_string_radix (b.trunc_fract.1).magnitude 10 ++ 46 :: ds) 46 =
            some ((if b.m.is_negative = true then [45] else ([] : List ℕ)) ++
              BigUInt.to_string_radix (b.trunc_fract.1).magnitude 10, ds) :=
          split_once_append h46
        rw [hsp]
        simp only [Option.map_some', Option.getD_some]
        rw [show ilog2N 10 = 3 from by decide]
        push_cast
        omega) h2

set_option maxRecDepth 100000 in
/-- The round trip at the concrete value `-123.125`
(mantissa `-985`, exponent `-3`): rendering yields `"-123.125"` and
parsing that string back returns the starting BigFloat. -/
theorem decimal_roundtrip_witness :
    (⟨⟨true, 985⟩, -3⟩ : BigFloat).Inv ∧ (⟨⟨true, 985⟩, -3⟩ : BigFloat).m.Wf ∧
    BigFloat.to_string_radix ⟨⟨true, 985⟩, -3⟩ 10 20 =
      some [45, 49, 50, 51, 46, 49, 50, 53] ∧
    BigFloat.from_ascii_radix [45, 49, 50, 51, 46, 49, 50, 53] 10 100 =
      some ⟨⟨true, 985⟩, -3⟩ ∧
    (⟨⟨true, 985⟩, -3⟩ : BigFloat) = ⟨⟨true, 985⟩, -3⟩ := by
  have h3 : BigFloat.to_string_radix ⟨⟨true, 985⟩, -3⟩ 10 20 =
      some [45, 49, 50, 51, 46, 49, 50, 53] := by decide
  have h4 : BigFloat.from_ascii_radix [45, 49, 50, 51, 46, 49, 50, 53] 10 100 =
      some ⟨⟨true, 985⟩, -3⟩ := by decide
  exact ⟨by decide, by decide, h3, h4,
    decimal_roundtrip ⟨⟨true, 985⟩, -3⟩ (by decide) (by decide) 20 100
      [45, 49, 50, 51, 46, 49, 50, 53] ⟨⟨true, 985⟩, -3⟩ h3 h4⟩

end CalcInf
